import Mathlib

/-!
# Initialization of the granular-particle simulation (`src/cpp/initialization.cpp`)

A shallow embedding of `compute_mass` and `initialize`, and the properties of
the initial state they build.

* `double` is `F64`, IEEE-754 binary64 with round-to-nearest-even.
* `unsigned int` is a natural number reduced modulo `2 ^ 32`, `size_t` one
  reduced modulo `2 ^ 64`. A conversion `double → unsigned int` that C++ leaves
  undefined yields a value the theorems make no assumption on.
* The nine global arrays are `Buf`s: the element count requested, the number
  of entries the array has, and the contents of the cells. A `calloc` whose
  byte count does not fit in
  `size_t` returns the null pointer, an array without entries; every other
  `calloc` is taken to find the memory it asks for. A store `b[i] = v` with
  `i` outside the array is undefined in C++: the model leaves the array as it
  is, and the trace shows the store.
* The state carries a `trace` of the array stores and of the evaluations of
  `i % max_in_x`, in program order.
* The geometry of the lattice is stated on the exact values of the doubles
  stored (`F64.toRat?`), for configurations whose radius is a double of the
  format (`F64.wf`) and whose limits are finite doubles below `2 ^ 1022`
  (`F64.moderate`); the proofs bound the error of every rounded quotient and
  sum relatively by `2 ^ -52`.
-/

/-! ## IEEE-754 binary64 -/

/-- A `double`. `finite neg man exp` is `(-1)^neg * man * 2^exp`; the values the
operations below produce have `man < 2^53`, `-1074 ≤ exp ≤ 971`, and
`2^52 ≤ man` unless `exp = -1074` (subnormals and the two zeros). -/
inductive F64 where
  | finite (neg : Bool) (man : Nat) (exp : Int)
  | inf (neg : Bool)
  | nan
deriving DecidableEq, Repr

namespace F64

/-- Number of binary digits of `n` (the recursion is on `fuel`; `bits n n` is
the bit length of `n`). -/
def bits : Nat → Nat → Nat
  | 0, _ => 0
  | fuel + 1, n => if n = 0 then 0 else bits fuel (n / 2) + 1

/-- Quotient `N / D` rounded to the nearest integer, ties to even. -/
def rne (N D : Nat) : Nat :=
  let q := N / D
  let r := N % D
  if 2 * r > D ∨ (2 * r = D ∧ q % 2 = 1) then q + 1 else q

/-- Mantissa and exponent of the double nearest to `(n / d) * 2^k`, `n > 0`
(ties to even; mantissas below `2^52` only at the exponent `-1074`). -/
def nearest (n d : Nat) (k : Int) : Nat × Int :=
  let l : Int := (bits n n : Int) - (bits d d : Int) + k
  let e0 : Int := max (l - 53) (-1074)
  let N := n * 2 ^ (k - e0).toNat
  let D := d * 2 ^ (e0 - k).toNat
  let e1 : Int := if N / D ≥ 2 ^ 53 then e0 + 1 else e0
  let D1 := if N / D ≥ 2 ^ 53 then 2 * D else D
  let m := rne N D1
  if m = 2 ^ 53 then (2 ^ 52, e1 + 1) else (m, e1)

/-- The double with the given sign, mantissa and exponent, or the infinity of
that sign when the exponent is beyond the largest one. -/
def pack (neg : Bool) (m : Nat) (e : Int) : F64 :=
  if e > 971 then inf neg else finite neg m e

/-- The double nearest to `(-1)^neg * (n / d) * 2^k` (ties to even; overflow
gives an infinity, underflow a subnormal or a zero of the same sign). -/
def round (neg : Bool) (n d : Nat) (k : Int) : F64 :=
  if n = 0 then finite neg 0 (-1074)
  else pack neg (nearest n d k).1 (nearest n d k).2

/-- Conversion of an integer constant (`2`, `4`) to `double`. -/
def ofNat (n : Nat) : F64 := round false n 1 0

/-- The double `+0.0`: the value of eight zero bytes, as `calloc` leaves them. -/
def zero : F64 := finite false 0 (-1074)

/-- The mantissa of a finite double at exponent `e`, with its sign. -/
def scaled (neg : Bool) (man : Nat) (exp e : Int) : Int :=
  (if neg then -1 else 1) * ((man * 2 ^ (exp - e).toNat : Nat) : Int)

/-- The sum `a + b` of two doubles. -/
def add : F64 → F64 → F64
  | nan, _ => nan
  | _, nan => nan
  | inf a, inf b => if a = b then inf a else nan
  | inf a, finite _ _ _ => inf a
  | finite _ _ _, inf b => inf b
  | finite na ma ea, finite nb mb eb =>
    let e := min ea eb
    let z := scaled na ma ea e + scaled nb mb eb e
    if z = 0 then finite (na && nb) 0 (-1074)
    else round (decide (z < 0)) z.natAbs 1 e

/-- The product `a * b` of two doubles. -/
def mul : F64 → F64 → F64
  | nan, _ => nan
  | _, nan => nan
  | inf a, inf b => inf (xor a b)
  | inf a, finite nb mb _ => if mb = 0 then nan else inf (xor a nb)
  | finite na ma _, inf b => if ma = 0 then nan else inf (xor na b)
  | finite na ma ea, finite nb mb eb => round (xor na nb) (ma * mb) 1 (ea + eb)

/-- The quotient `a / b` of two doubles. -/
def div : F64 → F64 → F64
  | nan, _ => nan
  | _, nan => nan
  | inf _, inf _ => nan
  | inf a, finite nb _ _ => inf (xor a nb)
  | finite na _ _, inf b => finite (xor na b) 0 (-1074)
  | finite na ma ea, finite nb mb eb =>
    if mb = 0 then (if ma = 0 then nan else inf (xor na nb))
    else round (xor na nb) ma mb (ea - eb)

/-- The `floor` of `<cmath>`. -/
def floor : F64 → F64
  | nan => nan
  | inf a => inf a
  | finite neg m e =>
    if e ≥ 0 ∨ m = 0 then finite neg m e
    else
      let p := 2 ^ (-e).toNat
      if neg then round true (if m % p = 0 then m / p else m / p + 1) 1 0
      else round false (m / p) 1 0

/-- The comparison `a < b` of two doubles (false when either is a NaN). -/
def lt : F64 → F64 → Bool
  | nan, _ => false
  | _, nan => false
  | inf a, inf b => a && !b
  | inf a, finite _ _ _ => a
  | finite _ _ _, inf b => !b
  | finite na ma ea, finite nb mb eb =>
    let e := min ea eb
    decide (scaled na ma ea e < scaled nb mb eb e)

/-- The integer a double truncates to (rounding toward zero), when the double
is finite and that integer is not negative. -/
def trunc? : F64 → Option Nat
  | finite neg m e =>
    let t := if e ≥ 0 then m * 2 ^ e.toNat else m / 2 ^ (-e).toNat
    if neg ∧ t ≠ 0 then none else some t
  | _ => none

/-- Conversion `double → unsigned int`: the truncated value when it fits in 32
bits. For every other double C++ leaves the conversion undefined; `oor x` is
what the platform yields there, reduced to 32 bits. -/
def toUInt (oor : F64 → Nat) (x : F64) : Nat :=
  match trunc? x with
  | some t => if t < 2 ^ 32 then t else oor x % 2 ^ 32
  | none => oor x % 2 ^ 32

/-- The exact value of a finite double, as a rational number. -/
def toRat? : F64 → Option ℚ
  | finite neg m e => some ((if neg then -1 else 1) * (m : ℚ) * (2 : ℚ) ^ e)
  | _ => none

/-- Adding `d` to `x`, `n` times in a row, each sum rounded to a double. -/
def addn (d : F64) : Nat → F64 → F64
  | 0, x => x
  | n + 1, x => add (addn d n x) d

/-- The negation `-a` of a double: the sign bit flipped. -/
def neg : F64 → F64
  | nan => nan
  | inf a => inf (!a)
  | finite a m e => finite (!a) m e

/-- The difference `a - b` of two doubles. -/
def sub (a b : F64) : F64 := add a (neg b)

/-- The absolute value `fabs (a)` of a double: the sign bit cleared. -/
def abs : F64 → F64
  | nan => nan
  | inf _ => inf false
  | finite _ m e => finite false m e

/-- The comparison `a <= b` of two doubles (false when either is a NaN). -/
def le : F64 → F64 → Bool
  | nan, _ => false
  | _, nan => false
  | a, b => !(lt b a)

/-- Mantissa and exponent of a finite double are within the format: a mantissa
of at most 53 bits and an exponent of at least `-1074`. -/
def wf : F64 → Prop
  | finite _ m e => m < 2 ^ 53 ∧ -1074 ≤ e
  | _ => True

instance (x : F64) : Decidable x.wf := by
  cases x <;> unfold wf <;> infer_instance

/-- A finite double with the sign bit clear, mantissa and exponent within the
format, and the value `v`. -/
def holds (x : F64) (v : ℚ) : Prop :=
  ∃ (m : Nat) (e : Int), x = finite false m e ∧ m < 2 ^ 53 ∧ -1074 ≤ e ∧ (m : ℚ) * 2 ^ e = v

/-- The least value that rounds to `+∞` whatever the rounding: `2 ^ 1024`. -/
def huge : ℚ := 2 ^ (1024 : Int)

/-- A finite double of the binary64 format with an exponent of at most `969`:
its magnitude is below `2 ^ 1022`. -/
def moderate : F64 → Prop
  | finite _ m e => m < 2 ^ 53 ∧ -1074 ≤ e ∧ e ≤ 969
  | _ => False

instance (x : F64) : Decidable x.moderate := by
  cases x <;> unfold moderate <;> infer_instance

end F64

/-- `M_PI`: the double nearest to π, `3.141592653589793`
(`0x400921FB54442D18`). Both the constant of `<cmath>` and the fallback
`#define` of the source are this double. -/
def M_PI : F64 := F64.finite false 7074237752028440 (-51)

/-! ## Data model -/

/-- `Config` (`config.h`): the physical parameters, all `double`. -/
structure Config where
  rho : F64
  thickness : F64
  radius : F64
  x_limit : F64
  y_limit : F64
  kn : F64
  ks : F64
  v0 : F64
deriving DecidableEq, Repr

/-- A valid configuration: `radius > 0`, `x_limit > 0`, `y_limit > 0`. -/
def Config.valid (c : Config) : Prop :=
  F64.lt F64.zero c.radius = true ∧ F64.lt F64.zero c.x_limit = true ∧
    F64.lt F64.zero c.y_limit = true

instance (c : Config) : Decidable c.valid := by
  unfold Config.valid
  infer_instance

/-- `Particle` (`data.h`). -/
structure Particle where
  x_coordinate : F64
  y_coordinate : F64
  radius : F64
deriving DecidableEq, Repr

/-- `ParticleProperties` (`data.h`). -/
structure ParticleProperties where
  mass : F64
  kn : F64
  ks : F64
deriving DecidableEq, Repr

/-- `Vector` (`data.h`). The source names `y_component` only. -/
structure Vector where
  x_component : F64
  y_component : F64
deriving DecidableEq, Repr

/-- What `initialize` takes from outside `initialization.cpp`. -/
structure Externals where
  /-- The type `Contact` of `data.h`. -/
  Contact : Type
  /-- The `Contact` whose bytes are all zero. -/
  contact_zero : Contact
  /-- The number of bytes of a `Contact`, `sizeof (Contact)`. -/
  sizeof_contact : Nat
  /-- The function `size_triangular_matrix` of `functions.h`. -/
  size_triangular_matrix : Nat → Nat
  /-- The value the platform gives a `double → unsigned int` conversion that
  C++ leaves undefined. -/
  conv_undefined : F64 → Nat

/-- A `calloc`ed array: the element count handed to `calloc`, the number of
entries the array has (none when `calloc` returned the null pointer), and the
contents of the cells. -/
structure Buf (α : Type) where
  requested : Nat
  len : Nat
  cell : Nat → α

/-- `calloc (n, size)` for elements of `size` bytes whose zero bytes read as
`z`: the null pointer, an array without entries, when `n * size` does not fit
in `size_t`; otherwise `n` entries, every byte zero. -/
def calloc {α : Type} (n size : Nat) (z : α) : Buf α :=
  if n * size < 2 ^ 64 then ⟨n, n, fun _ => z⟩ else ⟨n, 0, fun _ => z⟩

/-- The store `b[i] = f (b[i])` (a store to one field of `b[i]`). Outside the
array the store is undefined, and the array is left as it is. -/
def Buf.modify {α : Type} (b : Buf α) (i : Nat) (f : α → α) : Buf α :=
  ⟨b.requested, b.len, fun j => if j = i ∧ i < b.len then f (b.cell j) else b.cell j⟩

/-- `sizeof (double)`. -/
def sizeof_double : Nat := 8

/-- `sizeof (Particle)`: the three `double`s the source names. (For fewer than
`2^32` elements any element size below `2^32` gives a byte count that fits in
`size_t`.) -/
def sizeof_particle : Nat := 3 * sizeof_double

/-- `sizeof (ParticleProperties)`: the three `double`s the source names. -/
def sizeof_properties : Nat := 3 * sizeof_double

/-- `sizeof (Vector)`: two `double`s. -/
def sizeof_vector : Nat := 2 * sizeof_double

/-- The arrays `initialize` stores to. -/
inductive ArrayId where
  | particles
  | properties
  | velocities
deriving DecidableEq, Repr

/-- What the trace records: a store to `a[i]`, and an evaluation of `i % m`. -/
inductive Event where
  | store (a : ArrayId) (i : Nat)
  | modulus (i m : Nat)
deriving DecidableEq, Repr

/-- The global simulation data structures, and the trace of the run. -/
structure State (E : Externals) where
  particles : Buf Particle
  properties : Buf ParticleProperties
  contacts_buffer : Buf E.Contact
  normal_forces : Buf F64
  tangent_forces : Buf F64
  forces : Buf Vector
  accelerations : Buf Vector
  velocities : Buf Vector
  displacements : Buf Vector
  trace : List Event

/-! ## The program -/

/-- `compute_mass`: `rho * thickness * M_PI * radius * radius`, the products
taken from left to right. -/
def compute_mass (config : Config) : F64 :=
  F64.mul (F64.mul (F64.mul (F64.mul config.rho config.thickness) M_PI) config.radius)
    config.radius

/-- The six stores of one pass of the lattice loop, lines 69 to 74. -/
def lattice_body {E : Externals} (config : Config) (mass : F64) (i : Nat) (x y : F64)
    (s : State E) : State E :=
  { s with
    particles :=
      ((s.particles.modify i (fun p => { p with x_coordinate := x })).modify i
        (fun p => { p with y_coordinate := y })).modify i
        (fun p => { p with radius := config.radius })
    properties :=
      ((s.properties.modify i (fun p => { p with mass := mass })).modify i
        (fun p => { p with kn := config.kn })).modify i
        (fun p => { p with ks := config.ks })
    trace := s.trace ++
      [Event.store .particles i, Event.store .particles i, Event.store .particles i,
       Event.store .properties i, Event.store .properties i, Event.store .properties i] }

/-- The loop `for (size_t i = 1; i < num_particles; ++i)` of lines 68 to 85,
entered at `i` with the running position `(x, y)`. Each pass uses one unit of
`fuel`. (`++i` does not wrap: `i < num_particles`.) -/
def lattice_loop {E : Externals} (config : Config) (diameter mass : F64)
    (max_in_x num_particles : Nat) : Nat → Nat → F64 → F64 → State E → State E
  | 0, _, _, _, s => s
  | fuel + 1, i, x, y, s =>
    if i < num_particles then
      let s1 := lattice_body config mass i x y s
      let s2 := { s1 with trace := s1.trace ++ [Event.modulus i max_in_x] }
      if i % max_in_x = 0 then
        lattice_loop config diameter mass max_in_x num_particles fuel (i + 1)
          config.radius (F64.add y diameter) s2
      else
        lattice_loop config diameter mass max_in_x num_particles fuel (i + 1)
          (F64.add x diameter) y s2
    else s

/-- The seven stores that set up the falling particle, lines 88 to 94. -/
def impactor {E : Externals} (config : Config) (mass : F64) (s : State E) : State E :=
  { s with
    particles :=
      ((s.particles.modify 0
        (fun p => { p with x_coordinate := F64.div config.x_limit (F64.ofNat 2) })).modify 0
        (fun p => { p with
          y_coordinate := F64.add config.y_limit (F64.mul (F64.ofNat 4) config.radius) })).modify 0
        (fun p => { p with radius := config.radius })
    properties :=
      ((s.properties.modify 0 (fun p => { p with mass := mass })).modify 0
        (fun p => { p with kn := config.kn })).modify 0
        (fun p => { p with ks := config.ks })
    velocities := s.velocities.modify 0 (fun v => { v with y_component := config.v0 })
    trace := s.trace ++
      [Event.store .particles 0, Event.store .particles 0, Event.store .particles 0,
       Event.store .properties 0, Event.store .properties 0, Event.store .properties 0,
       Event.store .velocities 0] }

/-- `diameter`, line 42. -/
def diameter (config : Config) : F64 := F64.mul (F64.ofNat 2) config.radius

/-- `max_in_x`, line 46. -/
def max_in_x (E : Externals) (config : Config) : Nat :=
  F64.toUInt E.conv_undefined (F64.floor (F64.div config.x_limit (diameter config)))

/-- `max_in_y`, line 47. -/
def max_in_y (E : Externals) (config : Config) : Nat :=
  F64.toUInt E.conv_undefined (F64.floor (F64.div config.y_limit (diameter config)))

/-- `num_particles`, line 52: the product and the sum are `unsigned int`
operations, and their result is widened to `size_t`. -/
def num_particles (E : Externals) (config : Config) : Nat :=
  ((max_in_x E config * max_in_y E config) % 2 ^ 32 + 1) % 2 ^ 32

/-- The state after the nine `calloc`s of lines 55 to 63. -/
def allocate (E : Externals) (n : Nat) : State E :=
  { particles := calloc n sizeof_particle ⟨F64.zero, F64.zero, F64.zero⟩
    properties := calloc n sizeof_properties ⟨F64.zero, F64.zero, F64.zero⟩
    contacts_buffer := calloc (E.size_triangular_matrix n) E.sizeof_contact E.contact_zero
    normal_forces := calloc ((n * n) % 2 ^ 64) sizeof_double F64.zero
    tangent_forces := calloc ((n * n) % 2 ^ 64) sizeof_double F64.zero
    forces := calloc n sizeof_vector ⟨F64.zero, F64.zero⟩
    accelerations := calloc n sizeof_vector ⟨F64.zero, F64.zero⟩
    velocities := calloc n sizeof_vector ⟨F64.zero, F64.zero⟩
    displacements := calloc n sizeof_vector ⟨F64.zero, F64.zero⟩
    trace := [] }

/-- What a call of `initialize` leaves: the value returned and the globals. -/
structure Run (E : Externals) where
  returned : Nat
  state : State E

/-- `initialize`. The loop gets `num_particles` units of fuel, and makes
`num_particles - 1` passes at most. -/
def Sim.initialize (E : Externals) (config : Config) : Run E :=
  let mass := compute_mass config
  let n := num_particles E config
  let s0 := allocate E n
  let s1 := lattice_loop config (diameter config) mass (max_in_x E config) n n 1
    config.radius config.radius s0
  ⟨n, impactor config mass s1⟩

/-- The running position `(x, y)` of the lattice loop `k` passes after it
stood at `(x, y)` on entering pass `i`. -/
def lattice_pos (config : Config) (diameter : F64) (max_in_x : Nat) :
    Nat → Nat → F64 → F64 → F64 × F64
  | 0, _, x, y => (x, y)
  | k + 1, i, x, y =>
    if i % max_in_x = 0 then
      lattice_pos config diameter max_in_x k (i + 1) config.radius (F64.add y diameter)
    else lattice_pos config diameter max_in_x k (i + 1) (F64.add x diameter) y

/-- The column of the grid in which pass `i` of the loop places particle `i`. -/
def column (E : Externals) (c : Config) (i : Nat) : Nat := (i - 1) % max_in_x E c

/-- The row of the grid in which pass `i` of the loop places particle `i`. -/
def row (E : Externals) (c : Config) (i : Nat) : Nat := (i - 1) / max_in_x E c

/-- The last lattice particle of the first row: the one in the last column in
use. -/
def rightmost (E : Externals) (c : Config) : Nat :=
  min (max_in_x E c) (( Sim.initialize E c).returned - 1)

/-! ## Concrete inputs -/

/-- One choice of the externals, for running the program on concrete inputs:
`Contact` is a record without content, `size_triangular_matrix n` the number
of unordered pairs of `n` particles, and an undefined conversion yields `0`. -/
def Externals.sample : Externals :=
  { Contact := Unit
    contact_zero := ()
    sizeof_contact := 1
    size_triangular_matrix := fun n => n * (n - 1) / 2
    conv_undefined := fun _ => 0 }

/-- The double `-2.0`. -/
def F64.minus_two : F64 := F64.finite true 4503599627370496 (-51)

/-- The double `0.5`. -/
def F64.half : F64 := F64.finite false 4503599627370496 (-53)

/-- The example of the specification:
`Config{radius=1, x_limit=10, y_limit=5, rho=1, thickness=1, kn=0, ks=0, v0=-2}`. -/
def config_example : Config :=
  { rho := F64.ofNat 1, thickness := F64.ofNat 1, radius := F64.ofNat 1
    x_limit := F64.ofNat 10, y_limit := F64.ofNat 5
    kn := F64.zero, ks := F64.zero, v0 := F64.minus_two }

/-- A domain of `65536 × 65536` particles of radius `0.5`. -/
def config_wrap : Config :=
  { rho := F64.ofNat 1, thickness := F64.ofNat 1, radius := F64.half
    x_limit := F64.ofNat 65536, y_limit := F64.ofNat 65536
    kn := F64.zero, ks := F64.zero, v0 := F64.minus_two }

/-- A radius of `2^52 + 1` in a domain of `2^55 × 2^55`: the diameter is
`2^53 + 2`, three particles fit along each axis, and the sums of radius and
diameters are integers above `2^53`, which a double holds only when even (up
to `2^54`) or a multiple of four (up to `2^55`). -/
def config_rounding : Config :=
  { rho := F64.ofNat 1, thickness := F64.ofNat 1, radius := F64.ofNat 4503599627370497
    x_limit := F64.ofNat 36028797018963968, y_limit := F64.ofNat 36028797018963968
    kn := F64.zero, ks := F64.zero, v0 := F64.minus_two }

/-- A radius of `2^52 + 3` in a domain of width `4 * diameter = 2^55 + 24` and
height `diameter = 2^53 + 6`: one row of four particles. Radius, diameter and
limits are integers that a double holds; the sums formed from them are
integers above `2^53`, which a double holds only when even (up to `2^54`) or a
multiple of four (up to `2^55`). -/
def config_tight : Config :=
  { rho := F64.ofNat 1, thickness := F64.ofNat 1, radius := F64.ofNat 4503599627370499
    x_limit := F64.ofNat 36028797018963992, y_limit := F64.ofNat 9007199254740998
    kn := F64.zero, ks := F64.zero, v0 := F64.minus_two }

/-- A radius of `1` in a domain of `5 × 5`: two particles fit along each axis
and leave a strip of width `1`. -/
def config_strip : Config :=
  { rho := F64.ofNat 1, thickness := F64.ofNat 1, radius := F64.ofNat 1
    x_limit := F64.ofNat 5, y_limit := F64.ofNat 5
    kn := F64.zero, ks := F64.zero, v0 := F64.minus_two }

/-- A domain of `4294967295 × 1` particles of radius `0.5`. -/
def config_wrap_zero : Config :=
  { rho := F64.ofNat 1, thickness := F64.ofNat 1, radius := F64.half
    x_limit := F64.ofNat 4294967295, y_limit := F64.ofNat 1
    kn := F64.zero, ks := F64.zero, v0 := F64.minus_two }

/-! ## The lattice loop -/

section Loop

variable {E : Externals} (config : Config) (d mass : F64) (mx n : Nat)

theorem Buf.modify_len {α : Type} (b : Buf α) (i : Nat) (f : α → α) :
    (b.modify i f).len = b.len := rfl

theorem Buf.modify_cell_of_lt {α : Type} (b : Buf α) (i j : Nat) (f : α → α) (h : i < b.len) :
    (b.modify i f).cell j = if j = i then f (b.cell j) else b.cell j := by
  simp [Buf.modify, h]

theorem Buf.modify_cell_of_ne {α : Type} (b : Buf α) (i j : Nat) (f : α → α) (h : j ≠ i) :
    (b.modify i f).cell j = b.cell j := by
  simp [Buf.modify, h]

theorem lattice_body_len (i : Nat) (x y : F64) (s : State E) :
    (lattice_body config mass i x y s).particles.len = s.particles.len ∧
      (lattice_body config mass i x y s).properties.len = s.properties.len := by
  simp [lattice_body, Buf.modify_len]

theorem lattice_body_cell_of_ne (i j : Nat) (x y : F64) (s : State E) (h : j ≠ i) :
    (lattice_body config mass i x y s).particles.cell j = s.particles.cell j ∧
      (lattice_body config mass i x y s).properties.cell j = s.properties.cell j := by
  simp [lattice_body, Buf.modify_cell_of_ne, h]

theorem lattice_body_particles_cell (i : Nat) (x y : F64) (s : State E)
    (hi : i < s.particles.len) :
    (lattice_body config mass i x y s).particles.cell i = ⟨x, y, config.radius⟩ := by
  simp [lattice_body, Buf.modify_cell_of_lt, Buf.modify_len, hi]

theorem lattice_body_properties_cell (i : Nat) (x y : F64) (s : State E)
    (hi : i < s.properties.len) :
    (lattice_body config mass i x y s).properties.cell i = ⟨mass, config.kn, config.ks⟩ := by
  simp [lattice_body, Buf.modify_cell_of_lt, Buf.modify_len, hi]

/-- The loop leaves alone every array but `particles` and `properties`, and
the lengths of these two. -/
theorem lattice_loop_frame (fuel i : Nat) (x y : F64) (s : State E) :
    let t := lattice_loop config d mass mx n fuel i x y s
    t.velocities = s.velocities ∧ t.forces = s.forces ∧
      t.accelerations = s.accelerations ∧ t.displacements = s.displacements ∧
      t.contacts_buffer = s.contacts_buffer ∧ t.normal_forces = s.normal_forces ∧
      t.tangent_forces = s.tangent_forces ∧ t.particles.len = s.particles.len ∧
      t.properties.len = s.properties.len := by
  induction fuel generalizing i x y s with
  | zero => simp [lattice_loop]
  | succ f ih =>
    simp only [lattice_loop]
    split
    · split
      · have h := ih (i + 1) config.radius (F64.add y d)
          { lattice_body config mass i x y s with
            trace := (lattice_body config mass i x y s).trace ++ [Event.modulus i mx] }
        simpa [lattice_body, Buf.modify_len] using h
      · have h := ih (i + 1) (F64.add x d) y
          { lattice_body config mass i x y s with
            trace := (lattice_body config mass i x y s).trace ++ [Event.modulus i mx] }
        simpa [lattice_body, Buf.modify_len] using h
    · simp

/-- The loop entered at `i` stores to no cell below `i`, and to none from
`num_particles` on. -/
theorem lattice_loop_cell_outside (fuel i j : Nat) (x y : F64) (s : State E)
    (hj : j < i ∨ n ≤ j) :
    let t := lattice_loop config d mass mx n fuel i x y s
    t.particles.cell j = s.particles.cell j ∧ t.properties.cell j = s.properties.cell j := by
  induction fuel generalizing i x y s with
  | zero => simp [lattice_loop]
  | succ f ih =>
    simp only [lattice_loop]
    split
    · rename_i hi
      have hji : j ≠ i := by omega
      have hj1 : j < i + 1 ∨ n ≤ j := by omega
      have hb := lattice_body_cell_of_ne config mass i j x y s hji
      split
      · have h := ih (i + 1) config.radius (F64.add y d)
          { lattice_body config mass i x y s with
            trace := (lattice_body config mass i x y s).trace ++ [Event.modulus i mx] } hj1
        exact ⟨h.1.trans hb.1, h.2.trans hb.2⟩
      · have h := ih (i + 1) (F64.add x d) y
          { lattice_body config mass i x y s with
            trace := (lattice_body config mass i x y s).trace ++ [Event.modulus i mx] } hj1
        exact ⟨h.1.trans hb.1, h.2.trans hb.2⟩
    · simp

/-- With fuel for every pass and arrays of `num_particles` entries at least,
the loop entered at `i` leaves in cell `j`, `i ≤ j < num_particles`, the
running position of pass `j`, the radius, the mass and the two stiffnesses. -/
theorem lattice_loop_cell_inside (fuel i j : Nat) (x y : F64) (s : State E)
    (hij : i ≤ j) (hjn : j < n) (hfuel : n - i ≤ fuel)
    (hpl : n ≤ s.particles.len) (hql : n ≤ s.properties.len) :
    let t := lattice_loop config d mass mx n fuel i x y s
    t.particles.cell j =
        ⟨(lattice_pos config d mx (j - i) i x y).1, (lattice_pos config d mx (j - i) i x y).2,
          config.radius⟩ ∧
      t.properties.cell j = ⟨mass, config.kn, config.ks⟩ := by
  induction fuel generalizing i x y s with
  | zero => omega
  | succ f ih =>
    have hi : i < n := by omega
    have hlen := lattice_body_len config mass i x y s
    simp only [lattice_loop, if_pos hi]
    rcases Nat.eq_or_lt_of_le hij with rfl | hlt
    · -- the pass that stores to cell `j`
      have hout : i < i + 1 ∨ n ≤ i := Or.inl (Nat.lt_succ_self i)
      have hbp := lattice_body_particles_cell config mass i x y s (by omega)
      have hbq := lattice_body_properties_cell config mass i x y s (by omega)
      simp only [Nat.sub_self, lattice_pos]
      split
      · have h := lattice_loop_cell_outside config d mass mx n f (i + 1) i config.radius
          (F64.add y d)
          { lattice_body config mass i x y s with
            trace := (lattice_body config mass i x y s).trace ++ [Event.modulus i mx] } hout
        exact ⟨h.1.trans hbp, h.2.trans hbq⟩
      · have h := lattice_loop_cell_outside config d mass mx n f (i + 1) i (F64.add x d) y
          { lattice_body config mass i x y s with
            trace := (lattice_body config mass i x y s).trace ++ [Event.modulus i mx] } hout
        exact ⟨h.1.trans hbp, h.2.trans hbq⟩
    · have hk : j - i = (j - (i + 1)) + 1 := by omega
      rw [hk]
      simp only [lattice_pos]
      split
      · exact ih (i + 1) config.radius (F64.add y d) _ (by omega) (by omega)
          (by rw [hlen.1]; exact hpl) (by rw [hlen.2]; exact hql)
      · exact ih (i + 1) (F64.add x d) y _ (by omega) (by omega)
          (by rw [hlen.1]; exact hpl) (by rw [hlen.2]; exact hql)

end Loop

/-- The loop does not run out of fuel: with at least `num_particles - i` units
it ends on the test `i < num_particles`, and more fuel changes nothing. -/
theorem lattice_loop_enough_fuel {E : Externals} (config : Config) (d mass : F64) (mx n : Nat)
    (fuel i : Nat) (x y : F64) (s : State E) (hfuel : n - i ≤ fuel) :
    lattice_loop config d mass mx n fuel i x y s =
      lattice_loop config d mass mx n (n - i) i x y s := by
  induction fuel generalizing i x y s with
  | zero =>
    have h0 : n - i = 0 := by omega
    rw [h0]
  | succ f ih =>
    by_cases hi : i < n
    · have hk : n - i = (n - (i + 1)) + 1 := by omega
      rw [hk]
      simp only [lattice_loop, if_pos hi]
      split
      · exact ih (i + 1) _ _ _ (by omega)
      · exact ih (i + 1) _ _ _ (by omega)
    · have h0 : n - i = 0 := by omega
      rw [h0]
      simp [lattice_loop, hi]

/-! ## The row-major grid -/

theorem succ_div_mod_of_mod_eq_zero (k m : Nat) (h : (k + 1) % m = 0) (hm : 0 < m) :
    (k + 1) / m = k / m + 1 ∧ k % m + 1 = m := by
  have h1 := Nat.div_add_mod (k + 1) m
  have h2 := Nat.div_add_mod k m
  have h3 := Nat.mod_lt k hm
  rw [h] at h1
  have hq : k / m < (k + 1) / m := by
    by_contra hcon
    have hle : (k + 1) / m ≤ k / m := Nat.le_of_not_lt hcon
    have := Nat.mul_le_mul_left m hle
    omega
  have hq2 : (k + 1) / m ≤ k / m + 1 := by
    by_contra hcon
    have hle : k / m + 2 ≤ (k + 1) / m := by omega
    have := Nat.mul_le_mul_left m hle
    rw [Nat.mul_add] at this
    omega
  have heq : (k + 1) / m = k / m + 1 := by omega
  refine ⟨heq, ?_⟩
  rw [heq, Nat.mul_add] at h1
  omega

theorem succ_div_mod_of_mod_ne_zero (k m : Nat) (h : (k + 1) % m ≠ 0) (hm : 0 < m) :
    (k + 1) / m = k / m ∧ (k + 1) % m = k % m + 1 := by
  have h1 := Nat.div_add_mod (k + 1) m
  have h2 := Nat.div_add_mod k m
  have h3 := Nat.mod_lt k hm
  have h4 := Nat.mod_lt (k + 1) hm
  have hq : k / m ≤ (k + 1) / m := Nat.div_le_div_right (Nat.le_succ k)
  have hq2 : (k + 1) / m ≤ k / m := by
    by_contra hcon
    have hle : k / m + 1 ≤ (k + 1) / m := by omega
    have := Nat.mul_le_mul_left m hle
    rw [Nat.mul_add] at this
    omega
  have heq : (k + 1) / m = k / m := by omega
  refine ⟨heq, ?_⟩
  rw [heq] at h1
  omega

/-- The running position `k` passes after pass `k0 + 1`, when that pass was
entered at column `k0 % max_in_x` of row `k0 / max_in_x`. -/
theorem lattice_pos_grid (config : Config) (d : F64) (mx : Nat) (hm : 0 < mx) (k k0 : Nat) :
    lattice_pos config d mx k (k0 + 1) (F64.addn d (k0 % mx) config.radius)
        (F64.addn d (k0 / mx) config.radius) =
      (F64.addn d ((k0 + k) % mx) config.radius, F64.addn d ((k0 + k) / mx) config.radius) := by
  induction k generalizing k0 with
  | zero => simp [lattice_pos]
  | succ k ih =>
    simp only [lattice_pos]
    have hk : k0 + (k + 1) = (k0 + 1) + k := by omega
    split
    · rename_i h0
      obtain ⟨hq, _⟩ := succ_div_mod_of_mod_eq_zero k0 mx h0 hm
      have := ih (k0 + 1)
      rw [h0, hq] at this
      rw [hk]
      exact this
    · rename_i h0
      obtain ⟨hq, hr⟩ := succ_div_mod_of_mod_ne_zero k0 mx h0 hm
      have := ih (k0 + 1)
      rw [hr, hq] at this
      rw [hk]
      exact this

/-! ## The trace -/

/-- An event of the trace after the loop was there before, or is one of pass
`j` of the loop, `i ≤ j < num_particles`. -/
theorem lattice_loop_trace {E : Externals} (config : Config) (d mass : F64) (mx n : Nat)
    (fuel i : Nat) (x y : F64) (s : State E) (ev : Event)
    (hev : ev ∈ (lattice_loop config d mass mx n fuel i x y s).trace) :
    ev ∈ s.trace ∨ ∃ j, i ≤ j ∧ j < n ∧
      (ev = Event.modulus j mx ∨ ev = Event.store .particles j ∨
        ev = Event.store .properties j) := by
  induction fuel generalizing i x y s with
  | zero => exact Or.inl (by simpa [lattice_loop] using hev)
  | succ f ih =>
    simp only [lattice_loop] at hev
    split at hev
    · rename_i hi
      have key : ∀ (x1 y1 : F64),
          ev ∈ (lattice_loop config d mass mx n f (i + 1) x1 y1
            { lattice_body config mass i x y s with
              trace := (lattice_body config mass i x y s).trace ++ [Event.modulus i mx] }).trace →
          ev ∈ s.trace ∨ ∃ j, i ≤ j ∧ j < n ∧
            (ev = Event.modulus j mx ∨ ev = Event.store .particles j ∨
              ev = Event.store .properties j) := by
        intro x1 y1 h
        rcases ih (i + 1) x1 y1 _ h with h1 | ⟨j, hj1, hj2, hj3⟩
        · simp only [lattice_body, List.mem_append, List.mem_cons, List.mem_singleton,
            List.not_mem_nil, or_false] at h1
          rcases h1 with (h1 | h1) | h1
          · exact Or.inl h1
          · refine Or.inr ⟨i, le_refl i, hi, ?_⟩
            rcases h1 with h1 | h1 | h1 | h1 | h1 | h1 <;> simp [h1]
          · exact Or.inr ⟨i, le_refl i, hi, Or.inl h1⟩
        · exact Or.inr ⟨j, by omega, hj2, hj3⟩
      split at hev
      · exact key _ _ hev
      · exact key _ _ hev
    · exact Or.inl hev

/-! ## Doubles below one -/

namespace F64

theorem ofNat_two : ofNat 2 = finite false 4503599627370496 (-51) := by decide

/-- A double above `+0.0` is `+∞` or a finite double with the sign bit clear. -/
theorem pos_of_zero_lt (x : F64) (h : lt zero x = true) :
    x = inf false ∨ ∃ m e, x = finite false m e := by
  cases x with
  | nan => simp [lt, zero] at h
  | inf b => cases b <;> simp_all [lt, zero]
  | finite neg m e =>
    cases neg with
    | false => exact Or.inr ⟨m, e, rfl⟩
    | true =>
      exfalso
      simp only [lt, zero, scaled, decide_eq_true_eq, if_true, Bool.false_eq_true, if_false,
        Nat.zero_mul, Nat.cast_zero, mul_zero] at h
      have : (0 : Int) ≤ ((m * 2 ^ (e - min (-1074) e).toNat : Nat) : Int) := Int.ofNat_nonneg _
      linarith

end F64

/-! ## The count and the final state -/

theorem num_particles_lt (E : Externals) (c : Config) : num_particles E c < 2 ^ 32 :=
  Nat.mod_lt _ (by norm_num)

/-- More than one particle needs a row of at least one particle. -/
theorem max_in_x_pos_of_lt (E : Externals) (c : Config) (i : Nat) (h1 : 1 ≤ i)
    (hn : i < num_particles E c) : 1 ≤ max_in_x E c := by
  by_contra hcon
  have h0 : max_in_x E c = 0 := by omega
  have : num_particles E c = 1 := by simp [num_particles, h0]
  omega

theorem initialize_returned (E : Externals) (c : Config) :
    ( Sim.initialize E c).returned = num_particles E c := rfl

/-- A `calloc` whose byte count fits in `size_t` has the entries asked for. -/
theorem calloc_len_of_lt {α : Type} (n size : Nat) (z : α) (h : n * size < 2 ^ 64) :
    (calloc n size z).len = n := by
  unfold calloc
  rw [if_pos h]

/-- The six arrays of one entry per particle get their `num_particles`
entries: the byte count of a request for fewer than `2^32` elements of `16`
or `24` bytes fits in `size_t`. -/
theorem allocate_len (E : Externals) (n : Nat) (h : n < 2 ^ 32) :
    (allocate E n).particles.len = n ∧ (allocate E n).properties.len = n ∧
      (allocate E n).velocities.len = n ∧ (allocate E n).forces.len = n ∧
      (allocate E n).accelerations.len = n ∧ (allocate E n).displacements.len = n := by
  have h1 : n * sizeof_particle < 2 ^ 64 := by
    simp only [sizeof_particle, sizeof_double]; omega
  have h2 : n * sizeof_properties < 2 ^ 64 := by
    simp only [sizeof_properties, sizeof_double]; omega
  have h3 : n * sizeof_vector < 2 ^ 64 := by
    simp only [sizeof_vector, sizeof_double]; omega
  exact ⟨calloc_len_of_lt _ _ _ h1, calloc_len_of_lt _ _ _ h2, calloc_len_of_lt _ _ _ h3,
    calloc_len_of_lt _ _ _ h3, calloc_len_of_lt _ _ _ h3, calloc_len_of_lt _ _ _ h3⟩

/-- Every cell of a fresh array reads as zero. -/
theorem calloc_cell {α : Type} (n size : Nat) (z : α) (j : Nat) :
    (calloc n size z).cell j = z := by
  unfold calloc
  split <;> rfl

/-- The stores of the falling particle leave every cell but cell `0`. -/
theorem impactor_cells_of_ne {E : Externals} (c : Config) (mass : F64) (s : State E) (j : Nat)
    (h : j ≠ 0) :
    (impactor c mass s).particles.cell j = s.particles.cell j ∧
      (impactor c mass s).properties.cell j = s.properties.cell j ∧
      (impactor c mass s).velocities.cell j = s.velocities.cell j := by
  simp [impactor, Buf.modify_cell_of_ne, h]

/-- Cell `0` after the stores of the falling particle, in arrays that have an
entry `0`. -/
theorem impactor_cells {E : Externals} (c : Config) (mass : F64) (s : State E)
    (hp : 0 < s.particles.len) (hq : 0 < s.properties.len) (hv : 0 < s.velocities.len) :
    (impactor c mass s).particles.cell 0 =
        ⟨F64.div c.x_limit (F64.ofNat 2), F64.add c.y_limit (F64.mul (F64.ofNat 4) c.radius),
          c.radius⟩ ∧
      (impactor c mass s).properties.cell 0 = ⟨mass, c.kn, c.ks⟩ ∧
      (impactor c mass s).velocities.cell 0 = ⟨(s.velocities.cell 0).x_component, c.v0⟩ := by
  simp [impactor, Buf.modify_cell_of_lt, Buf.modify_len, hp, hq, hv]

/-- The stores of the falling particle change no length, and no array but
`particles`, `properties` and `velocities`. -/
theorem impactor_frame {E : Externals} (c : Config) (mass : F64) (s : State E) :
    (impactor c mass s).particles.len = s.particles.len ∧
      (impactor c mass s).properties.len = s.properties.len ∧
      (impactor c mass s).velocities.len = s.velocities.len ∧
      (impactor c mass s).forces = s.forces ∧
      (impactor c mass s).accelerations = s.accelerations ∧
      (impactor c mass s).displacements = s.displacements ∧
      (impactor c mass s).contacts_buffer = s.contacts_buffer ∧
      (impactor c mass s).normal_forces = s.normal_forces ∧
      (impactor c mass s).tangent_forces = s.tangent_forces := by
  simp [impactor, Buf.modify_len]

/-- Cell `i` of `particles` and of `properties` after `initialize`, for a
lattice index `i`. -/
theorem initialize_lattice_cell (E : Externals) (c : Config) (i : Nat) (h1 : 1 ≤ i)
    (hn : i < num_particles E c) :
    ( Sim.initialize E c).state.particles.cell i =
        ⟨F64.addn (diameter c) ((i - 1) % max_in_x E c) c.radius,
          F64.addn (diameter c) ((i - 1) / max_in_x E c) c.radius, c.radius⟩ ∧
      ( Sim.initialize E c).state.properties.cell i = ⟨compute_mass c, c.kn, c.ks⟩ := by
  have hm : 0 < max_in_x E c := max_in_x_pos_of_lt E c i h1 hn
  have hi0 : i ≠ 0 := by omega
  have hloop := lattice_loop_cell_inside c (diameter c) (compute_mass c) (max_in_x E c)
    (num_particles E c) (num_particles E c) 1 i c.radius c.radius
    (allocate E (num_particles E c)) h1 hn (by omega)
    (le_of_eq (allocate_len E _ (num_particles_lt E c)).1.symm)
    (le_of_eq (allocate_len E _ (num_particles_lt E c)).2.1.symm)
  have hgrid := lattice_pos_grid c (diameter c) (max_in_x E c) hm (i - 1) 0
  simp only [Nat.zero_mod, Nat.zero_div, F64.addn, Nat.zero_add] at hgrid
  rw [hgrid] at hloop
  obtain ⟨hp, hq, _⟩ := impactor_cells_of_ne c (compute_mass c)
    (lattice_loop c (diameter c) (compute_mass c) (max_in_x E c) (num_particles E c)
      (num_particles E c) 1 c.radius c.radius (allocate E (num_particles E c))) i hi0
  exact ⟨hp.trans hloop.1, hq.trans hloop.2⟩

/-- The arrays the loop leaves alone, as `initialize` allocated them. -/
theorem initialize_frame (E : Externals) (c : Config) :
    let n := num_particles E c
    let s := lattice_loop c (diameter c) (compute_mass c) (max_in_x E c) n n 1 c.radius
      c.radius (allocate E n)
    ( Sim.initialize E c).state = impactor c (compute_mass c) s ∧
      s.velocities = (allocate E n).velocities ∧ s.forces = (allocate E n).forces ∧
      s.accelerations = (allocate E n).accelerations ∧
      s.displacements = (allocate E n).displacements ∧
      s.contacts_buffer = (allocate E n).contacts_buffer ∧
      s.normal_forces = (allocate E n).normal_forces ∧
      s.tangent_forces = (allocate E n).tangent_forces ∧
      s.particles.len = n ∧ s.properties.len = n := by
  intro n s
  obtain ⟨h1, h2, h3, h4, h5, h6, h7, h8, h9⟩ :=
    lattice_loop_frame c (diameter c) (compute_mass c) (max_in_x E c) n n 1 c.radius
      c.radius (allocate E n)
  have hl := allocate_len E n (num_particles_lt E c)
  exact ⟨rfl, h1, h2, h3, h4, h5, h6, h7, h8.trans hl.1, h9.trans hl.2.1⟩

/-- The lengths `initialize` leaves, and the arrays it never stores to. -/
theorem initialize_arrays (E : Externals) (c : Config) :
    ( Sim.initialize E c).state.particles.len = num_particles E c ∧
      ( Sim.initialize E c).state.properties.len = num_particles E c ∧
      ( Sim.initialize E c).state.velocities.len = num_particles E c ∧
      ( Sim.initialize E c).state.forces = (allocate E (num_particles E c)).forces ∧
      ( Sim.initialize E c).state.accelerations = (allocate E (num_particles E c)).accelerations ∧
      ( Sim.initialize E c).state.displacements = (allocate E (num_particles E c)).displacements ∧
      ( Sim.initialize E c).state.contacts_buffer =
        (allocate E (num_particles E c)).contacts_buffer ∧
      ( Sim.initialize E c).state.normal_forces = (allocate E (num_particles E c)).normal_forces ∧
      ( Sim.initialize E c).state.tangent_forces =
        (allocate E (num_particles E c)).tangent_forces := by
  obtain ⟨hst, hv, hf, ha, hd, hc, hnf, htf, hpl, hql⟩ := initialize_frame E c
  obtain ⟨g1, g2, g3, g4, g5, g6, g7, g8, g9⟩ := impactor_frame c (compute_mass c)
    (lattice_loop c (diameter c) (compute_mass c) (max_in_x E c) (num_particles E c)
      (num_particles E c) 1 c.radius c.radius (allocate E (num_particles E c)))
  have hl := allocate_len E (num_particles E c) (num_particles_lt E c)
  rw [hst]
  exact ⟨g1.trans hpl, g2.trans hql, g3.trans ((congrArg Buf.len hv).trans hl.2.2.1),
    g4.trans hf, g5.trans ha, g6.trans hd, g7.trans hc, g8.trans hnf, g9.trans htf⟩

/-- The arrays stored to have `num_particles` entries. -/
theorem initialize_store_lens (E : Externals) (c : Config) :
    ( Sim.initialize E c).state.particles.len = num_particles E c ∧
      ( Sim.initialize E c).state.properties.len = num_particles E c ∧
      ( Sim.initialize E c).state.velocities.len = num_particles E c :=
  ⟨(initialize_arrays E c).1, (initialize_arrays E c).2.1, (initialize_arrays E c).2.2.1⟩

/-- Entry `0` after `initialize`, when the arrays have one. -/
theorem initialize_cell_zero (E : Externals) (c : Config) (h : 1 ≤ num_particles E c) :
    ( Sim.initialize E c).state.particles.cell 0 =
        ⟨F64.div c.x_limit (F64.ofNat 2), F64.add c.y_limit (F64.mul (F64.ofNat 4) c.radius),
          c.radius⟩ ∧
      ( Sim.initialize E c).state.properties.cell 0 = ⟨compute_mass c, c.kn, c.ks⟩ ∧
      ( Sim.initialize E c).state.velocities.cell 0 = ⟨F64.zero, c.v0⟩ := by
  obtain ⟨hst, hv, _, _, _, _, _, _, hpl, hql⟩ := initialize_frame E c
  have hl := allocate_len E (num_particles E c) (num_particles_lt E c)
  obtain ⟨hp, hq, hvel⟩ := impactor_cells c (compute_mass c)
    (lattice_loop c (diameter c) (compute_mass c) (max_in_x E c) (num_particles E c)
      (num_particles E c) 1 c.radius c.radius (allocate E (num_particles E c)))
    (by rw [hpl]; exact h) (by rw [hql]; exact h) (by rw [hv, hl.2.2.1]; exact h)
  rw [hst]
  refine ⟨hp, hq, ?_⟩
  rw [hvel, hv]
  simp [allocate, calloc_cell]

set_option maxRecDepth 100000
set_option exponentiation.threshold 2200

namespace F64

/-- Known values of double arithmetic: `1/10`, `0.1 + 0.2`, `1/3`, overflow to
`+∞`, underflow to `+0.0`, and `floor (-0.5)`. -/
theorem known_values :
    div (ofNat 1) (ofNat 10) = finite false 7205759403792794 (-56) ∧
      add (div (ofNat 1) (ofNat 10)) (div (ofNat 2) (ofNat 10)) =
        finite false 5404319552844596 (-54) ∧
      div (ofNat 3) (ofNat 10) = finite false 5404319552844595 (-54) ∧
      div (ofNat 1) (ofNat 3) = finite false 6004799503160661 (-54) ∧
      mul (finite false 9007199254740991 971) (ofNat 2) = inf false ∧
      div (finite false 1 (-1074)) (ofNat 2) = zero ∧
      floor (finite true 4503599627370496 (-53)) = finite true 4503599627370496 (-52) ∧
      lt (div (ofNat 1) (ofNat 10)) (div (ofNat 1) (ofNat 3)) = true := by
  decide

end F64

/-- Without a wrap of the `unsigned int` arithmetic, the count is the product
of the two maxima plus one. -/
theorem num_particles_eq_of_lt (E : Externals) (c : Config)
    (h : max_in_x E c * max_in_y E c + 1 < 2 ^ 32) :
    num_particles E c = max_in_x E c * max_in_y E c + 1 := by
  unfold num_particles
  rw [Nat.mod_eq_of_lt (by omega), Nat.mod_eq_of_lt (by omega)]

/-- `M_PI` is the double nearest to π: it is less than half a unit in the last
place (`2^-51` between `2` and `4`) away from it. -/
theorem M_PI_nearest_pi :
    F64.toRat? M_PI = some (7074237752028440 / 2 ^ 51) ∧
      |((7074237752028440 / 2 ^ 51 : ℚ) : ℝ) - Real.pi| < 1 / 2 ^ 52 := by
  constructor
  · norm_num [M_PI, F64.toRat?]
  · have h1 := Real.pi_gt_d20
    have h2 := Real.pi_lt_d20
    rw [abs_lt]
    push_cast
    constructor <;> norm_num at h1 h2 ⊢ <;> linarith

theorem compute_mass_example : compute_mass config_example = M_PI := by decide

/-! ## The claims -/

/-- C1 (the count is the product plus one), at `config_wrap`: both axes hold
`65536` particles, the `unsigned int` product `65536 * 65536` wraps to `0`, and
`initialize` returns `1`, not `65536 * 65536 + 1 = 4294967297`. -/
theorem num_particles_wraps (E : Externals) :
    config_wrap.valid ∧ max_in_x E config_wrap = 65536 ∧ max_in_y E config_wrap = 65536 ∧
      ( Sim.initialize E config_wrap).returned = 1 ∧
      ( Sim.initialize E config_wrap).returned ≠
        max_in_x E config_wrap * max_in_y E config_wrap + 1 := by
  have hv : config_wrap.valid := by decide
  have hx : max_in_x E config_wrap = 65536 := by with_unfolding_all rfl
  have hy : max_in_y E config_wrap = 65536 := by with_unfolding_all rfl
  have hr : ( Sim.initialize E config_wrap).returned = 1 := by
    rw [initialize_returned, num_particles, hx, hy]
    norm_num
  refine ⟨hv, hx, hy, hr, ?_⟩
  rw [hr, hx, hy]
  decide

/-- C2, as the code has it: for `1 ≤ i < num_particles`, particle `i` is at
`x = radius` with `diameter` added `(i-1) mod max_in_x` times and at `y = radius`
with `diameter` added `(i-1) div max_in_x` times, each sum rounded to a double;
its `x` is `radius` when `(i-1) mod max_in_x = 0`, its `y` is `radius` when
`i ≤ max_in_x`, and particle `i + max_in_x` has the same `x` and `y` greater by
one more `diameter`. -/
theorem lattice_positions_repeated_addition (E : Externals) (c : Config) (i : Nat)
    (h1 : 1 ≤ i) (hn : i < ( Sim.initialize E c).returned) :
    ( Sim.initialize E c).state.particles.cell i =
        ⟨F64.addn (diameter c) ((i - 1) % max_in_x E c) c.radius,
          F64.addn (diameter c) ((i - 1) / max_in_x E c) c.radius, c.radius⟩ ∧
      ((i - 1) % max_in_x E c = 0 →
        (( Sim.initialize E c).state.particles.cell i).x_coordinate = c.radius) ∧
      (i ≤ max_in_x E c →
        (( Sim.initialize E c).state.particles.cell i).y_coordinate = c.radius) ∧
      (i + max_in_x E c < ( Sim.initialize E c).returned →
        (( Sim.initialize E c).state.particles.cell (i + max_in_x E c)).x_coordinate =
            (( Sim.initialize E c).state.particles.cell i).x_coordinate ∧
          (( Sim.initialize E c).state.particles.cell (i + max_in_x E c)).y_coordinate =
            F64.add (( Sim.initialize E c).state.particles.cell i).y_coordinate
              (diameter c)) := by
  rw [initialize_returned] at hn ⊢
  have hm : 0 < max_in_x E c := max_in_x_pos_of_lt E c i h1 hn
  have hcell := (initialize_lattice_cell E c i h1 hn).1
  refine ⟨hcell, ?_, ?_, ?_⟩
  · intro h0
    rw [hcell, h0]
    rfl
  · intro hle
    have : (i - 1) / max_in_x E c = 0 := Nat.div_eq_of_lt (by omega)
    rw [hcell, this]
    rfl
  · intro hlt
    have hcell2 := (initialize_lattice_cell E c (i + max_in_x E c) (by omega) hlt).1
    have e1 : i + max_in_x E c - 1 = (i - 1) + max_in_x E c := by omega
    rw [hcell, hcell2, e1, Nat.add_mod_right, Nat.add_div_right _ hm]
    exact ⟨rfl, rfl⟩

/-- C2 witness: particle 6 of the example configuration. -/
theorem lattice_positions_repeated_addition_witness :
    (1 ≤ 6 ∧ 6 < ( Sim.initialize Externals.sample config_example).returned) ∧
      (( Sim.initialize Externals.sample config_example).state.particles.cell 6 =
          ⟨F64.addn (diameter config_example) ((6 - 1) % max_in_x Externals.sample config_example)
              config_example.radius,
            F64.addn (diameter config_example)
              ((6 - 1) / max_in_x Externals.sample config_example) config_example.radius,
            config_example.radius⟩) :=
  ⟨by decide,
    (lattice_positions_repeated_addition Externals.sample config_example 6 (by decide)
      (by decide)).1⟩

/-- C2 counterexample, at `config_rounding` (radius `2^52 + 1`, diameter
`2^53 + 2`, three particles per row) and particle 3: the code leaves
`x = 22517998136852488`, while `radius + 2 * diameter` is `22517998136852485`
exactly and `22517998136852484` when evaluated in doubles. -/
theorem lattice_closed_form_fails :
    config_rounding.valid ∧
      3 < ( Sim.initialize Externals.sample config_rounding).returned ∧
      max_in_x Externals.sample config_rounding = 3 ∧
      (( Sim.initialize Externals.sample config_rounding).state.particles.cell 3).x_coordinate ≠
        F64.add config_rounding.radius
          (F64.mul (F64.ofNat ((3 - 1) % max_in_x Externals.sample config_rounding))
            (diameter config_rounding)) ∧
      F64.toRat?
          (( Sim.initialize Externals.sample config_rounding).state.particles.cell 3).x_coordinate =
        some 22517998136852488 ∧
      F64.toRat? config_rounding.radius = some 4503599627370497 ∧
      F64.toRat? (diameter config_rounding) = some 9007199254740994 ∧
      (4503599627370497 : ℚ) + 2 * 9007199254740994 ≠ 22517998136852488 := by
  have hx : (( Sim.initialize Externals.sample config_rounding).state.particles.cell
      3).x_coordinate = F64.finite false 5629499534213122 2 := by decide
  have hr : config_rounding.radius = F64.finite false 4503599627370497 0 := by decide
  have hd : diameter config_rounding = F64.finite false 4503599627370497 1 := by decide
  refine ⟨by decide, by decide, by decide, by decide, ?_, ?_, ?_, by norm_num⟩
  · rw [hx]; norm_num [F64.toRat?]
  · rw [hr]; norm_num [F64.toRat?]
  · rw [hd]; norm_num [F64.toRat?]

/-- Every store of a run of `initialize` is a store of the falling particle, to
index 0, or a store of a pass `i` of the loop, to index `i` with
`1 ≤ i < num_particles`. -/
theorem initialize_store_index (E : Externals) (c : Config) (a : ArrayId) (i : Nat)
    (h : Event.store a i ∈ ( Sim.initialize E c).state.trace) :
    i = 0 ∨ (1 ≤ i ∧ i < num_particles E c) := by
  have hst : ( Sim.initialize E c).state.trace =
      (lattice_loop c (diameter c) (compute_mass c) (max_in_x E c) (num_particles E c)
        (num_particles E c) 1 c.radius c.radius (allocate E (num_particles E c))).trace ++
      [Event.store .particles 0, Event.store .particles 0, Event.store .particles 0,
        Event.store .properties 0, Event.store .properties 0, Event.store .properties 0,
        Event.store .velocities 0] := rfl
  rw [hst] at h
  rcases List.mem_append.mp h with h | h
  · rcases lattice_loop_trace c (diameter c) (compute_mass c) (max_in_x E c)
      (num_particles E c) (num_particles E c) 1 c.radius c.radius
      (allocate E (num_particles E c)) _ h with h0 | ⟨j, hj1, hj2, hj3⟩
    · simp [allocate] at h0
    · right
      rcases hj3 with h3 | h3 | h3
      · cases h3
      · cases h3; exact ⟨hj1, hj2⟩
      · cases h3; exact ⟨hj1, hj2⟩
  · left
    simp only [List.mem_cons, Event.store.injEq, List.mem_singleton, List.not_mem_nil,
      or_false] at h
    rcases h with h | h | h | h | h | h | h <;> exact h.2

/-- When the count returned is not `0`, every store of `initialize` is within
the `num_particles` entries of its array. -/
theorem stores_in_bounds_of_pos (E : Externals) (c : Config)
    (hpos : 1 ≤ ( Sim.initialize E c).returned) (a : ArrayId) (i : Nat)
    (h : Event.store a i ∈ ( Sim.initialize E c).state.trace) :
    i < ( Sim.initialize E c).returned := by
  rw [initialize_returned] at hpos ⊢
  rcases initialize_store_index E c a i h with h0 | ⟨_, h2⟩
  · omega
  · exact h2

/-- Every run ends with the seven stores to index 0 of lines 88 to 94. -/
theorem impactor_stores_in_trace (E : Externals) (c : Config) :
    Event.store .particles 0 ∈ ( Sim.initialize E c).state.trace ∧
      Event.store .properties 0 ∈ ( Sim.initialize E c).state.trace ∧
      Event.store .velocities 0 ∈ ( Sim.initialize E c).state.trace := by
  have hmem : ∀ ev ∈ [Event.store .particles 0, Event.store .particles 0,
      Event.store .particles 0, Event.store .properties 0, Event.store .properties 0,
      Event.store .properties 0, Event.store .velocities 0],
      ev ∈ ( Sim.initialize E c).state.trace := by
    intro ev hev
    exact List.mem_append_right _ hev
  exact ⟨hmem _ (by simp), hmem _ (by simp), hmem _ (by simp)⟩

/-- The run on `config_wrap_zero`: `max_in_x = 4294967295`, `max_in_y = 1`, and
the `unsigned int` sum `4294967295 * 1 + 1` of line 52 wraps to `0`. -/
theorem wrap_zero_run (E : Externals) :
    ( Sim.initialize E config_wrap_zero).returned = 0 ∧
      Event.store .particles 0 ∈ ( Sim.initialize E config_wrap_zero).state.trace ∧
      Event.store .velocities 0 ∈ ( Sim.initialize E config_wrap_zero).state.trace := by
  have hqx : F64.trunc? (F64.floor (F64.div config_wrap_zero.x_limit
      (diameter config_wrap_zero))) = some 4294967295 := by decide
  have hqy : F64.trunc? (F64.floor (F64.div config_wrap_zero.y_limit
      (diameter config_wrap_zero))) = some 1 := by decide
  have hx : max_in_x E config_wrap_zero = 4294967295 := by
    simp only [max_in_x, F64.toUInt, hqx]
    norm_num
  have hy : max_in_y E config_wrap_zero = 1 := by
    simp only [max_in_y, F64.toUInt, hqy]
    norm_num
  have hn : num_particles E config_wrap_zero = 0 := by
    rw [num_particles, hx, hy]
    norm_num
  exact ⟨by rw [initialize_returned, hn], (impactor_stores_in_trace E _).1,
    (impactor_stores_in_trace E _).2.2⟩

/-- C3: whenever `initialize` returns at least 1, every store of the run is
inside its array, the arrays have an entry 0, particle 0 is at `x = x_limit / 2` and `y = y_limit + 4 * radius`,
`velocities[0]` is `(0, v0)`, and `forces[0]`, `accelerations[0]` and
`displacements[0]` are `(0, 0)`. In the valid configuration
`config_wrap_zero` the count of line 52 wraps to 0: `initialize` returns 0,
the arrays have no entry, and the stores to `particles[0]` and
`velocities[0]` are outside them. -/
theorem impactor_initial_state :
    (∀ (E : Externals) (c : Config), 1 ≤ ( Sim.initialize E c).returned →
      (∀ a i, Event.store a i ∈ ( Sim.initialize E c).state.trace →
        i < ( Sim.initialize E c).returned) ∧
      0 < ( Sim.initialize E c).state.particles.len ∧
      0 < ( Sim.initialize E c).state.velocities.len ∧
      0 < ( Sim.initialize E c).state.forces.len ∧
      0 < ( Sim.initialize E c).state.accelerations.len ∧
      0 < ( Sim.initialize E c).state.displacements.len ∧
      (( Sim.initialize E c).state.particles.cell 0).x_coordinate =
        F64.div c.x_limit (F64.ofNat 2) ∧
      (( Sim.initialize E c).state.particles.cell 0).y_coordinate =
        F64.add c.y_limit (F64.mul (F64.ofNat 4) c.radius) ∧
      ( Sim.initialize E c).state.velocities.cell 0 = ⟨F64.zero, c.v0⟩ ∧
      ( Sim.initialize E c).state.forces.cell 0 = ⟨F64.zero, F64.zero⟩ ∧
      ( Sim.initialize E c).state.accelerations.cell 0 = ⟨F64.zero, F64.zero⟩ ∧
      ( Sim.initialize E c).state.displacements.cell 0 = ⟨F64.zero, F64.zero⟩) ∧
    config_wrap_zero.valid ∧
    (∀ E : Externals, ( Sim.initialize E config_wrap_zero).returned = 0 ∧
      ( Sim.initialize E config_wrap_zero).state.particles.len = 0 ∧
      ( Sim.initialize E config_wrap_zero).state.velocities.len = 0 ∧
      ( Sim.initialize E config_wrap_zero).state.forces.len = 0 ∧
      Event.store .particles 0 ∈ ( Sim.initialize E config_wrap_zero).state.trace ∧
      Event.store .velocities 0 ∈ ( Sim.initialize E config_wrap_zero).state.trace) := by
  refine ⟨?_, by decide, ?_⟩
  · intro E c h
    refine ⟨stores_in_bounds_of_pos E c h, ?_⟩
    rw [initialize_returned] at h
    obtain ⟨hpl, _, hvl, hf, ha, hd, _⟩ := initialize_arrays E c
    obtain ⟨hp, _, hv⟩ := initialize_cell_zero E c h
    have hl := allocate_len E (num_particles E c) (num_particles_lt E c)
    rw [hpl, hvl, hf, ha, hd, hp, hv, hl.2.2.2.1, hl.2.2.2.2.1, hl.2.2.2.2.2]
    refine ⟨h, h, h, h, h, rfl, rfl, rfl, ?_, ?_, ?_⟩ <;> simp [allocate, calloc_cell]
  · intro E
    obtain ⟨h0, ht1, ht2⟩ := wrap_zero_run E
    obtain ⟨hpl, _, hvl, hf, _⟩ := initialize_arrays E config_wrap_zero
    have hl := allocate_len E (num_particles E config_wrap_zero)
      (num_particles_lt E config_wrap_zero)
    rw [initialize_returned] at h0
    rw [initialize_returned, hpl, hvl, hf, hl.2.2.2.1]
    exact ⟨h0, h0, h0, h0, ht1, ht2⟩

/-- C4: after `initialize`, every particle `i < num_particles`, the falling
one included, has the radius of the configuration, the mass
`compute_mass (config) = rho * thickness * M_PI * radius * radius`, and the
`kn` and `ks` of the configuration. -/
theorem uniform_radius_mass_stiffness (E : Externals) (c : Config) (i : Nat)
    (hn : i < ( Sim.initialize E c).returned) :
    (( Sim.initialize E c).state.particles.cell i).radius = c.radius ∧
      (( Sim.initialize E c).state.properties.cell i).mass = compute_mass c ∧
      compute_mass c =
        F64.mul (F64.mul (F64.mul (F64.mul c.rho c.thickness) M_PI) c.radius) c.radius ∧
      (( Sim.initialize E c).state.properties.cell i).kn = c.kn ∧
      (( Sim.initialize E c).state.properties.cell i).ks = c.ks := by
  rw [initialize_returned] at hn
  rcases Nat.eq_zero_or_pos i with h0 | hpos
  · subst h0
    obtain ⟨hp, hq, _⟩ := initialize_cell_zero E c hn
    rw [hp, hq]
    exact ⟨rfl, rfl, rfl, rfl, rfl⟩
  · obtain ⟨hp, hq⟩ := initialize_lattice_cell E c i hpos hn
    rw [hp, hq]
    exact ⟨rfl, rfl, rfl, rfl, rfl⟩

/-- C4 witness: particle 6 of the example configuration. -/
theorem uniform_radius_mass_stiffness_witness :
    6 < ( Sim.initialize Externals.sample config_example).returned ∧
      (( Sim.initialize Externals.sample config_example).state.particles.cell 6).radius =
        config_example.radius ∧
      (( Sim.initialize Externals.sample config_example).state.properties.cell 6).mass =
        compute_mass config_example :=
  ⟨by decide,
    (uniform_radius_mass_stiffness Externals.sample config_example 6 (by decide)).1,
    (uniform_radius_mass_stiffness Externals.sample config_example 6 (by decide)).2.1⟩

/-- C5: `compute_mass` returns `rho * thickness * M_PI * radius * radius`, the
products taken from left to right, whatever the other five fields hold; `M_PI`
is the double nearest to π, and for `rho = thickness = radius = 1` the mass is
`M_PI`. -/
theorem compute_mass_formula (rho thickness radius : F64)
    (x_limit y_limit kn ks v0 x_limit2 y_limit2 kn2 ks2 v02 : F64) :
    compute_mass ⟨rho, thickness, radius, x_limit, y_limit, kn, ks, v0⟩ =
        F64.mul (F64.mul (F64.mul (F64.mul rho thickness) M_PI) radius) radius ∧
      compute_mass ⟨rho, thickness, radius, x_limit2, y_limit2, kn2, ks2, v02⟩ =
        compute_mass ⟨rho, thickness, radius, x_limit, y_limit, kn, ks, v0⟩ ∧
      compute_mass config_example = M_PI ∧
      |((7074237752028440 / 2 ^ 51 : ℚ) : ℝ) - Real.pi| < 1 / 2 ^ 52 ∧
      F64.toRat? M_PI = some (7074237752028440 / 2 ^ 51) :=
  ⟨rfl, rfl, compute_mass_example, M_PI_nearest_pi.2, M_PI_nearest_pi.1⟩

/-- C8: every evaluation of `i % max_in_x` that a run of `initialize` makes has
`max_in_x ≥ 1`, in a pass `i` of the loop with `1 ≤ i < num_particles`; no
configuration leads to a modulus by zero. -/
theorem modulus_divisor_positive (E : Externals) (c : Config) (i m : Nat)
    (h : Event.modulus i m ∈ ( Sim.initialize E c).state.trace) :
    m = max_in_x E c ∧ 1 ≤ m ∧ 1 ≤ i ∧ i < ( Sim.initialize E c).returned := by
  rw [initialize_returned]
  have hst : ( Sim.initialize E c).state.trace =
      (lattice_loop c (diameter c) (compute_mass c) (max_in_x E c) (num_particles E c)
        (num_particles E c) 1 c.radius c.radius (allocate E (num_particles E c))).trace ++
      [Event.store .particles 0, Event.store .particles 0, Event.store .particles 0,
        Event.store .properties 0, Event.store .properties 0, Event.store .properties 0,
        Event.store .velocities 0] := rfl
  rw [hst] at h
  simp only [List.mem_append, List.mem_cons, List.mem_singleton, List.not_mem_nil, or_false,
    reduceCtorEq, or_self] at h
  rcases lattice_loop_trace c (diameter c) (compute_mass c) (max_in_x E c) (num_particles E c)
    (num_particles E c) 1 c.radius c.radius (allocate E (num_particles E c)) _ h with
    h0 | ⟨j, hj1, hj2, hj3⟩
  · simp [allocate] at h0
  · simp only [Event.modulus.injEq, reduceCtorEq, or_false] at hj3
    obtain ⟨rfl, rfl⟩ := hj3
    exact ⟨rfl, max_in_x_pos_of_lt E c i hj1 hj2, hj1, hj2⟩

/-- C8 witness: the first pass of the loop on the example configuration
evaluates `1 % 5`. -/
theorem modulus_divisor_positive_witness :
    Event.modulus 1 5 ∈ ( Sim.initialize Externals.sample config_example).state.trace ∧
      1 ≤ 5 :=
  ⟨by decide, (modulus_divisor_positive Externals.sample config_example 1 5 (by decide)).2.1⟩

/-- C9: on `Config{radius=1, x_limit=10, y_limit=5, rho=1, thickness=1, kn=0,
ks=0, v0=-2}`, `max_in_x = 5`, `max_in_y = 2`, `initialize` returns `11`,
particle 1 is at `(1, 1)`, particle 5 at `(9, 1)`, particle 6 at `(1, 3)`,
particle 0 at `(5, 9)`, and `velocities[0] = (0, -2)`. -/
theorem example_configuration (E : Externals) :
    max_in_x E config_example = 5 ∧ max_in_y E config_example = 2 ∧
      ( Sim.initialize E config_example).returned = 11 ∧
      ( Sim.initialize E config_example).state.particles.cell 1 =
        ⟨F64.ofNat 1, F64.ofNat 1, F64.ofNat 1⟩ ∧
      ( Sim.initialize E config_example).state.particles.cell 5 =
        ⟨F64.ofNat 9, F64.ofNat 1, F64.ofNat 1⟩ ∧
      ( Sim.initialize E config_example).state.particles.cell 6 =
        ⟨F64.ofNat 1, F64.ofNat 3, F64.ofNat 1⟩ ∧
      ( Sim.initialize E config_example).state.particles.cell 0 =
        ⟨F64.ofNat 5, F64.ofNat 9, F64.ofNat 1⟩ ∧
      ( Sim.initialize E config_example).state.velocities.cell 0 =
        ⟨F64.zero, F64.minus_two⟩ := by
  refine ⟨?_, ?_, ?_, ?_, ?_, ?_, ?_, ?_⟩ <;> with_unfolding_all rfl

namespace F64

/-- A double above `+0.0` that is finite has a positive value. -/
theorem toRat_pos_of_zero_lt (x : F64) (R : ℚ) (h : lt zero x = true)
    (hR : toRat? x = some R) : 0 < R := by
  cases x with
  | nan => simp [toRat?] at hR
  | inf b => simp [toRat?] at hR
  | finite neg m e =>
    cases neg with
    | true =>
      exfalso
      simp only [lt, zero, scaled, decide_eq_true_eq, if_true, Bool.false_eq_true, if_false,
        Nat.zero_mul, Nat.cast_zero, mul_zero] at h
      have : (0 : Int) ≤ ((m * 2 ^ (e - min (-1074) e).toNat : Nat) : Int) := Int.ofNat_nonneg _
      linarith
    | false =>
      simp only [lt, zero, scaled, decide_eq_true_eq, Bool.false_eq_true, if_false,
        Nat.zero_mul, Nat.cast_zero, mul_zero, one_mul] at h
      have hm : 0 < m := by
        rcases Nat.eq_zero_or_pos m with h0 | h0
        · subst h0; simp at h
        · exact h0
      simp only [toRat?, Bool.false_eq_true, if_false, one_mul, Option.some.injEq] at hR
      rw [← hR]
      have : (0 : ℚ) < (m : ℚ) := by exact_mod_cast hm
      positivity

end F64

/-- A lattice index lies in a column below `max_in_x` and a row below
`max_in_y`. -/
theorem lattice_index_in_grid (E : Externals) (c : Config) (i : Nat) (h1 : 1 ≤ i)
    (hn : i < num_particles E c) :
    (i - 1) % max_in_x E c < max_in_x E c ∧ (i - 1) / max_in_x E c < max_in_y E c := by
  have hm : 0 < max_in_x E c := max_in_x_pos_of_lt E c i h1 hn
  refine ⟨Nat.mod_lt _ hm, ?_⟩
  have hle : num_particles E c ≤ max_in_x E c * max_in_y E c + 1 := by
    unfold num_particles
    have h2 := Nat.mod_le (max_in_x E c * max_in_y E c) (2 ^ 32)
    have h3 := Nat.mod_le (max_in_x E c * max_in_y E c % 2 ^ 32 + 1) (2 ^ 32)
    omega
  rw [Nat.div_lt_iff_lt_mul hm]
  have : i - 1 < max_in_x E c * max_in_y E c := by omega
  rw [Nat.mul_comm]
  exact this

/-- Two indices in the same column and row of a grid are one index. -/
theorem index_eq_of_column_row_eq (m i j : Nat) (hi : 1 ≤ i) (hj : 1 ≤ j)
    (hc : (i - 1) % m = (j - 1) % m) (hr : (i - 1) / m = (j - 1) / m) : i = j := by
  have h1 := Nat.div_add_mod (i - 1) m
  have h2 := Nat.div_add_mod (j - 1) m
  rw [hc, hr] at h1
  omega

/-- The cell of the grid and the coordinates of a lattice particle: column and
row are below `max_in_x` and `max_in_y`, and the coordinates are `radius` with
`diameter` added `column` times and `row` times. -/
theorem lattice_particle_cell (E : Externals) (c : Config) (i : Nat) (h1 : 1 ≤ i)
    (hn : i < num_particles E c) :
    column E c i < max_in_x E c ∧ row E c i < max_in_y E c ∧
      (( Sim.initialize E c).state.particles.cell i).x_coordinate =
        F64.addn (diameter c) (column E c i) c.radius ∧
      (( Sim.initialize E c).state.particles.cell i).y_coordinate =
        F64.addn (diameter c) (row E c i) c.radius := by
  obtain ⟨hc, hr⟩ := lattice_index_in_grid E c i h1 hn
  have hcell := (initialize_lattice_cell E c i h1 hn).1
  refine ⟨hc, hr, ?_, ?_⟩ <;> rw [hcell] <;> rfl

/-- The doubles of the run on `config_tight`: the radius `2^52 + 3`, the
diameter `2^53 + 6`, the limits, particle 0 at `y = 3 * 2^53 + 16` (the sum
`y_limit + 4 * radius = 3 * 2^53 + 18` rounded), particle 1 at
`(radius, radius)`, particle 2 at `x = 3 * 2^52 + 8` (the sum `3 * 2^52 + 9`
rounded) and particle 4 at `x = 7 * 2^52 + 24` (the sum `7 * 2^52 + 22`
rounded). -/
theorem config_tight_values :
    F64.toRat? config_tight.radius = some 4503599627370499 ∧
      F64.toRat? (diameter config_tight) = some 9007199254740998 ∧
      F64.toRat? config_tight.x_limit = some 36028797018963992 ∧
      F64.toRat? config_tight.y_limit = some 9007199254740998 ∧
      F64.toRat? (( Sim.initialize Externals.sample config_tight).state.particles.cell
        0).y_coordinate = some 27021597764222992 ∧
      F64.toRat? (( Sim.initialize Externals.sample config_tight).state.particles.cell
        1).x_coordinate = some 4503599627370499 ∧
      F64.toRat? (( Sim.initialize Externals.sample config_tight).state.particles.cell
        1).y_coordinate = some 4503599627370499 ∧
      F64.toRat? (( Sim.initialize Externals.sample config_tight).state.particles.cell
        2).x_coordinate = some 13510798882111496 ∧
      F64.toRat? (( Sim.initialize Externals.sample config_tight).state.particles.cell
        2).y_coordinate = some 4503599627370499 ∧
      F64.toRat? (( Sim.initialize Externals.sample config_tight).state.particles.cell
        4).x_coordinate = some 31525197391593496 := by
  have hr : config_tight.radius = F64.finite false 4503599627370499 0 := by decide
  have hd : diameter config_tight = F64.finite false 4503599627370499 1 := by decide
  have hxl : config_tight.x_limit = F64.finite false 4503599627370499 3 := by decide
  have hyl : config_tight.y_limit = F64.finite false 4503599627370499 1 := by decide
  have h0 : (( Sim.initialize Externals.sample config_tight).state.particles.cell
      0).y_coordinate = F64.finite false 6755399441055748 2 := by decide
  have h1 : ( Sim.initialize Externals.sample config_tight).state.particles.cell 1 =
      ⟨F64.finite false 4503599627370499 0, F64.finite false 4503599627370499 0,
        F64.finite false 4503599627370499 0⟩ := by decide
  have h2 : ( Sim.initialize Externals.sample config_tight).state.particles.cell 2 =
      ⟨F64.finite false 6755399441055748 1, F64.finite false 4503599627370499 0,
        F64.finite false 4503599627370499 0⟩ := by decide
  have h4 : (( Sim.initialize Externals.sample config_tight).state.particles.cell
      4).x_coordinate = F64.finite false 7881299347898374 2 := by decide
  refine ⟨?_, ?_, ?_, ?_, ?_, ?_, ?_, ?_, ?_, ?_⟩
  · rw [hr]; norm_num [F64.toRat?]
  · rw [hd]; norm_num [F64.toRat?]
  · rw [hxl]; norm_num [F64.toRat?]
  · rw [hyl]; norm_num [F64.toRat?]
  · rw [h0]; norm_num [F64.toRat?]
  · rw [h1]; norm_num [F64.toRat?]
  · rw [h1]; norm_num [F64.toRat?]
  · rw [h2]; norm_num [F64.toRat?]
  · rw [h2]; norm_num [F64.toRat?]
  · rw [h4]; norm_num [F64.toRat?]

/-! ## Rounding -/

namespace F64

/-- Zero has no binary digit. -/
theorem bits_zero (fuel : Nat) : bits fuel 0 = 0 := by
  cases fuel <;> simp [bits]

/-- With enough fuel, `bits` is the bit length. -/
theorem bits_spec_fuel (fuel : Nat) : ∀ n : Nat, 0 < n → n < 2 ^ fuel →
    2 ^ (bits fuel n - 1) ≤ n ∧ n < 2 ^ bits fuel n ∧ 1 ≤ bits fuel n := by
  induction fuel with
  | zero => intro n h0 h1; simp at h1; omega
  | succ f ih =>
    intro n h0 h1
    have hn0 : n ≠ 0 := by omega
    simp only [bits, if_neg hn0]
    rcases Nat.eq_zero_or_pos (n / 2) with hz | hp
    · have hn1 : n = 1 := by omega
      subst hn1
      simp [bits_zero]
    · have hlt : n / 2 < 2 ^ f := by
        rw [pow_succ] at h1
        omega
      obtain ⟨a, b, c⟩ := ih (n / 2) hp hlt
      refine ⟨?_, ?_, by omega⟩
      · have e : bits f (n / 2) + 1 - 1 = (bits f (n / 2) - 1) + 1 := by omega
        rw [e, pow_succ]
        omega
      · rw [pow_succ]
        omega

/-- `bits n n` is the bit length of `n`: `2 ^ (bits n n - 1) ≤ n < 2 ^ bits n n`. -/
theorem bits_spec (n : Nat) (h0 : 0 < n) :
    2 ^ (bits n n - 1) ≤ n ∧ n < 2 ^ bits n n ∧ 1 ≤ bits n n :=
  bits_spec_fuel n n h0 (Nat.lt_two_pow n)


/-- The rounded quotient is the quotient or the next integer. -/
theorem rne_bounds (N D : Nat) : N / D ≤ rne N D ∧ rne N D ≤ N / D + 1 := by
  unfold rne
  simp only
  split <;> omega

/-- Rounding a quotient at a given exponent: the mantissa fits, and no double
that the exact value reaches is above the rounded one. -/
theorem nearest_core (N D1 n : Nat) (k e1 : Int) (hD1 : 0 < D1)
    (hratio : (N : ℚ) = (n : ℚ) * 2 ^ (k - e1) * D1)
    (hq53 : N / D1 < 2 ^ 53) (hq52 : -1074 < e1 → 2 ^ 52 ≤ N / D1) (he1 : -1074 ≤ e1) :
    (if rne N D1 = 2 ^ 53 then ((2 : Nat) ^ 52, e1 + 1) else (rne N D1, e1)).1 < 2 ^ 53 ∧
      -1074 ≤ (if rne N D1 = 2 ^ 53 then ((2 : Nat) ^ 52, e1 + 1) else (rne N D1, e1)).2 ∧
      ∀ (M : Nat) (Ex : Int), M < 2 ^ 53 → -1074 ≤ Ex →
        (M : ℚ) * 2 ^ Ex ≤ (n : ℚ) * 2 ^ k →
        (M : ℚ) * 2 ^ Ex ≤
          (((if rne N D1 = 2 ^ 53 then ((2 : Nat) ^ 52, e1 + 1) else (rne N D1, e1)).1 : Nat) : ℚ) *
            2 ^ (if rne N D1 = 2 ^ 53 then ((2 : Nat) ^ 52, e1 + 1) else (rne N D1, e1)).2 := by
  obtain ⟨hlo, hhi⟩ := rne_bounds N D1
  have h2 : (0 : ℚ) < 2 := by norm_num
  -- the value of the result is at least `q * 2 ^ e1`
  have hval : ((N / D1 : Nat) : ℚ) * 2 ^ e1 ≤
      (((if rne N D1 = 2 ^ 53 then ((2 : Nat) ^ 52, e1 + 1) else (rne N D1, e1)).1 : Nat) : ℚ) *
        2 ^ (if rne N D1 = 2 ^ 53 then ((2 : Nat) ^ 52, e1 + 1) else (rne N D1, e1)).2 := by
    by_cases hm : rne N D1 = 2 ^ 53
    · simp only [hm, if_true]
      have hq : ((N / D1 : Nat) : ℚ) ≤ 2 ^ 53 := by
        have : N / D1 ≤ 2 ^ 53 := by omega
        exact_mod_cast this
      have e : ((2 ^ 52 : Nat) : ℚ) * 2 ^ (e1 + 1) = 2 ^ 53 * 2 ^ e1 := by
        rw [zpow_add₀ (by norm_num : (2 : ℚ) ≠ 0)]
        push_cast
        ring
      rw [e]
      exact mul_le_mul_of_nonneg_right hq (le_of_lt (zpow_pos h2 e1))
    · simp only [hm, if_false]
      have : ((N / D1 : Nat) : ℚ) ≤ (rne N D1 : ℚ) := by exact_mod_cast hlo
      exact mul_le_mul_of_nonneg_right this (le_of_lt (zpow_pos h2 e1))
  refine ⟨?_, ?_, ?_⟩
  · by_cases hm : rne N D1 = 2 ^ 53
    · simp [hm]
    · simp only [hm, if_false]
      omega
  · by_cases hm : rne N D1 = 2 ^ 53
    · simp only [hm, if_true]; omega
    · simp only [hm, if_false]; exact he1
  · intro M Ex hM hEx hle
    refine le_trans ?_ hval
    by_cases hc : e1 ≤ Ex
    · -- `M * 2 ^ (Ex - e1)` is a natural number, at most the quotient
      have hT : (M * 2 ^ (Ex - e1).toNat) * D1 ≤ N := by
        have hcast : (((M * 2 ^ (Ex - e1).toNat) * D1 : Nat) : ℚ) ≤ (N : ℚ) := by
          push_cast
          rw [hratio]
          have e : ((2 : ℚ) ^ (Ex - e1).toNat) = 2 ^ (Ex - e1) := by
            rw [← zpow_natCast, Int.toNat_of_nonneg (by omega)]
          rw [e]
          have hD : (0 : ℚ) ≤ (D1 : ℚ) := Nat.cast_nonneg _
          apply mul_le_mul_of_nonneg_right _ hD
          rw [zpow_sub₀ (by norm_num : (2 : ℚ) ≠ 0), zpow_sub₀ (by norm_num : (2 : ℚ) ≠ 0)]
          rw [← mul_div_assoc, ← mul_div_assoc]
          exact div_le_div_of_nonneg_right hle (le_of_lt (zpow_pos h2 e1))
        exact_mod_cast hcast
      have hq : M * 2 ^ (Ex - e1).toNat ≤ N / D1 := (Nat.le_div_iff_mul_le hD1).mpr hT
      have hq' : ((M * 2 ^ (Ex - e1).toNat : Nat) : ℚ) ≤ ((N / D1 : Nat) : ℚ) := by
        exact_mod_cast hq
      have e : ((M * 2 ^ (Ex - e1).toNat : Nat) : ℚ) * 2 ^ e1 = (M : ℚ) * 2 ^ Ex := by
        push_cast
        rw [← zpow_natCast, Int.toNat_of_nonneg (by omega), mul_assoc,
          ← zpow_add₀ (by norm_num : (2 : ℚ) ≠ 0)]
        congr 2
        omega
      rw [← e]
      exact mul_le_mul_of_nonneg_right hq' (le_of_lt (zpow_pos h2 e1))
    · -- the exponent is below `e1`: the double is below `2 ^ 52 * 2 ^ e1`
      have hlt : Ex + 1 ≤ e1 := by omega
      have h52 := hq52 (by omega)
      have hq : ((2 : ℚ) ^ 52) ≤ ((N / D1 : Nat) : ℚ) := by exact_mod_cast h52
      have hM' : (M : ℚ) ≤ 2 ^ 53 := by
        have : M ≤ 2 ^ 53 := by omega
        exact_mod_cast this
      calc (M : ℚ) * 2 ^ Ex ≤ 2 ^ 53 * 2 ^ Ex :=
            mul_le_mul_of_nonneg_right hM' (le_of_lt (zpow_pos h2 Ex))
        _ = 2 ^ 52 * 2 ^ (Ex + 1) := by
            rw [zpow_add₀ (by norm_num : (2 : ℚ) ≠ 0)]; ring
        _ ≤ 2 ^ 52 * 2 ^ e1 := by
            apply mul_le_mul_of_nonneg_left _ (by positivity)
            exact zpow_le_zpow_right₀ (by norm_num) hlt
        _ ≤ ((N / D1 : Nat) : ℚ) * 2 ^ e1 :=
            mul_le_mul_of_nonneg_right hq (le_of_lt (zpow_pos h2 e1))


/-- The bit length of `1`. -/
theorem bits_one : bits 1 1 = 1 := by decide

/-- How a sum or product is rounded: for `n > 0` the mantissa and exponent
nearest to `n * 2 ^ k` are the rounded quotient `N / D1` at an exponent `e1`,
with `N / D1 = n * 2 ^ (k - e1)` as rationals, a quotient below `2 ^ 53`, and
one of at least `2 ^ 52` unless `e1 = -1074`. -/
theorem nearest_one_form (n : Nat) (k : Int) (h0 : 0 < n) :
    ∃ (N D1 : Nat) (e1 : Int), 0 < D1 ∧ (N : ℚ) = (n : ℚ) * 2 ^ (k - e1) * D1 ∧
      N / D1 < 2 ^ 53 ∧ (-1074 < e1 → 2 ^ 52 ≤ N / D1) ∧ -1074 ≤ e1 ∧
      nearest n 1 k =
        if rne N D1 = 2 ^ 53 then ((2 : Nat) ^ 52, e1 + 1) else (rne N D1, e1) := by
  obtain ⟨hb1, hb2, hb3⟩ := bits_spec n h0
  have h2 : (2 : ℚ) ≠ 0 := by norm_num
  unfold nearest
  simp only [bits_one, one_mul]
  generalize hb : bits n n = b at hb1 hb2 hb3
  generalize he0 : max ((b : Int) - ((1 : Nat) : Int) + k - 53) (-1074) = e0
  generalize ha : (k - e0).toNat = a
  generalize hb' : (e0 - k).toNat = b'
  have he0lo : -1074 ≤ e0 := by rw [← he0]; exact le_max_right _ _
  have he0l : (b : Int) - 1 + k - 53 ≤ e0 := by
    rw [← he0]; exact_mod_cast le_max_left _ _
  have he0c : e0 = (b : Int) - 1 + k - 53 ∨ e0 = -1074 := by
    rw [← he0]
    rcases max_choice ((b : Int) - ((1 : Nat) : Int) + k - 53) (-1074) with h | h
    · left; rw [h]; norm_num
    · right; exact h
  have hab : (a : Int) - b' = k - e0 := by omega
  have hpow : ∀ x y : Nat, x ≤ y → (2 : Nat) ^ x ≤ 2 ^ y :=
    fun x y h => Nat.pow_le_pow_right (by norm_num) h
  have hDpos : 0 < 2 ^ b' := Nat.two_pow_pos _
  -- the quotient `n * 2 ^ a / 2 ^ b'` is below `2 ^ 54`
  have hup : n * 2 ^ a < 2 ^ 54 * 2 ^ b' := by
    have h1 : n * 2 ^ a < 2 ^ b * 2 ^ a := Nat.mul_lt_mul_of_pos_right hb2 (Nat.two_pow_pos _)
    have h3 : 2 ^ b * 2 ^ a ≤ 2 ^ 54 * 2 ^ b' := by
      rw [← pow_add, ← pow_add]
      exact hpow _ _ (by omega)
    omega
  -- above the least exponent it is at least `2 ^ 53`
  have hlow : -1074 < e0 → 2 ^ 53 * 2 ^ b' ≤ n * 2 ^ a := by
    intro hgt
    have he : e0 = (b : Int) - 1 + k - 53 := by omega
    have h1 : 2 ^ (b - 1) * 2 ^ a ≤ n * 2 ^ a := Nat.mul_le_mul_right _ hb1
    have h3 : 2 ^ 53 * 2 ^ b' ≤ 2 ^ (b - 1) * 2 ^ a := by
      rw [← pow_add, ← pow_add]
      exact hpow _ _ (by omega)
    omega
  have hratio0 : ((n * 2 ^ a : Nat) : ℚ) = (n : ℚ) * 2 ^ (k - e0) * ((2 ^ b' : Nat) : ℚ) := by
    push_cast
    rw [mul_assoc, ← zpow_natCast (2 : ℚ) b', ← zpow_add₀ h2, ← zpow_natCast (2 : ℚ) a]
    congr 2
    omega
  by_cases hbig : n * 2 ^ a / 2 ^ b' ≥ 2 ^ 53
  · simp only [hbig, if_true]
    have hbig' : 2 ^ 53 * 2 ^ b' ≤ n * 2 ^ a := (Nat.le_div_iff_mul_le hDpos).mp hbig
    refine ⟨n * 2 ^ a, 2 * 2 ^ b', e0 + 1, by omega, ?_, ?_, ?_, by omega, rfl⟩
    · rw [hratio0]
      have e : (2 : ℚ) ^ (k - e0) = 2 ^ (k - (e0 + 1)) * 2 := by
        rw [← zpow_add_one₀ h2]
        congr 1
        ring
      rw [e]
      push_cast
      ring
    · rw [Nat.div_lt_iff_lt_mul (by omega)]
      omega
    · intro _
      rw [Nat.le_div_iff_mul_le (by omega)]
      omega
  · simp only [hbig, if_false]
    refine ⟨n * 2 ^ a, 2 ^ b', e0, hDpos, hratio0, by omega, ?_, he0lo, rfl⟩
    intro hgt
    exfalso
    apply hbig
    exact (Nat.le_div_iff_mul_le hDpos).mpr (hlow hgt)

/-- The sum of two doubles, rounded: the mantissa fits in 53 bits, the
exponent is at least `-1074`, and no double with a value up to
`n * 2 ^ k` is above the rounded one. -/
theorem nearest_one_spec (n : Nat) (k : Int) (h0 : 0 < n) :
    (nearest n 1 k).1 < 2 ^ 53 ∧ -1074 ≤ (nearest n 1 k).2 ∧
      ∀ (M : Nat) (Ex : Int), M < 2 ^ 53 → -1074 ≤ Ex →
        (M : ℚ) * 2 ^ Ex ≤ (n : ℚ) * 2 ^ k →
        (M : ℚ) * 2 ^ Ex ≤ (((nearest n 1 k).1 : Nat) : ℚ) * 2 ^ (nearest n 1 k).2 := by
  obtain ⟨N, D1, e1, hD1, hratio, hq53, hq52, he1, hform⟩ := nearest_one_form n k h0
  rw [hform]
  exact nearest_core N D1 n k e1 hD1 hratio hq53 hq52 he1


/-- The mantissa of a finite double at a lower exponent, as a rational. -/
theorem scaled_cast (m : Nat) (e e' : Int) (h : e' ≤ e) :
    ((scaled false m e e' : Int) : ℚ) = (m : ℚ) * 2 ^ e / 2 ^ e' := by
  have h2 : (2 : ℚ) ≠ 0 := by norm_num
  simp only [scaled, Bool.false_eq_true, if_false, one_mul]
  push_cast
  rw [← zpow_natCast (2 : ℚ), Int.toNat_of_nonneg (by omega), zpow_sub₀ h2, mul_div_assoc]

/-- A quotient is rounded up only when the division leaves a remainder. -/
theorem rne_up (N D : Nat) (hD : 0 < D) (h : rne N D ≠ N / D) :
    rne N D = N / D + 1 ∧ 0 < N % D := by
  unfold rne at h ⊢
  simp only at h ⊢
  split
  · rename_i hc
    refine ⟨rfl, ?_⟩
    rcases hc with hc | hc <;> omega
  · rename_i hc
    rw [if_neg hc] at h
    exact absurd rfl h

/-- Rounding a quotient at a given exponent: no double that reaches the exact
value is below the rounded one. -/
theorem nearest_core_upper (N D1 n : Nat) (k e1 : Int) (hD1 : 0 < D1)
    (hratio : (N : ℚ) = (n : ℚ) * 2 ^ (k - e1) * D1)
    (hq52 : -1074 < e1 → 2 ^ 52 ≤ N / D1) (M : Nat) (Ex : Int) (hM : M < 2 ^ 53)
    (hEx : -1074 ≤ Ex) (hle : (n : ℚ) * 2 ^ k ≤ (M : ℚ) * 2 ^ Ex) :
    (((if rne N D1 = 2 ^ 53 then ((2 : Nat) ^ 52, e1 + 1) else (rne N D1, e1)).1 : Nat) : ℚ) *
        2 ^ (if rne N D1 = 2 ^ 53 then ((2 : Nat) ^ 52, e1 + 1) else (rne N D1, e1)).2 ≤
      (M : ℚ) * 2 ^ Ex := by
  have h2 : (0 : ℚ) < 2 := by norm_num
  have h2' : (2 : ℚ) ≠ 0 := by norm_num
  have hpos : (0 : ℚ) < 2 ^ e1 := zpow_pos h2 e1
  have hDq : (0 : ℚ) < (D1 : ℚ) := by exact_mod_cast hD1
  -- the value of the result is `rne N D1 * 2 ^ e1`
  have hval : (((if rne N D1 = 2 ^ 53 then ((2 : Nat) ^ 52, e1 + 1) else (rne N D1, e1)).1 :
      Nat) : ℚ) * 2 ^ (if rne N D1 = 2 ^ 53 then ((2 : Nat) ^ 52, e1 + 1) else (rne N D1, e1)).2 =
      (rne N D1 : ℚ) * 2 ^ e1 := by
    by_cases hm : rne N D1 = 2 ^ 53
    · simp only [hm, if_true]
      rw [zpow_add₀ h2']
      push_cast
      ring
    · simp only [hm, if_false]
  rw [hval]
  -- the exact value, as a multiple of `2 ^ e1`
  have hv : (n : ℚ) * 2 ^ k = (N : ℚ) / D1 * 2 ^ e1 := by
    rw [hratio, zpow_sub₀ h2']
    field_simp
    ring
  have hND : ((N / D1 : Nat) : ℚ) * D1 ≤ N := by
    exact_mod_cast Nat.div_mul_le_self N D1
  by_cases hr : rne N D1 = N / D1
  · rw [hr]
    refine le_trans ?_ hle
    rw [hv]
    apply mul_le_mul_of_nonneg_right _ (le_of_lt hpos)
    rw [le_div_iff₀ hDq]
    exact hND
  · obtain ⟨hr1, hrem⟩ := rne_up N D1 hD1 hr
    rw [hr1]
    have hNgt : N / D1 * D1 < N := by
      have := Nat.div_add_mod N D1
      have e : D1 * (N / D1) = N / D1 * D1 := Nat.mul_comm _ _
      omega
    by_cases hc : e1 ≤ Ex
    · -- `M * 2 ^ (Ex - e1)` is a natural number above the quotient
      have e : (M : ℚ) * 2 ^ Ex = ((M * 2 ^ (Ex - e1).toNat : Nat) : ℚ) * 2 ^ e1 := by
        push_cast
        rw [← zpow_natCast, Int.toNat_of_nonneg (by omega), mul_assoc, ← zpow_add₀ h2']
        congr 2
        omega
      rw [e]
      apply mul_le_mul_of_nonneg_right _ (le_of_lt hpos)
      have hT : N ≤ (M * 2 ^ (Ex - e1).toNat) * D1 := by
        have hcast : (N : ℚ) ≤ (((M * 2 ^ (Ex - e1).toNat) * D1 : Nat) : ℚ) := by
          rw [e, hv] at hle
          have h3 := (mul_le_mul_right hpos).mp hle
          rw [div_le_iff₀ hDq] at h3
          exact_mod_cast h3
        exact_mod_cast hcast
      have hq : N / D1 < M * 2 ^ (Ex - e1).toNat := by
        by_contra hcon
        have h4 : M * 2 ^ (Ex - e1).toNat ≤ N / D1 := by omega
        have := Nat.mul_le_mul_right D1 h4
        omega
      exact_mod_cast hq
    · -- a double with an exponent below `e1` is below the exact value
      exfalso
      have hlt : Ex + 1 ≤ e1 := by omega
      have h52 := hq52 (by omega)
      have hq : ((2 : ℚ) ^ 52) ≤ ((N / D1 : Nat) : ℚ) := by exact_mod_cast h52
      have hM' : (M : ℚ) ≤ 2 ^ 53 := by
        have : M ≤ 2 ^ 53 := by omega
        exact_mod_cast this
      have hNq : ((N / D1 : Nat) : ℚ) < (N : ℚ) / D1 := by
        rw [lt_div_iff₀ hDq]
        exact_mod_cast hNgt
      have : (M : ℚ) * 2 ^ Ex < (n : ℚ) * 2 ^ k := by
        calc (M : ℚ) * 2 ^ Ex ≤ 2 ^ 53 * 2 ^ Ex :=
              mul_le_mul_of_nonneg_right hM' (le_of_lt (zpow_pos h2 Ex))
          _ = 2 ^ 52 * 2 ^ (Ex + 1) := by
              rw [zpow_add₀ h2']; ring
          _ ≤ 2 ^ 52 * 2 ^ e1 := by
              apply mul_le_mul_of_nonneg_left _ (by positivity)
              exact zpow_le_zpow_right₀ (by norm_num) hlt
          _ ≤ ((N / D1 : Nat) : ℚ) * 2 ^ e1 :=
              mul_le_mul_of_nonneg_right hq (le_of_lt hpos)
          _ < (N : ℚ) / D1 * 2 ^ e1 := mul_lt_mul_of_pos_right hNq hpos
          _ = (n : ℚ) * 2 ^ k := hv.symm
      linarith

/-- Rounding is exact on a value that a double holds: for `n > 0` and
`n * 2 ^ k = M * 2 ^ Ex` with `M` of at most 53 bits and `Ex ≥ -1074`, the
nearest mantissa and exponent have that value. -/
theorem nearest_one_exact (n : Nat) (k : Int) (h0 : 0 < n) (M : Nat) (Ex : Int)
    (hM : M < 2 ^ 53) (hEx : -1074 ≤ Ex) (hv : (n : ℚ) * 2 ^ k = (M : ℚ) * 2 ^ Ex) :
    (((nearest n 1 k).1 : Nat) : ℚ) * 2 ^ (nearest n 1 k).2 = (M : ℚ) * 2 ^ Ex := by
  obtain ⟨N, D1, e1, hD1, hratio, hq53, hq52, he1, hform⟩ := nearest_one_form n k h0
  apply le_antisymm
  · rw [hform]
    exact nearest_core_upper N D1 n k e1 hD1 hratio hq52 M Ex hM hEx (le_of_eq hv)
  · exact (nearest_one_spec n k h0).2.2 M Ex hM hEx (le_of_eq hv.symm)

/-- The rounded quotient is within one half of the exact one. -/
theorem rne_near (N D : Nat) (hD : 0 < D) :
    (N : ℚ) / D - 1 / 2 ≤ (rne N D : ℚ) ∧ (rne N D : ℚ) ≤ (N : ℚ) / D + 1 / 2 := by
  have hDq : (0 : ℚ) < (D : ℚ) := by exact_mod_cast hD
  have hdm : ((N / D : Nat) : ℚ) * D + ((N % D : Nat) : ℚ) = (N : ℚ) := by
    have := Nat.div_add_mod N D
    have h : ((D * (N / D) + N % D : Nat) : ℚ) = (N : ℚ) := by rw [this]
    push_cast at h
    linarith
  have hr : ((N % D : Nat) : ℚ) < D := by exact_mod_cast Nat.mod_lt N hD
  have hr0 : (0 : ℚ) ≤ ((N % D : Nat) : ℚ) := Nat.cast_nonneg _
  have hND : (N : ℚ) / D = ((N / D : Nat) : ℚ) + ((N % D : Nat) : ℚ) / D := by
    rw [← hdm]
    field_simp
  unfold rne
  simp only
  split
  · rename_i hc
    have h2r : (D : ℚ) ≤ 2 * ((N % D : Nat) : ℚ) := by
      have : D ≤ 2 * (N % D) := by rcases hc with hc | hc <;> omega
      exact_mod_cast this
    have hfrac : (1 : ℚ) / 2 ≤ ((N % D : Nat) : ℚ) / D := by
      rw [le_div_iff₀ hDq]; linarith
    have hfrac1 : ((N % D : Nat) : ℚ) / D < 1 := by
      rw [div_lt_one hDq]; exact hr
    push_cast
    rw [hND]
    constructor <;> linarith
  · rename_i hc
    have h2r : 2 * ((N % D : Nat) : ℚ) ≤ (D : ℚ) := by
      have : 2 * (N % D) ≤ D := by
        by_contra hcon
        exact hc (Or.inl (by omega))
      exact_mod_cast this
    have hfrac : ((N % D : Nat) : ℚ) / D ≤ 1 / 2 := by
      rw [div_le_iff₀ hDq]; linarith
    have hfrac0 : (0 : ℚ) ≤ ((N % D : Nat) : ℚ) / D := div_nonneg hr0 (le_of_lt hDq)
    rw [hND]
    constructor <;> linarith

/-- The value of the rounded mantissa at its exponent. -/
theorem nearest_core_value (N D1 : Nat) (e1 : Int) :
    (((if rne N D1 = 2 ^ 53 then ((2 : Nat) ^ 52, e1 + 1) else (rne N D1, e1)).1 : Nat) : ℚ) *
        2 ^ (if rne N D1 = 2 ^ 53 then ((2 : Nat) ^ 52, e1 + 1) else (rne N D1, e1)).2 =
      (rne N D1 : ℚ) * 2 ^ e1 := by
  have h2' : (2 : ℚ) ≠ 0 := by norm_num
  by_cases hm : rne N D1 = 2 ^ 53
  · simp only [hm, if_true]
    rw [zpow_add₀ h2']
    push_cast
    ring
  · simp only [hm, if_false]

/-- How a quotient is rounded: for `n, d > 0` the mantissa and exponent
nearest to `(n / d) * 2 ^ k` are the rounded quotient `N / D1` at an exponent
`e1`, with `N / D1 * 2 ^ e1 = (n / d) * 2 ^ k` as rationals, a quotient below
`2 ^ 53`, and one of at least `2 ^ 52` unless `e1 = -1074`; at `e1 = -1074`
and `k ≥ -1074` the divisor `D1` is `d`. -/
theorem nearest_form (n d : Nat) (k : Int) (h0 : 0 < n) (hd0 : 0 < d) :
    ∃ (N D1 : Nat) (e1 : Int), 0 < D1 ∧ (N : ℚ) * 2 ^ e1 * d = (n : ℚ) * 2 ^ k * D1 ∧
      N / D1 < 2 ^ 53 ∧ (-1074 < e1 → 2 ^ 52 ≤ N / D1) ∧ -1074 ≤ e1 ∧
      (e1 = -1074 → -1074 ≤ k → D1 = d) ∧
      nearest n d k =
        if rne N D1 = 2 ^ 53 then ((2 : Nat) ^ 52, e1 + 1) else (rne N D1, e1) := by
  obtain ⟨hb1, hb2, hb3⟩ := bits_spec n h0
  obtain ⟨hc1, hc2, hc3⟩ := bits_spec d hd0
  have h2 : (2 : ℚ) ≠ 0 := by norm_num
  unfold nearest
  simp only
  generalize hb : bits n n = b at hb1 hb2 hb3
  generalize hc : bits d d = c at hc1 hc2 hc3
  generalize he0 : max ((b : Int) - (c : Int) + k - 53) (-1074) = e0
  generalize ha : (k - e0).toNat = a
  generalize hb' : (e0 - k).toNat = b'
  have he0lo : -1074 ≤ e0 := by rw [← he0]; exact le_max_right _ _
  have he0l : (b : Int) - c + k - 53 ≤ e0 := by
    rw [← he0]; exact le_max_left _ _
  have he0c : e0 = (b : Int) - c + k - 53 ∨ e0 = -1074 := by
    rw [← he0]
    rcases max_choice ((b : Int) - (c : Int) + k - 53) (-1074) with h | h
    · left; rw [h]
    · right; exact h
  have hab : (a : Int) - b' = k - e0 := by omega
  have hpow : ∀ x y : Nat, x ≤ y → (2 : Nat) ^ x ≤ 2 ^ y :=
    fun x y h => Nat.pow_le_pow_right (by norm_num) h
  have hDpos : 0 < d * 2 ^ b' := Nat.mul_pos hd0 (Nat.two_pow_pos _)
  -- the quotient is below `2 ^ 54`
  have hup : n * 2 ^ a < 2 ^ 54 * (d * 2 ^ b') := by
    have h1 : n * 2 ^ a < 2 ^ b * 2 ^ a := Nat.mul_lt_mul_of_pos_right hb2 (Nat.two_pow_pos _)
    have h3 : 2 ^ b * 2 ^ a ≤ 2 ^ 54 * (2 ^ (c - 1) * 2 ^ b') := by
      rw [← pow_add, ← pow_add, ← pow_add]
      exact hpow _ _ (by omega)
    have h4 : 2 ^ 54 * (2 ^ (c - 1) * 2 ^ b') ≤ 2 ^ 54 * (d * 2 ^ b') :=
      Nat.mul_le_mul_left _ (Nat.mul_le_mul_right _ hc1)
    omega
  -- above the least exponent it is at least `2 ^ 52`
  have hlow : -1074 < e0 → 2 ^ 52 * (d * 2 ^ b') ≤ n * 2 ^ a := by
    intro hgt
    have he : e0 = (b : Int) - c + k - 53 := by omega
    have h1 : 2 ^ (b - 1) * 2 ^ a ≤ n * 2 ^ a := Nat.mul_le_mul_right _ hb1
    have h3 : 2 ^ 52 * (2 ^ c * 2 ^ b') ≤ 2 ^ (b - 1) * 2 ^ a := by
      rw [← pow_add, ← pow_add, ← pow_add]
      exact hpow _ _ (by omega)
    have h4 : 2 ^ 52 * (d * 2 ^ b') ≤ 2 ^ 52 * (2 ^ c * 2 ^ b') :=
      Nat.mul_le_mul_left _ (Nat.mul_le_mul_right _ (le_of_lt hc2))
    omega
  have hratio0 : ((n * 2 ^ a : Nat) : ℚ) * 2 ^ e0 * d =
      (n : ℚ) * 2 ^ k * ((d * 2 ^ b' : Nat) : ℚ) := by
    push_cast
    have e : (2 : ℚ) ^ a * 2 ^ e0 = 2 ^ k * 2 ^ b' := by
      rw [← zpow_natCast (2 : ℚ) b', ← zpow_add₀ h2, ← zpow_natCast (2 : ℚ) a, ← zpow_add₀ h2]
      congr 1
      omega
    calc (n : ℚ) * 2 ^ a * 2 ^ e0 * d = (n : ℚ) * ((2 : ℚ) ^ a * 2 ^ e0) * d := by ring
      _ = (n : ℚ) * (2 ^ k * 2 ^ b') * d := by rw [e]
      _ = (n : ℚ) * 2 ^ k * (d * 2 ^ b') := by ring
  by_cases hbig : n * 2 ^ a / (d * 2 ^ b') ≥ 2 ^ 53
  · simp only [hbig, if_true]
    have hbig' : 2 ^ 53 * (d * 2 ^ b') ≤ n * 2 ^ a := (Nat.le_div_iff_mul_le hDpos).mp hbig
    refine ⟨n * 2 ^ a, 2 * (d * 2 ^ b'), e0 + 1, by omega, ?_, ?_, ?_, by omega, ?_, rfl⟩
    · have e : (2 : ℚ) ^ (e0 + 1) = 2 ^ e0 * 2 := zpow_add_one₀ h2 e0
      rw [e]
      push_cast at hratio0 ⊢
      linarith
    · rw [Nat.div_lt_iff_lt_mul (by omega)]
      omega
    · intro _
      rw [Nat.le_div_iff_mul_le (by omega)]
      omega
    · intro h; omega
  · simp only [hbig, if_false]
    refine ⟨n * 2 ^ a, d * 2 ^ b', e0, hDpos, hratio0, by omega, ?_, he0lo, ?_, rfl⟩
    · intro hgt
      exact (Nat.le_div_iff_mul_le hDpos).mpr (hlow hgt)
    · intro h hk
      have : b' = 0 := by omega
      rw [this]
      simp

/-- Rounding a quotient `(n / d) * 2 ^ k`, `n, d > 0`: the mantissa fits in 53
bits and is at least `2 ^ 52` above the exponent `-1074`, which is the least;
and the value `w` of the result is within `2 ^ -52` of the exact value,
relatively, when the result is at least `1`, or when `d = 1` and
`k ≥ -1074` (the sum of two doubles). -/
theorem nearest_rel (n d : Nat) (k : Int) (h0 : 0 < n) (hd0 : 0 < d) :
    (nearest n d k).1 < 2 ^ 53 ∧ -1074 ≤ (nearest n d k).2 ∧
      (-1074 < (nearest n d k).2 → 2 ^ 52 ≤ (nearest n d k).1) ∧
      (((d = 1 ∧ -1074 ≤ k) ∨
          (1 : ℚ) ≤ (((nearest n d k).1 : Nat) : ℚ) * 2 ^ (nearest n d k).2) →
        (n : ℚ) / d * 2 ^ k * (1 - 1 / 2 ^ 52) ≤
            (((nearest n d k).1 : Nat) : ℚ) * 2 ^ (nearest n d k).2 ∧
          (((nearest n d k).1 : Nat) : ℚ) * 2 ^ (nearest n d k).2 ≤
            (n : ℚ) / d * 2 ^ k * (1 + 1 / 2 ^ 52)) := by
  obtain ⟨N, D1, e1, hD1, hratio, hq53, hq52, he1, hdiv, hform⟩ := nearest_form n d k h0 hd0
  have h2 : (0 : ℚ) < 2 := by norm_num
  have hpos : (0 : ℚ) < 2 ^ e1 := zpow_pos h2 e1
  have hDq : (0 : ℚ) < (D1 : ℚ) := by exact_mod_cast hD1
  have hdq : (0 : ℚ) < (d : ℚ) := by exact_mod_cast hd0
  obtain ⟨hlo, hhi⟩ := rne_bounds N D1
  obtain ⟨nlo, nhi⟩ := rne_near N D1 hD1
  have hV : (n : ℚ) / d * 2 ^ k = (N : ℚ) / D1 * 2 ^ e1 := by
    field_simp
    linarith
  have hVnn : (0 : ℚ) ≤ (N : ℚ) / D1 * 2 ^ e1 :=
    mul_nonneg (div_nonneg (Nat.cast_nonneg _) (le_of_lt hDq)) (le_of_lt hpos)
  rw [hform, nearest_core_value, hV]
  refine ⟨?_, ?_, ?_, ?_⟩
  · by_cases hm : rne N D1 = 2 ^ 53
    · simp [hm]
    · simp only [hm, if_false]
      omega
  · by_cases hm : rne N D1 = 2 ^ 53
    · simp only [hm, if_true]; omega
    · simp only [hm, if_false]; exact he1
  · by_cases hm : rne N D1 = 2 ^ 53
    · simp only [hm, if_true]
      intro _
      norm_num
    · simp only [hm, if_false]
      intro h
      have := hq52 h
      omega
  · intro hcond
    by_cases hgt : -1074 < e1
    · have h52 := hq52 hgt
      have hq : ((2 : ℚ) ^ 52) ≤ (N : ℚ) / D1 := by
        rw [le_div_iff₀ hDq]
        have : 2 ^ 52 * D1 ≤ N := (Nat.le_div_iff_mul_le hD1).mp h52
        exact_mod_cast this
      have hhalf : (1 : ℚ) / 2 ≤ (N : ℚ) / D1 * (1 / 2 ^ 52) := by
        have := mul_le_mul_of_nonneg_right hq (by positivity : (0 : ℚ) ≤ 1 / 2 ^ 52)
        norm_num at this ⊢
        linarith
      constructor
      · have : ((N : ℚ) / D1 - (N : ℚ) / D1 * (1 / 2 ^ 52)) * 2 ^ e1 ≤ (rne N D1 : ℚ) * 2 ^ e1 :=
          mul_le_mul_of_nonneg_right (by linarith) (le_of_lt hpos)
        linarith
      · have : (rne N D1 : ℚ) * 2 ^ e1 ≤ ((N : ℚ) / D1 + (N : ℚ) / D1 * (1 / 2 ^ 52)) * 2 ^ e1 :=
          mul_le_mul_of_nonneg_right (by linarith) (le_of_lt hpos)
        linarith
    · have he : e1 = -1074 := by omega
      rcases hcond with ⟨hd1, hk⟩ | hone
      · have hD11 : D1 = 1 := by rw [hdiv he hk, hd1]
        have hr : rne N D1 = N := by
          rw [hD11]
          unfold rne
          simp [Nat.mod_one]
        rw [hr, hD11]
        simp only [Nat.cast_one, div_one]
        have hnn : (0 : ℚ) ≤ (N : ℚ) * 2 ^ e1 := mul_nonneg (Nat.cast_nonneg _) (le_of_lt hpos)
        constructor
        · have : (N : ℚ) * 2 ^ e1 * (1 / 2 ^ 52) ≥ 0 := mul_nonneg hnn (by positivity)
          linarith
        · have : (N : ℚ) * 2 ^ e1 * (1 / 2 ^ 52) ≥ 0 := mul_nonneg hnn (by positivity)
          linarith
      · exfalso
        have hr53 : (rne N D1 : ℚ) ≤ 2 ^ 53 := by
          have : rne N D1 ≤ 2 ^ 53 := by omega
          exact_mod_cast this
        have hsmall : (rne N D1 : ℚ) * 2 ^ e1 ≤ 2 ^ 53 * 2 ^ (-1074 : Int) := by
          rw [he]
          exact mul_le_mul_of_nonneg_right hr53 (by positivity)
        have hlt : (2 : ℚ) ^ 53 * 2 ^ (-1074 : Int) < 1 := by
          rw [show (2 : ℚ) ^ 53 = 2 ^ (53 : Int) by norm_cast, ← zpow_add₀ (by norm_num)]
          exact zpow_lt_one_of_neg₀ (by norm_num) (by norm_num)
        linarith

theorem holds_nonneg (x : F64) (v : ℚ) (h : x.holds v) : 0 ≤ v := by
  obtain ⟨m, e, _, _, _, hv⟩ := h
  rw [← hv]
  positivity

theorem holds_unique (x : F64) (v w : ℚ) (h : x.holds v) (h' : x.holds w) : v = w := by
  obtain ⟨m, e, hx, _, _, hv⟩ := h
  obtain ⟨m', e', hx', _, _, hw⟩ := h'
  rw [hx] at hx'
  injection hx' with _ hm he
  rw [← hv, ← hw, hm, he]

theorem holds_toRat (x : F64) (v : ℚ) (h : x.holds v) : toRat? x = some v := by
  obtain ⟨m, e, hx, _, _, hv⟩ := h
  rw [hx, ← hv]
  simp [toRat?]

/-- A rounded value that overflows is at least `2 ^ 1024`. -/
theorem overflow_value (m : Nat) (e : Int) (hcan : -1074 < e → 2 ^ 52 ≤ m) (hov : e > 971) :
    huge ≤ (m : ℚ) * 2 ^ e := by
  have hm : ((2 : ℚ) ^ 52) ≤ (m : ℚ) := by exact_mod_cast hcan (by omega)
  have he : (2 : ℚ) ^ (972 : Int) ≤ 2 ^ e := zpow_le_zpow_right₀ (by norm_num) (by omega)
  calc huge = 2 ^ 52 * 2 ^ (972 : Int) := by
        unfold huge
        rw [show (2 : ℚ) ^ 52 = 2 ^ (52 : Int) by norm_cast, ← zpow_add₀ (by norm_num)]
        norm_num
    _ ≤ (m : ℚ) * 2 ^ e := mul_le_mul hm he (by positivity) (by positivity)

/-- The sum of two doubles with the sign bit clear: `+∞`, the exact sum being
at `2 ^ 1024` up to rounding, or a double within `2 ^ -52`, relatively, of the
exact sum. -/
theorem add_holds (x d : F64) (X D : ℚ) (hx : x.holds X) (hd : d.holds D) :
    (add x d = inf false ∧ huge ≤ (X + D) * (1 + 1 / 2 ^ 52)) ∨
      ∃ W, (add x d).holds W ∧ (X + D) * (1 - 1 / 2 ^ 52) ≤ W ∧
        W ≤ (X + D) * (1 + 1 / 2 ^ 52) ∧ X ≤ W := by
  obtain ⟨m, e, rfl, hm, he, hX⟩ := hx
  obtain ⟨md, ed, rfl, hmd, hed, hD⟩ := hd
  have h2 : (0 : ℚ) < 2 := by norm_num
  simp only [add]
  have hsa : (0 : Int) ≤ scaled false m e (min e ed) := by
    simp only [scaled, Bool.false_eq_true, if_false, one_mul]
    exact Int.ofNat_nonneg _
  have hsd : (0 : Int) ≤ scaled false md ed (min e ed) := by
    simp only [scaled, Bool.false_eq_true, if_false, one_mul]
    exact Int.ofNat_nonneg _
  have hpos : (0 : ℚ) < 2 ^ (min e ed) := zpow_pos h2 _
  have hsum : ((scaled false m e (min e ed) + scaled false md ed (min e ed) : Int) : ℚ) *
      2 ^ (min e ed) = X + D := by
    push_cast
    rw [scaled_cast m e _ (min_le_left _ _), scaled_cast md ed _ (min_le_right _ _), ← hX, ← hD]
    field_simp
  by_cases hz : scaled false m e (min e ed) + scaled false md ed (min e ed) = 0
  · right
    rw [if_pos hz]
    have h0 : X + D = 0 := by
      rw [← hsum, hz]
      simp
    have hX0 : 0 ≤ X := by rw [← hX]; positivity
    have hD0 : 0 ≤ D := by rw [← hD]; positivity
    refine ⟨0, ⟨0, -1074, by simp, by norm_num, le_refl _, by simp⟩, ?_, ?_, by linarith⟩ <;>
      rw [h0] <;> simp
  · rw [if_neg hz]
    have hzpos : 0 < scaled false m e (min e ed) + scaled false md ed (min e ed) := by omega
    have hneg : decide (scaled false m e (min e ed) + scaled false md ed (min e ed) < 0) =
        false := by
      rw [decide_eq_false_iff_not]; omega
    rw [hneg]
    have hn0 : 0 < (scaled false m e (min e ed) + scaled false md ed (min e ed)).natAbs := by
      omega
    have hn0' : (scaled false m e (min e ed) + scaled false md ed (min e ed)).natAbs ≠ 0 := by
      omega
    have hcast : (((scaled false m e (min e ed) +
        scaled false md ed (min e ed)).natAbs : Nat) : ℚ) / ((1 : Nat) : ℚ) * 2 ^ (min e ed) =
        X + D := by
      rw [Nat.cast_natAbs, abs_of_nonneg (by omega), Nat.cast_one, div_one]
      exact hsum
    obtain ⟨s1, s2, s3, s4⟩ := nearest_rel _ 1 (min e ed) hn0 (by norm_num)
    have s5 := s4 (Or.inl ⟨rfl, le_min he hed⟩)
    rw [hcast] at s5
    unfold round pack
    rw [if_neg hn0']
    by_cases hov : (nearest (scaled false m e (min e ed) +
        scaled false md ed (min e ed)).natAbs 1 (min e ed)).2 > 971
    · left
      rw [if_pos hov]
      exact ⟨rfl, le_trans (overflow_value _ _ s3 hov) s5.2⟩
    · right
      rw [if_neg hov]
      refine ⟨_, ⟨_, _, rfl, s1, s2, rfl⟩, s5.1, s5.2, ?_⟩
      rw [← hX]
      apply (nearest_one_spec _ (min e ed) hn0).2.2 m e hm he
      have hD0 : 0 ≤ D := by rw [← hD]; positivity
      have hc := hcast
      rw [Nat.cast_one, div_one] at hc
      rw [hc, hX]
      linarith

theorem ofNat_four : ofNat 4 = finite false 4503599627370496 (-50) := by decide

/-- Rounding a value that a double holds gives that double, or `+∞`. -/
theorem round_exact (n : Nat) (k : Int) (M : Nat) (Ex : Int) (hM : M < 2 ^ 53)
    (hEx : -1074 ≤ Ex) (hv : (n : ℚ) * 2 ^ k = (M : ℚ) * 2 ^ Ex) :
    (round false n 1 k = inf false ∧ huge ≤ (M : ℚ) * 2 ^ Ex) ∨
      (round false n 1 k).holds ((M : ℚ) * 2 ^ Ex) := by
  unfold round pack
  by_cases hn : n = 0
  · right
    rw [if_pos hn]
    refine ⟨0, -1074, rfl, by norm_num, le_refl _, ?_⟩
    rw [← hv, hn]
    simp
  · rw [if_neg hn]
    obtain ⟨s1, s2, s3, _⟩ := nearest_rel n 1 k (by omega) (by norm_num)
    by_cases hov : (nearest n 1 k).2 > 971
    · left
      rw [if_pos hov]
      refine ⟨rfl, ?_⟩
      rw [← nearest_one_exact n k (by omega) M Ex hM hEx hv]
      exact overflow_value _ _ s3 hov
    · right
      rw [if_neg hov]
      exact ⟨_, _, rfl, s1, s2, nearest_one_exact n k (by omega) M Ex hM hEx hv⟩

/-- Twice a double with the sign bit clear is `+∞` or the double of twice the
value. -/
theorem mul_two_holds (x : F64) (X : ℚ) (hx : x.holds X) :
    (mul (ofNat 2) x = inf false ∧ huge ≤ 2 * X) ∨ (mul (ofNat 2) x).holds (2 * X) := by
  obtain ⟨m, e, rfl, hm, he, hX⟩ := hx
  have h2' : (2 : ℚ) ≠ 0 := by norm_num
  rw [ofNat_two]
  simp only [mul, Bool.xor_false]
  have hv : ((4503599627370496 * m : Nat) : ℚ) * 2 ^ (-51 + e) = (m : ℚ) * 2 ^ (e + 1) := by
    push_cast
    rw [zpow_add₀ h2', zpow_add₀ h2']
    norm_num
    ring
  have hval : (m : ℚ) * 2 ^ (e + 1) = 2 * X := by
    rw [← hX, zpow_add₀ h2']
    ring
  rw [← hval]
  exact round_exact _ _ m (e + 1) hm (by omega) hv

/-- Four times a double with the sign bit clear is `+∞` or the double of four
times the value. -/
theorem mul_four_holds (x : F64) (X : ℚ) (hx : x.holds X) :
    (mul (ofNat 4) x = inf false ∧ huge ≤ 4 * X) ∨ (mul (ofNat 4) x).holds (4 * X) := by
  obtain ⟨m, e, rfl, hm, he, hX⟩ := hx
  have h2' : (2 : ℚ) ≠ 0 := by norm_num
  rw [ofNat_four]
  simp only [mul, Bool.xor_false]
  have hv : ((4503599627370496 * m : Nat) : ℚ) * 2 ^ (-50 + e) = (m : ℚ) * 2 ^ (e + 2) := by
    push_cast
    rw [zpow_add₀ h2', zpow_add₀ h2']
    norm_num
    ring
  have hval : (m : ℚ) * 2 ^ (e + 2) = 4 * X := by
    rw [← hX, zpow_add₀ h2']
    norm_num
    ring
  rw [← hval]
  exact round_exact _ _ m (e + 2) hm (by omega) hv

/-- Adding `+∞`, or adding to `+∞`, gives `+∞`. -/
theorem add_inf (x : F64) (X : ℚ) (hx : x.holds X) :
    add x (inf false) = inf false ∧ add (inf false) x = inf false := by
  obtain ⟨m, e, rfl, _, _, _⟩ := hx
  exact ⟨rfl, rfl⟩

/-- Repeated addition, with the drift of the rounding: `c ≤ 2 ^ 32` additions
of `d` to `r` give `+∞`, which takes `(R + c * D) * (1 + 2 ^ -19)` to reach
`2 ^ 1024`, or a double of a value between `R` and
`(R + c * D) * (1 + 2 * c / 2 ^ 52)`. -/
theorem addn_upper (r d : F64) (R D : ℚ) (hr : r.holds R) (hd : d.holds D) (c : Nat)
    (hc : c ≤ 2 ^ 32) (hfin : (R + c * D) * (1 + 1 / 2 ^ 19) < huge) :
    ∃ W, (addn d c r).holds W ∧ W ≤ (R + c * D) * (1 + 2 * c / 2 ^ 52) ∧ R ≤ W := by
  have hR0 := holds_nonneg r R hr
  have hD0 := holds_nonneg d D hd
  induction c with
  | zero =>
    refine ⟨R, hr, ?_, le_refl _⟩
    simp
  | succ c ih =>
    have hcq : (c : ℚ) ≤ 2 ^ 32 := by
      have : c ≤ 2 ^ 32 := by omega
      exact_mod_cast this
    have hc0 : (0 : ℚ) ≤ (c : ℚ) := Nat.cast_nonneg _
    have hmono : (R + c * D) ≤ (R + ((c + 1 : Nat) : ℚ) * D) := by
      push_cast
      nlinarith
    have hfin' : (R + c * D) * (1 + 1 / 2 ^ 19) < huge :=
      lt_of_le_of_lt (mul_le_mul_of_nonneg_right hmono (by norm_num)) hfin
    obtain ⟨W, hW, hWle, hRW⟩ := ih (by omega) hfin'
    have hS0 : 0 ≤ R + (c : ℚ) * D := by positivity
    have hT0 : 0 ≤ R + ((c + 1 : Nat) : ℚ) * D := by positivity
    -- the exact sum `W + D` is below the bound of pass `c + 1`
    have hsum : W + D ≤ (R + ((c + 1 : Nat) : ℚ) * D) * (1 + 2 * c / 2 ^ 52) := by
      have h1 : D ≤ D * (1 + 2 * c / 2 ^ 52) := by
        have : 0 ≤ D * (2 * c / 2 ^ 52) := by positivity
        linarith
      push_cast
      have : (R + (c + 1) * D) * (1 + 2 * c / 2 ^ 52) =
          (R + c * D) * (1 + 2 * c / 2 ^ 52) + D * (1 + 2 * c / 2 ^ 52) := by ring
      rw [this]
      linarith
    have hfac : (1 + 2 * (c : ℚ) / 2 ^ 52) * (1 + 1 / 2 ^ 52) ≤
        1 + 2 * ((c + 1 : Nat) : ℚ) / 2 ^ 52 := by
      push_cast
      have h51 : (c : ℚ) ≤ 2 ^ 50 := le_trans hcq (by norm_num)
      have : (1 + 2 * (c : ℚ) / 2 ^ 52) * (1 + 1 / 2 ^ 52) =
          1 + 2 * (c + 1) / 2 ^ 52 - (1 - 2 * (c : ℚ) / 2 ^ 52) / 2 ^ 52 := by ring
      rw [this]
      have : 0 ≤ (1 - 2 * (c : ℚ) / 2 ^ 52) / 2 ^ 52 := by
        apply div_nonneg _ (by norm_num)
        have : 2 * (c : ℚ) / 2 ^ 52 ≤ 1 := by
          rw [div_le_one (by norm_num)]
          linarith
        linarith
      linarith
    have hfac19 : 1 + 2 * ((c + 1 : Nat) : ℚ) / 2 ^ 52 ≤ 1 + 1 / 2 ^ 19 := by
      have h1 : ((c + 1 : Nat) : ℚ) ≤ 2 ^ 32 := by exact_mod_cast hc
      have : 2 * ((c + 1 : Nat) : ℚ) / 2 ^ 52 ≤ 1 / 2 ^ 19 := by
        rw [div_le_div_iff₀ (by norm_num) (by norm_num)]
        push_cast at h1 ⊢
        norm_num
        linarith
      linarith
    have hbound : (W + D) * (1 + 1 / 2 ^ 52) ≤
        (R + ((c + 1 : Nat) : ℚ) * D) * (1 + 2 * ((c + 1 : Nat) : ℚ) / 2 ^ 52) := by
      calc (W + D) * (1 + 1 / 2 ^ 52)
          ≤ (R + ((c + 1 : Nat) : ℚ) * D) * (1 + 2 * c / 2 ^ 52) * (1 + 1 / 2 ^ 52) :=
            mul_le_mul_of_nonneg_right hsum (by norm_num)
        _ = (R + ((c + 1 : Nat) : ℚ) * D) * ((1 + 2 * c / 2 ^ 52) * (1 + 1 / 2 ^ 52)) := by ring
        _ ≤ _ := mul_le_mul_of_nonneg_left hfac hT0
    simp only [addn]
    rcases add_holds _ d W D hW hd with ⟨_, hov⟩ | ⟨W', hW', _, hup, hmn⟩
    · exfalso
      have : (R + ((c + 1 : Nat) : ℚ) * D) * (1 + 2 * ((c + 1 : Nat) : ℚ) / 2 ^ 52) ≤
          (R + ((c + 1 : Nat) : ℚ) * D) * (1 + 1 / 2 ^ 19) :=
        mul_le_mul_of_nonneg_left hfac19 hT0
      exact absurd (lt_of_le_of_lt (le_trans hov (le_trans hbound this)) hfin) (lt_irrefl _)
    · exact ⟨W', hW', le_trans hup hbound, le_trans hRW hmn⟩

/-- A finite double with the sign bit clear truncates to a natural number not
above its value. -/
theorem trunc_le (m : Nat) (e : Int) :
    ∃ t, trunc? (finite false m e) = some t ∧ (t : ℚ) ≤ (m : ℚ) * 2 ^ e := by
  have h2 : (0 : ℚ) < 2 := by norm_num
  simp only [trunc?, Bool.false_eq_true, false_and, if_false]
  refine ⟨_, rfl, ?_⟩
  by_cases he : e ≥ 0
  · rw [if_pos he]
    push_cast
    rw [← zpow_natCast (2 : ℚ), Int.toNat_of_nonneg he]
  · rw [if_neg he]
    have hp : (0 : ℚ) < ((2 ^ (-e).toNat : Nat) : ℚ) := by positivity
    have h1 : ((m / 2 ^ (-e).toNat : Nat) : ℚ) ≤ (m : ℚ) / ((2 ^ (-e).toNat : Nat) : ℚ) :=
      Nat.cast_div_le
    have h3 : (m : ℚ) / ((2 ^ (-e).toNat : Nat) : ℚ) = (m : ℚ) * 2 ^ e := by
      push_cast
      rw [← zpow_natCast (2 : ℚ), Int.toNat_of_nonneg (by omega), zpow_neg, div_eq_mul_inv, inv_inv]
    rw [← h3]
    exact h1

/-- The floor of a finite double with the sign bit clear is a double of that
kind with a value not above it. -/
theorem floor_le (m : Nat) (e : Int) (hm : m < 2 ^ 53) :
    ∃ m' e', floor (finite false m e) = finite false m' e' ∧
      (m' : ℚ) * 2 ^ e' ≤ (m : ℚ) * 2 ^ e := by
  have h2 : (0 : ℚ) < 2 := by norm_num
  by_cases hc : e ≥ 0 ∨ m = 0
  · exact ⟨m, e, by simp only [floor, if_pos hc], le_refl _⟩
  · have he : e < 0 := by
      by_contra h
      exact hc (Or.inl (by omega))
    simp only [floor, if_neg hc, Bool.false_eq_true, if_false]
    have hj : m / 2 ^ (-e).toNat < 2 ^ 53 := lt_of_le_of_lt (Nat.div_le_self _ _) hm
    have hle : ((m / 2 ^ (-e).toNat : Nat) : ℚ) ≤ (m : ℚ) * 2 ^ e := by
      have h1 : ((m / 2 ^ (-e).toNat : Nat) : ℚ) ≤ (m : ℚ) / ((2 ^ (-e).toNat : Nat) : ℚ) :=
        Nat.cast_div_le
      have h3 : (m : ℚ) / ((2 ^ (-e).toNat : Nat) : ℚ) = (m : ℚ) * 2 ^ e := by
        push_cast
        rw [← zpow_natCast (2 : ℚ), Int.toNat_of_nonneg (by omega), zpow_neg, div_eq_mul_inv,
          inv_inv]
      rw [← h3]
      exact h1
    unfold round pack
    by_cases hn : m / 2 ^ (-e).toNat = 0
    · rw [if_pos hn]
      refine ⟨0, -1074, rfl, ?_⟩
      simp only [Nat.cast_zero, zero_mul]
      positivity
    · rw [if_neg hn]
      have hv := nearest_one_exact (m / 2 ^ (-e).toNat) 0 (Nat.pos_of_ne_zero hn)
        (m / 2 ^ (-e).toNat) 0 hj (by norm_num) rfl
      obtain ⟨s1, s2, s3, _⟩ := nearest_rel (m / 2 ^ (-e).toNat) 1 0 (Nat.pos_of_ne_zero hn)
        (by norm_num)
      by_cases hov : (nearest (m / 2 ^ (-e).toNat) 1 0).2 > 971
      · exfalso
        have h1 := overflow_value _ _ s3 hov
        rw [hv] at h1
        have h4 : ((m / 2 ^ (-e).toNat : Nat) : ℚ) < 2 ^ (53 : Int) := by exact_mod_cast hj
        have h5 : (2 : ℚ) ^ (53 : Int) ≤ huge := zpow_le_zpow_right₀ (by norm_num) (by norm_num)
        simp only [zpow_zero, mul_one] at h1
        linarith
      · rw [if_neg hov]
        refine ⟨_, _, rfl, ?_⟩
        rw [hv]
        simpa using hle

/-- The conversion of the floor of a finite double with the sign bit clear to
`unsigned int` is not above the value of the double, whether or not C++
defines it. -/
theorem toUInt_floor_le (oor : F64 → Nat) (m : Nat) (e : Int) (hm : m < 2 ^ 53) :
    ((toUInt oor (floor (finite false m e)) : Nat) : ℚ) ≤ (m : ℚ) * 2 ^ e := by
  obtain ⟨m', e', hf, hle⟩ := floor_le m e hm
  obtain ⟨t, ht, htle⟩ := trunc_le m' e'
  rw [hf]
  simp only [toUInt, ht]
  split
  · exact le_trans htle hle
  · rename_i hbig
    have h1 : oor (finite false m' e') % 2 ^ 32 < 2 ^ 32 := Nat.mod_lt _ (by norm_num)
    have h2 : oor (finite false m' e') % 2 ^ 32 ≤ t := by omega
    have h3 : ((oor (finite false m' e') % 2 ^ 32 : Nat) : ℚ) ≤ (t : ℚ) := by exact_mod_cast h2
    exact le_trans h3 (le_trans htle hle)

/-- No particle fits along a domain of finite width when the diameter is
`+∞`. -/
theorem count_inf (oor : F64 → Nat) (xl : F64) (XL : ℚ) (hx : xl.holds XL) :
    toUInt oor (floor (div xl (inf false))) = 0 := by
  obtain ⟨m, e, rfl, _, _, _⟩ := hx
  simp [div, floor, toUInt, trunc?]

/-- The count of lines 46 and 47: the number of diameters the conversion of
`floor (x_limit / diameter)` yields, whether or not C++ defines it, is at most
`x_limit * (1 + 2 ^ -52)` when multiplied by the diameter. -/
theorem count_mul_le (oor : F64 → Nat) (xl d : F64) (XL D : ℚ) (hx : xl.holds XL)
    (hd : d.holds D) (hD : 0 < D) :
    ((toUInt oor (floor (div xl d)) : Nat) : ℚ) * D ≤ XL * (1 + 1 / 2 ^ 52) := by
  have hXL0 := holds_nonneg xl XL hx
  obtain ⟨ma, ea, rfl, hma, hea, hX⟩ := hx
  obtain ⟨mb, eb, rfl, hmb, heb, hDv⟩ := hd
  have h2' : (2 : ℚ) ≠ 0 := by norm_num
  have hmb0 : mb ≠ 0 := by
    intro h
    rw [h] at hDv
    simp at hDv
    linarith
  have hmbq : (0 : ℚ) < (mb : ℚ) := by exact_mod_cast Nat.pos_of_ne_zero hmb0
  simp only [div, if_neg hmb0, Bool.xor_false]
  unfold round pack
  by_cases hn : ma = 0
  · rw [if_pos hn]
    have : toUInt oor (floor (finite false 0 (-1074))) = 0 := by
      simp [floor, toUInt, trunc?]
    rw [this]
    simp only [Nat.cast_zero, zero_mul]
    positivity
  · rw [if_neg hn]
    obtain ⟨s1, s2, s3, s4⟩ := nearest_rel ma mb (ea - eb) (Nat.pos_of_ne_zero hn)
      (Nat.pos_of_ne_zero hmb0)
    have hV : (ma : ℚ) / mb * 2 ^ (ea - eb) = XL / D := by
      rw [← hX, ← hDv, zpow_sub₀ h2']
      field_simp
    rw [hV] at s4
    -- a count of at least one, not above the rounded quotient, is within the bound
    have key : ∀ t : Nat, (t : ℚ) ≤
        (((nearest ma mb (ea - eb)).1 : Nat) : ℚ) * 2 ^ (nearest ma mb (ea - eb)).2 →
        (t : ℚ) * D ≤ XL * (1 + 1 / 2 ^ 52) := by
      intro t ht
      by_cases ht0 : t = 0
      · rw [ht0]
        simp only [Nat.cast_zero, zero_mul]
        positivity
      · have h1 : (1 : ℚ) ≤ (t : ℚ) := by exact_mod_cast Nat.one_le_iff_ne_zero.mpr ht0
        have h3 := (s4 (Or.inr (le_trans h1 ht))).2
        have h4 : (t : ℚ) ≤ XL / D * (1 + 1 / 2 ^ 52) := le_trans ht h3
        have h5 := mul_le_mul_of_nonneg_right h4 (le_of_lt hD)
        have h6 : XL / D * (1 + 1 / 2 ^ 52) * D = XL * (1 + 1 / 2 ^ 52) := by
          field_simp
          ring
        rw [h6] at h5
        exact h5
    by_cases hov : (nearest ma mb (ea - eb)).2 > 971
    · rw [if_pos hov]
      have ht : toUInt oor (floor (inf false)) = oor (inf false) % 2 ^ 32 := by
        simp [floor, toUInt, trunc?]
      rw [ht]
      apply key
      have h1 := overflow_value _ _ s3 hov
      have h3 : oor (inf false) % 2 ^ 32 < 2 ^ 32 := Nat.mod_lt _ (by norm_num)
      have h4 : ((oor (inf false) % 2 ^ 32 : Nat) : ℚ) < 2 ^ (32 : Int) := by exact_mod_cast h3
      have h5 : (2 : ℚ) ^ (32 : Int) ≤ huge := zpow_le_zpow_right₀ (by norm_num) (by norm_num)
      linarith
    · rw [if_neg hov]
      apply key
      exact toUInt_floor_le oor _ _ s1

theorem not_holds_inf (b : Bool) (W : ℚ) : ¬ (inf b).holds W := by
  rintro ⟨m, e, h, _⟩
  cases h

/-- The bound that keeps the sums finite holds for every smaller count. -/
theorem fin_mono (R D : ℚ) (hD : 0 ≤ D) (a b : Nat) (hab : a ≤ b)
    (hfin : (R + b * D) * (1 + 1 / 2 ^ 19) < huge) :
    (R + a * D) * (1 + 1 / 2 ^ 19) < huge := by
  have h1 : (a : ℚ) ≤ (b : ℚ) := by exact_mod_cast hab
  have h2 : R + a * D ≤ R + b * D := by nlinarith
  exact lt_of_le_of_lt (mul_le_mul_of_nonneg_right h2 (by norm_num)) hfin

/-- Repeated addition of a double with the sign bit clear does not go down. -/
theorem addn_mono (r d : F64) (R D : ℚ) (hr : r.holds R) (hd : d.holds D) (a b : Nat)
    (hab : a ≤ b) (hb : b ≤ 2 ^ 32) (hfin : (R + b * D) * (1 + 1 / 2 ^ 19) < huge) :
    ∃ Wa Wb, (addn d a r).holds Wa ∧ (addn d b r).holds Wb ∧ Wa ≤ Wb := by
  have hR0 := holds_nonneg r R hr
  have hD0 := holds_nonneg d D hd
  induction b, hab using Nat.le_induction with
  | base =>
    obtain ⟨W, hW, _, _⟩ := addn_upper r d R D hr hd a hb hfin
    exact ⟨W, W, hW, hW, le_refl _⟩
  | succ b hab ih =>
    obtain ⟨Wa, Wb, hWa, hWb, hle⟩ := ih (by omega)
      (fin_mono R D hD0 b (b + 1) (by omega) hfin)
    obtain ⟨W', hW', _, _⟩ := addn_upper r d R D hr hd (b + 1) hb hfin
    simp only [addn] at hW'
    rcases add_holds _ d Wb D hWb hd with ⟨hinf, _⟩ | ⟨W'', hW'', _, _, hmn⟩
    · rw [hinf] at hW'
      exact absurd hW' (not_holds_inf _ _)
    · exact ⟨Wa, W'', hWa, hW'', le_trans hle hmn⟩

/-- Two sums of the same chain, the later one at least one addition further:
with `a` the count of the earlier one they differ by at least
`D * (1 - (2 * a + 3) / 2 ^ 52)`, which is at least `D * (1 - 2 ^ -19)`. -/
theorem addn_gap (r d : F64) (R D : ℚ) (hr : r.holds R) (hd : d.holds D) (hRD : R ≤ D)
    (a b : Nat) (hab : a < b) (hb : b + 1 ≤ 2 ^ 32)
    (hfin : (R + b * D) * (1 + 1 / 2 ^ 19) < huge) :
    ∃ Wa Wb, (addn d a r).holds Wa ∧ (addn d b r).holds Wb ∧
      Wa + D * (1 - (2 * a + 3) / 2 ^ 52) ≤ Wb ∧
      D * (1 - 1 / 2 ^ 19) ≤ D * (1 - (2 * a + 3) / 2 ^ 52) := by
  have hR0 := holds_nonneg r R hr
  have hD0 := holds_nonneg d D hd
  obtain ⟨Wa, hWa, hup, _⟩ := addn_upper r d R D hr hd a (by omega)
    (fin_mono R D hD0 a b (by omega) hfin)
  obtain ⟨W1, Wb, hW1, hWb, hle⟩ := addn_mono r d R D hr hd (a + 1) b hab (by omega) hfin
  simp only [addn] at hW1
  rcases add_holds _ d Wa D hWa hd with ⟨hinf, _⟩ | ⟨W1', hW1', hlow, _, _⟩
  · rw [hinf] at hW1
    exact absurd hW1 (not_holds_inf _ _)
  · have heq := holds_unique _ _ _ hW1 hW1'
    subst heq
    have haq : (a : ℚ) + 2 ≤ 2 ^ 32 := by
      have : a + 2 ≤ 2 ^ 32 := by omega
      exact_mod_cast this
    have ha0 : (0 : ℚ) ≤ (a : ℚ) := Nat.cast_nonneg _
    have hfac : 1 + 2 * (a : ℚ) / 2 ^ 52 ≤ 2 := by
      have : 2 * (a : ℚ) / 2 ^ 52 ≤ 1 := by
        rw [div_le_one (by norm_num)]
        have : (2 : ℚ) ^ 32 ≤ 2 ^ 51 := by norm_num
        linarith
      linarith
    have hWa2 : Wa ≤ (R + a * D) * 2 :=
      le_trans hup (mul_le_mul_of_nonneg_left hfac (by positivity))
    have hsum : Wa + D ≤ (2 * a + 3) * D := by nlinarith
    have herr : (Wa + D) * (1 / 2 ^ 52) ≤ D * ((2 * a + 3) / 2 ^ 52) := by
      have h1 := mul_le_mul_of_nonneg_right hsum (by norm_num : (0 : ℚ) ≤ 1 / 2 ^ 52)
      have h2 : (2 * (a : ℚ) + 3) * D * (1 / 2 ^ 52) = D * ((2 * a + 3) / 2 ^ 52) := by ring
      linarith
    have hunif : (2 * (a : ℚ) + 3) / 2 ^ 52 ≤ 1 / 2 ^ 19 := by
      rw [div_le_div_iff₀ (by norm_num) (by norm_num)]
      norm_num
      linarith
    refine ⟨Wa, Wb, hWa, hWb, le_trans ?_ hle, ?_⟩
    · linarith
    · have := mul_le_mul_of_nonneg_left hunif hD0
      linarith

theorem holds_pos (x : F64) (X : ℚ) (h0 : lt zero x = true) (h : x.holds X) : 0 < X :=
  toRat_pos_of_zero_lt x X h0 (holds_toRat x X h)

/-- A double above `+0.0` within the format is `+∞` or holds a positive value. -/
theorem holds_of_wf (x : F64) (h0 : lt zero x = true) (hwf : x.wf) :
    x = inf false ∨ ∃ X, x.holds X ∧ 0 < X := by
  rcases pos_of_zero_lt x h0 with h | ⟨m, e, h⟩
  · exact Or.inl h
  · right
    rw [h] at hwf
    have hh : x.holds ((m : ℚ) * 2 ^ e) := ⟨m, e, h, hwf.1, hwf.2, rfl⟩
    exact ⟨_, hh, holds_pos x _ h0 hh⟩

/-- A moderate double above `+0.0` holds a positive value below `2 ^ 1022`. -/
theorem holds_of_moderate (x : F64) (h0 : lt zero x = true) (hm : x.moderate) :
    ∃ X, x.holds X ∧ 0 < X ∧ 4 * X ≤ huge := by
  rcases pos_of_zero_lt x h0 with h | ⟨m, e, h⟩
  · rw [h] at hm
    exact absurd hm (by simp [moderate])
  · rw [h] at hm
    simp only [moderate] at hm
    have hh : x.holds ((m : ℚ) * 2 ^ e) := ⟨m, e, h, hm.1, hm.2.1, rfl⟩
    refine ⟨_, hh, holds_pos x _ h0 hh, ?_⟩
    have h1 : (m : ℚ) ≤ 2 ^ (53 : Int) := by
      have : m ≤ 2 ^ 53 := le_of_lt hm.1
      exact_mod_cast this
    have h2 : (2 : ℚ) ^ e ≤ 2 ^ (969 : Int) := zpow_le_zpow_right₀ (by norm_num) hm.2.2
    have h3 : (m : ℚ) * 2 ^ e ≤ 2 ^ (53 : Int) * 2 ^ (969 : Int) :=
      mul_le_mul h1 h2 (by positivity) (by positivity)
    have h4 : (4 : ℚ) * (2 ^ (53 : Int) * 2 ^ (969 : Int)) = huge := by
      unfold huge
      rw [show (4 : ℚ) = 2 ^ (2 : Int) by norm_num, ← zpow_add₀ (by norm_num),
        ← zpow_add₀ (by norm_num)]
      norm_num
    linarith

/-- Along one axis: when `n` diameters `2 * R` are at most
`L * (1 + 2 ^ -52)`, with `4 * L ≤ 2 ^ 1024` and `n < 2 ^ 32`, the sums up to
the count `a < n` stay finite. -/
theorem axis_fin (R L : ℚ) (hR : 0 < R) (n a : Nat) (ha : a < n)
    (hcount : (n : ℚ) * (2 * R) ≤ L * (1 + 1 / 2 ^ 52)) (hL : 4 * L ≤ huge) :
    (R + a * (2 * R)) * (1 + 1 / 2 ^ 19) < huge ∧
      (R + a * (2 * R)) + R ≤ L * (1 + 1 / 2 ^ 52) := by
  have h1 : (a : ℚ) + 1 ≤ (n : ℚ) := by exact_mod_cast ha
  have h2 : (R + a * (2 * R)) + R ≤ (n : ℚ) * (2 * R) := by nlinarith
  have h3 : (R + a * (2 * R)) + R ≤ L * (1 + 1 / 2 ^ 52) := le_trans h2 hcount
  have hL0 : 0 < L := by
    have : (0 : ℚ) ≤ a := Nat.cast_nonneg _
    have : 0 < (R + a * (2 * R)) + R := by positivity
    have h5 : 0 < L * (1 + 1 / 2 ^ 52) := lt_of_lt_of_le this h3
    by_contra hneg
    push_neg at hneg
    have : L * (1 + 1 / 2 ^ 52) ≤ 0 := mul_nonpos_of_nonpos_of_nonneg hneg (by norm_num)
    linarith
  refine ⟨?_, h3⟩
  have h6 : (R + a * (2 * R)) ≤ L * (1 + 1 / 2 ^ 52) := by linarith
  have h7 : (R + a * (2 * R)) * (1 + 1 / 2 ^ 19) ≤ L * (1 + 1 / 2 ^ 52) * (1 + 1 / 2 ^ 19) :=
    mul_le_mul_of_nonneg_right h6 (by norm_num)
  have h8 : L * (1 + 1 / 2 ^ 52) * (1 + 1 / 2 ^ 19) < 4 * L := by
    have : (1 + 1 / 2 ^ 52 : ℚ) * (1 + 1 / 2 ^ 19) < 4 := by norm_num
    nlinarith
  exact lt_of_lt_of_le (lt_of_le_of_lt h7 h8) hL

/-- Along one axis, with the hypotheses of `axis_fin`: the coordinate of
count `a < n` is a finite double of a value `W` with `R ≤ W` and
`W + R ≤ L * (1 + (a + 1) / 2 ^ 51)`, which is at most `L * (1 + 2 ^ -19)`. -/
theorem axis_coordinate (r d : F64) (R L : ℚ) (hr : r.holds R) (hd : d.holds (2 * R))
    (hR : 0 < R) (n a : Nat) (ha : a < n) (hn : n ≤ 2 ^ 32)
    (hcount : (n : ℚ) * (2 * R) ≤ L * (1 + 1 / 2 ^ 52)) (hL : 4 * L ≤ huge) :
    ∃ W, (addn d a r).holds W ∧ R ≤ W ∧ W + R ≤ L * (1 + (a + 1) / 2 ^ 51) ∧
      L * (1 + (a + 1) / 2 ^ 51) ≤ L * (1 + 1 / 2 ^ 19) := by
  obtain ⟨hfin, hsum⟩ := axis_fin R L hR n a ha hcount hL
  obtain ⟨W, hW, hup, hlo⟩ := addn_upper r d R (2 * R) hr hd a (by omega) hfin
  have ha0 : (0 : ℚ) ≤ (a : ℚ) := Nat.cast_nonneg _
  have haq : (a : ℚ) + 1 ≤ 2 ^ 32 := by
    have : a + 1 ≤ 2 ^ 32 := by omega
    exact_mod_cast this
  have hS0 : 0 ≤ R + a * (2 * R) := by positivity
  have hL0 : 0 ≤ L := by
    have h5 : 0 ≤ L * (1 + 1 / 2 ^ 52) := le_trans (by positivity) hsum
    by_contra hneg
    push_neg at hneg
    have : L * (1 + 1 / 2 ^ 52) < 0 := mul_neg_of_neg_of_pos hneg (by norm_num)
    linarith
  have hunif : ((a : ℚ) + 1) / 2 ^ 51 ≤ 1 / 2 ^ 19 := by
    rw [div_le_div_iff₀ (by norm_num) (by norm_num)]
    norm_num
    linarith
  refine ⟨W, hW, hlo, ?_, ?_⟩
  · have h2 : W + R ≤ ((R + a * (2 * R)) + R) * (1 + 2 * a / 2 ^ 52) := by
      have : 0 ≤ R * (2 * a / 2 ^ 52) := by positivity
      nlinarith
    have h3 : ((R + a * (2 * R)) + R) * (1 + 2 * a / 2 ^ 52) ≤
        L * (1 + 1 / 2 ^ 52) * (1 + 2 * a / 2 ^ 52) :=
      mul_le_mul_of_nonneg_right hsum (by positivity)
    have h4 : L * (1 + 1 / 2 ^ 52) * (1 + 2 * a / 2 ^ 52) ≤ L * (1 + (a + 1) / 2 ^ 51) := by
      have h5 : (1 + 1 / 2 ^ 52 : ℚ) * (1 + 2 * a / 2 ^ 52) ≤ 1 + (a + 1) / 2 ^ 51 := by
        have e : (1 + 1 / 2 ^ 52 : ℚ) * (1 + 2 * a / 2 ^ 52) =
            1 + (a + 1) / 2 ^ 51 - (1 - 2 * (a : ℚ) / 2 ^ 52) / 2 ^ 52 := by ring
        rw [e]
        have : 0 ≤ (1 - 2 * (a : ℚ) / 2 ^ 52) / 2 ^ 52 := by
          apply div_nonneg _ (by norm_num)
          have : 2 * (a : ℚ) / 2 ^ 52 ≤ 1 := by
            rw [div_le_one (by norm_num)]
            have : (2 : ℚ) ^ 32 ≤ 2 ^ 51 := by norm_num
            linarith
          linarith
        linarith
      have := mul_le_mul_of_nonneg_left h5 hL0
      linarith
    linarith
  · have := mul_le_mul_of_nonneg_left hunif hL0
    linarith

/-- A conversion to `unsigned int` yields a value below `2 ^ 32`. -/
theorem toUInt_lt (oor : F64 → Nat) (x : F64) : F64.toUInt oor x < 2 ^ 32 := by
  unfold F64.toUInt
  split
  · split
    · assumption
    · exact Nat.mod_lt _ (by norm_num)
  · exact Nat.mod_lt _ (by norm_num)

/-- A finite double minus itself is `+0.0`. -/
theorem sub_self_holds (x : F64) (X : ℚ) (hx : x.holds X) : F64.sub x x = F64.zero := by
  obtain ⟨m, e, rfl, _, _, _⟩ := hx
  simp [F64.sub, F64.neg, F64.add, F64.scaled, F64.zero]

end F64

/-- One axis of a configuration with at least one particle along it: the
radius is finite, the diameter is twice the radius exactly, and the count of
diameters is at most the limit, up to the rounding of the quotient of lines 46
and 47. -/
theorem axis_setup (oor : F64 → Nat) (c : Config) (l : F64)
    (hr : F64.lt F64.zero c.radius = true) (hwf : c.radius.wf)
    (hl0 : F64.lt F64.zero l = true) (hl : l.moderate)
    (hcount : 1 ≤ F64.toUInt oor (F64.floor (F64.div l (diameter c)))) :
    ∃ R L, c.radius.holds R ∧ 0 < R ∧ (diameter c).holds (2 * R) ∧ l.holds L ∧
      4 * L ≤ F64.huge ∧
      (F64.toUInt oor (F64.floor (F64.div l (diameter c))) : ℚ) * (2 * R) ≤
        L * (1 + 1 / 2 ^ 52) ∧
      F64.toUInt oor (F64.floor (F64.div l (diameter c))) ≤ 2 ^ 32 := by
  obtain ⟨L, hL, hL0, hLh⟩ := F64.holds_of_moderate l hl0 hl
  have hd : ∃ R, c.radius.holds R ∧ 0 < R ∧ (diameter c).holds (2 * R) := by
    rcases F64.holds_of_wf c.radius hr hwf with hinf | ⟨R, hR, hR0⟩
    · exfalso
      have hdi : diameter c = F64.inf false := by
        unfold diameter
        rw [hinf, F64.ofNat_two]
        rfl
      rw [hdi, F64.count_inf _ _ L hL] at hcount
      omega
    · rcases F64.mul_two_holds c.radius R hR with ⟨hinf, _⟩ | hD
      · exfalso
        unfold diameter at hcount
        rw [hinf, F64.count_inf _ _ L hL] at hcount
        omega
      · exact ⟨R, hR, hR0, hD⟩
  obtain ⟨R, hR, hR0, hD⟩ := hd
  have hD0 : (0 : ℚ) < 2 * R := by linarith
  exact ⟨R, L, hR, hR0, hD, hL, hLh,
    F64.count_mul_le oor l (diameter c) L (2 * R) hL hD hD0, le_of_lt (F64.toUInt_lt _ _)⟩

/-- A configuration with a lattice particle: the radius is finite, the
diameter is twice the radius exactly, and `max_in_x` and `max_in_y` diameters
are at most `x_limit` and `y_limit`, up to the rounding of the quotients of
lines 46 and 47. -/
theorem lattice_setup (E : Externals) (c : Config) (hv : c.valid) (hwf : c.radius.wf)
    (hx : c.x_limit.moderate) (hy : c.y_limit.moderate) (hlat : 1 < num_particles E c) :
    ∃ R XL YL, c.radius.holds R ∧ 0 < R ∧ (diameter c).holds (2 * R) ∧
      c.x_limit.holds XL ∧ c.y_limit.holds YL ∧ 4 * XL ≤ F64.huge ∧ 4 * YL ≤ F64.huge ∧
      (max_in_x E c : ℚ) * (2 * R) ≤ XL * (1 + 1 / 2 ^ 52) ∧
      (max_in_y E c : ℚ) * (2 * R) ≤ YL * (1 + 1 / 2 ^ 52) ∧
      1 ≤ max_in_x E c ∧ 1 ≤ max_in_y E c ∧ max_in_x E c ≤ 2 ^ 32 ∧ max_in_y E c ≤ 2 ^ 32 := by
  obtain ⟨hgx, hgy⟩ := lattice_index_in_grid E c 1 (le_refl 1) hlat
  have hmx : 1 ≤ max_in_x E c := Nat.one_le_iff_ne_zero.mpr (by
    intro h; rw [h] at hgx; exact absurd hgx (Nat.not_lt_zero _))
  have hmy : 1 ≤ max_in_y E c := Nat.one_le_iff_ne_zero.mpr (by
    intro h; rw [h] at hgy; exact absurd hgy (Nat.not_lt_zero _))
  obtain ⟨R, XL, hR, hR0, hD, hXL, hXLh, hcx, hmx2⟩ :=
    axis_setup E.conv_undefined c c.x_limit hv.1 hwf hv.2.1 hx hmx
  obtain ⟨R', YL, hR', _, _, hYL, hYLh, hcy, hmy2⟩ :=
    axis_setup E.conv_undefined c c.y_limit hv.1 hwf hv.2.2 hy hmy
  have hRR : R' = R := F64.holds_unique _ _ _ hR' hR
  rw [hRR] at hcy
  exact ⟨R, XL, YL, hR, hR0, hD, hXL, hYL, hXLh, hYLh, hcx, hcy, hmx, hmy, hmx2, hmy2⟩

/-- Two counts `a ≠ b` below `n` along one axis: the coordinates are finite
and differ by at least `2 * R * (1 - (2 * min a b + 3) / 2 ^ 52)`. -/
theorem axis_apart (r d : F64) (R L : ℚ) (hr : r.holds R) (hd : d.holds (2 * R))
    (hR : 0 < R) (n a b : Nat) (ha : a < n) (hb : b < n) (hab : a ≠ b) (hn : n ≤ 2 ^ 32)
    (hcount : (n : ℚ) * (2 * R) ≤ L * (1 + 1 / 2 ^ 52)) (hL : 4 * L ≤ F64.huge) :
    ∃ Wa Wb, (F64.addn d a r).holds Wa ∧ (F64.addn d b r).holds Wb ∧
      2 * R * (1 - (2 * (min a b : Nat) + 3) / 2 ^ 52) ≤ |Wa - Wb| ∧
      2 * R * (1 - 1 / 2 ^ 19) ≤ |Wa - Wb| := by
  rcases Nat.lt_or_gt_of_ne hab with hlt | hgt
  · obtain ⟨Wa, Wb, hWa, hWb, hg, hu⟩ := F64.addn_gap r d R (2 * R) hr hd (by linarith) a b hlt
      (by omega) (F64.axis_fin R L hR n b hb hcount hL).1
    have hmin : min a b = a := Nat.min_eq_left (le_of_lt hlt)
    have habs : Wb - Wa ≤ |Wa - Wb| := by rw [abs_sub_comm]; exact le_abs_self _
    rw [hmin]
    exact ⟨Wa, Wb, hWa, hWb, by linarith, by linarith⟩
  · obtain ⟨Wb, Wa, hWb, hWa, hg, hu⟩ := F64.addn_gap r d R (2 * R) hr hd (by linarith) b a hgt
      (by omega) (F64.axis_fin R L hR n a ha hcount hL).1
    have hmin : min a b = b := Nat.min_eq_right (le_of_lt hgt)
    have habs : Wa - Wb ≤ |Wa - Wb| := le_abs_self _
    rw [hmin]
    exact ⟨Wa, Wb, hWa, hWb, by linarith, by linarith⟩

/-! ## The claims on the lattice geometry and the bounds of the stores -/

/-- C11: lattice placement starts at `(radius, radius)` and follows the step
rule: whenever there is a lattice particle, particle 1 is at
`(radius, radius)`; and for `1 ≤ i` with `i + 1 < num_particles`, if
`i mod max_in_x = 0`, particle `i + 1` is at `(radius, y_i + diameter)`,
otherwise it is at `(x_i + diameter, y_i)`, where `(x_i, y_i)` is the position
of particle `i`. -/
theorem lattice_step_rule (E : Externals) (c : Config) (i : Nat) (h1 : 1 ≤ i)
    (hi : i < ( Sim.initialize E c).returned) :
    (( Sim.initialize E c).state.particles.cell 1).x_coordinate = c.radius ∧
      (( Sim.initialize E c).state.particles.cell 1).y_coordinate = c.radius ∧
      (i + 1 < ( Sim.initialize E c).returned →
        (i % max_in_x E c = 0 →
          (( Sim.initialize E c).state.particles.cell (i + 1)).x_coordinate = c.radius ∧
            (( Sim.initialize E c).state.particles.cell (i + 1)).y_coordinate =
              F64.add (( Sim.initialize E c).state.particles.cell i).y_coordinate
                (diameter c)) ∧
        (i % max_in_x E c ≠ 0 →
          (( Sim.initialize E c).state.particles.cell (i + 1)).x_coordinate =
              F64.add (( Sim.initialize E c).state.particles.cell i).x_coordinate
                (diameter c) ∧
            (( Sim.initialize E c).state.particles.cell (i + 1)).y_coordinate =
              (( Sim.initialize E c).state.particles.cell i).y_coordinate)) := by
  rw [initialize_returned] at hi ⊢
  have hm : 0 < max_in_x E c := max_in_x_pos_of_lt E c i h1 hi
  have hc1 := (initialize_lattice_cell E c 1 (le_refl 1) (by omega)).1
  have hci := (initialize_lattice_cell E c i h1 hi).1
  refine ⟨?_, ?_, ?_⟩
  · rw [hc1]; simp [F64.addn]
  · rw [hc1]; simp [F64.addn]
  · intro hn
    have hcs := (initialize_lattice_cell E c (i + 1) (by omega) hn).1
    obtain ⟨k, rfl⟩ : ∃ k, i = k + 1 := ⟨i - 1, by omega⟩
    simp only [Nat.add_sub_cancel] at hci hcs
    refine ⟨?_, ?_⟩
    · intro h0
      obtain ⟨hq, _⟩ := succ_div_mod_of_mod_eq_zero k (max_in_x E c) h0 hm
      rw [hcs, hci, h0, hq]
      exact ⟨rfl, rfl⟩
    · intro h0
      obtain ⟨hq, hr⟩ := succ_div_mod_of_mod_ne_zero k (max_in_x E c) h0 hm
      rw [hcs, hci, hr, hq]
      exact ⟨rfl, rfl⟩

/-- C11 witness: the step after particle 5, the last of its row, in the
example configuration. -/
theorem lattice_step_rule_witness :
    (1 ≤ 5 ∧ 5 < ( Sim.initialize Externals.sample config_example).returned) ∧
      (( Sim.initialize Externals.sample config_example).state.particles.cell 1).x_coordinate =
        config_example.radius ∧
      (( Sim.initialize Externals.sample config_example).state.particles.cell (5 + 1)).x_coordinate =
        config_example.radius :=
  ⟨by decide,
    (lattice_step_rule Externals.sample config_example 5 (by decide) (by decide)).1,
    (((lattice_step_rule Externals.sample config_example 5 (by decide) (by decide)).2.2
      (by decide)).1 (by decide)).1⟩

/-- C12, as the code has it: for a valid configuration whose radius is a double of the
format and whose `y_limit` is a finite double below `2 ^ 1022`, and a lattice
index `i`, the `y` of particle 0 and of particle `i` are finite and, in exact
values, the clearance `particles[0].y - (particles[i].y + radius)` is at least
`4 * radius - y_limit * (row + 3) / 2 ^ 51`, with `row` the row of particle
`i`, hence at least `4 * radius - y_limit / 2 ^ 18`; and when
`y_limit ≤ 2 ^ 18 * 3 * radius` the lowest point of the disc of particle 0 is
not below the highest point of the disc of particle `i`. -/
theorem impactor_clearance (E : Externals) (c : Config) (i : Nat)
    (hv : c.valid) (hwf : c.radius.wf) (hy : c.y_limit.moderate)
    (h1 : 1 ≤ i) (hn : i < ( Sim.initialize E c).returned) :
    ∃ R YL Y0 Y : ℚ, F64.toRat? c.radius = some R ∧ F64.toRat? c.y_limit = some YL ∧
      F64.toRat? (( Sim.initialize E c).state.particles.cell 0).y_coordinate = some Y0 ∧
      F64.toRat? (( Sim.initialize E c).state.particles.cell i).y_coordinate = some Y ∧
      4 * R - YL * ((row E c i + 3) / 2 ^ 51) ≤ Y0 - (Y + R) ∧
      4 * R - YL * (1 / 2 ^ 18) ≤ Y0 - (Y + R) ∧
      (YL ≤ 2 ^ 18 * (3 * R) → Y + R ≤ Y0 - R) := by
  rw [initialize_returned] at hn
  obtain ⟨hcol, hrow, hxc, hyc⟩ := lattice_particle_cell E c i h1 hn
  have hmy1 : 1 ≤ max_in_y E c := by omega
  obtain ⟨R, YL, hR, hR0, hD, hYL, hYLh, hcy0, hmy0⟩ :=
    axis_setup E.conv_undefined c c.y_limit hv.1 hwf hv.2.2 hy hmy1
  have hcy : (max_in_y E c : ℚ) * (2 * R) ≤ YL * (1 + 1 / 2 ^ 52) := hcy0
  have hmy : max_in_y E c ≤ 2 ^ 32 := hmy0
  obtain ⟨Y, hY, hY1, hY2, hY3⟩ := F64.axis_coordinate c.radius (diameter c) R YL hR hD hR0
    (max_in_y E c) (row E c i) hrow hmy hcy hYLh
  rw [← hyc] at hY
  have hYL0 := F64.holds_pos c.y_limit YL hv.2.2 hYL
  -- four radii are at most two `y_limit`s, up to rounding
  have h4R : 4 * R ≤ 2 * (YL * (1 + 1 / 2 ^ 52)) := by
    have hm : (1 : ℚ) ≤ (max_in_y E c : ℚ) := by exact_mod_cast hmy1
    have : 2 * R ≤ (max_in_y E c : ℚ) * (2 * R) := by nlinarith
    linarith
  have hcell0 := (initialize_cell_zero E c (by omega)).1
  have hy0 : (( Sim.initialize E c).state.particles.cell 0).y_coordinate =
      F64.add c.y_limit (F64.mul (F64.ofNat 4) c.radius) := by rw [hcell0]
  have h4 : (F64.mul (F64.ofNat 4) c.radius).holds (4 * R) := by
    rcases F64.mul_four_holds c.radius R hR with ⟨_, hov⟩ | h
    · exfalso
      have : 2 * (YL * (1 + 1 / 2 ^ 52)) < 4 * YL := by nlinarith
      linarith
    · exact h
  have hsum : ∃ Y0, (F64.add c.y_limit (F64.mul (F64.ofNat 4) c.radius)).holds Y0 ∧
      (YL + 4 * R) * (1 - 1 / 2 ^ 52) ≤ Y0 := by
    rcases F64.add_holds _ _ YL (4 * R) hYL h4 with ⟨_, hov⟩ | ⟨Y0, hY0, hlow, _, _⟩
    · exfalso
      have h5 : (YL + 4 * R) * (1 + 1 / 2 ^ 52) ≤
          (YL + 2 * (YL * (1 + 1 / 2 ^ 52))) * (1 + 1 / 2 ^ 52) :=
        mul_le_mul_of_nonneg_right (by linarith) (by norm_num)
      have h6 : (YL + 2 * (YL * (1 + 1 / 2 ^ 52))) * (1 + 1 / 2 ^ 52) < 4 * YL := by
        have : (1 + 2 * (1 + 1 / 2 ^ 52 : ℚ)) * (1 + 1 / 2 ^ 52) < 4 := by norm_num
        nlinarith
      linarith
    · exact ⟨Y0, hY0, hlow⟩
  obtain ⟨Y0, hY0, hlow⟩ := hsum
  rw [← hy0] at hY0
  have hr0 : (0 : ℚ) ≤ (row E c i : ℚ) := Nat.cast_nonneg _
  have hprec : 4 * R - YL * ((row E c i + 3) / 2 ^ 51) ≤ Y0 - (Y + R) := by
    have e1 : (YL + 4 * R) * (1 - 1 / 2 ^ 52) = YL + 4 * R - YL / 2 ^ 52 - 4 * R / 2 ^ 52 := by
      ring
    have e2 : YL * (1 + (row E c i + 1) / 2 ^ 51) = YL + YL * ((row E c i + 1) / 2 ^ 51) := by
      ring
    have e3 : YL * ((row E c i + 3) / 2 ^ 51) =
        YL * ((row E c i + 1) / 2 ^ 51) + YL / 2 ^ 52 + 3 * YL / 2 ^ 52 := by ring
    have h7 : 4 * R / 2 ^ 52 ≤ 3 * YL / 2 ^ 52 := by
      apply div_le_div_of_nonneg_right _ (by norm_num)
      nlinarith
    rw [e1] at hlow
    rw [e2] at hY2
    rw [e3]
    linarith
  have hunif : YL * ((row E c i + 3) / 2 ^ 51) ≤ YL * (1 / 2 ^ 18) := by
    apply mul_le_mul_of_nonneg_left _ (le_of_lt hYL0)
    rw [div_le_div_iff₀ (by norm_num) (by norm_num)]
    have : (row E c i : ℚ) + 3 ≤ 2 ^ 33 := by
      have h8 : row E c i + 3 ≤ 2 ^ 33 := by omega
      exact_mod_cast h8
    norm_num at this ⊢
    linarith
  refine ⟨R, YL, Y0, Y, F64.holds_toRat _ _ hR, F64.holds_toRat _ _ hYL,
    F64.holds_toRat _ _ hY0, F64.holds_toRat _ _ hY, hprec, by linarith, ?_⟩
  intro hsmall
  have : YL * (1 / 2 ^ 18) ≤ 3 * R := by
    rw [mul_one_div, div_le_iff₀ (by norm_num)]
    linarith
  linarith

/-- C12 witness: particle 6 of the example configuration. -/
theorem impactor_clearance_witness :
    (config_example.valid ∧ config_example.radius.wf ∧ config_example.y_limit.moderate ∧
      1 ≤ 6 ∧ 6 < ( Sim.initialize Externals.sample config_example).returned) ∧
    ∃ R YL Y0 Y : ℚ, F64.toRat? config_example.radius = some R ∧
      F64.toRat? config_example.y_limit = some YL ∧
      F64.toRat?
          (( Sim.initialize Externals.sample config_example).state.particles.cell 0).y_coordinate =
        some Y0 ∧
      F64.toRat?
          (( Sim.initialize Externals.sample config_example).state.particles.cell 6).y_coordinate =
        some Y ∧
      4 * R - YL * ((row Externals.sample config_example 6 + 3) / 2 ^ 51) ≤ Y0 - (Y + R) ∧
      4 * R - YL * (1 / 2 ^ 18) ≤ Y0 - (Y + R) ∧
      (YL ≤ 2 ^ 18 * (3 * R) → Y + R ≤ Y0 - R) :=
  ⟨⟨by decide, by decide, by decide, by decide, by decide⟩,
    impactor_clearance Externals.sample config_example 6 (by decide) (by decide) (by decide)
      (by decide) (by decide)⟩

/-- C12 counterexample, at `config_tight` and particle 1: particle 0 is at
`y = 3 * 2^53 + 16`, particle 1 at `y = radius = 2^52 + 3`, and the clearance
`particles[0].y - (particles[1].y + radius)` is `2^54 + 10` exactly and
`2^54 + 8` in doubles, below `4 * radius = 2^54 + 12`. -/
theorem impactor_clearance_fails :
    config_tight.valid ∧ 1 < ( Sim.initialize Externals.sample config_tight).returned ∧
      F64.le (F64.mul (F64.ofNat 4) config_tight.radius)
          (F64.sub (( Sim.initialize Externals.sample config_tight).state.particles.cell
              0).y_coordinate
            (F64.add (( Sim.initialize Externals.sample config_tight).state.particles.cell
              1).y_coordinate config_tight.radius)) = false ∧
      F64.toRat? config_tight.radius = some 4503599627370499 ∧
      F64.toRat? (( Sim.initialize Externals.sample config_tight).state.particles.cell
        0).y_coordinate = some 27021597764222992 ∧
      F64.toRat? (( Sim.initialize Externals.sample config_tight).state.particles.cell
        1).y_coordinate = some 4503599627370499 ∧
      ¬ ((4 : ℚ) * 4503599627370499 ≤
        27021597764222992 - (4503599627370499 + 4503599627370499)) :=
  ⟨by decide, by decide, by decide, config_tight_values.1, config_tight_values.2.2.2.2.1,
    config_tight_values.2.2.2.2.2.2.1, by norm_num⟩

/-- C13, as the code has it: for a configuration with a lattice particle, particle 0 is
an entry of `particles`, at `x = x_limit / 2`, the midpoint of the domain;
particle 1 is at `x = radius`; particle `rightmost`, the last one of the first
row, is a lattice particle, and no lattice particle is in a column beyond its
column; particle 0 is at the midpoint of the extent of the lattice, from `0`
to the right edge of the disc of particle `rightmost`, when that edge is
`x_limit`. When the configuration is valid, its radius a double of the format
and `x_limit` a finite double below `2 ^ 1022`, the left edge of the disc of
particle 1 is at `radius - radius = 0`, the right edge of the disc of particle
`rightmost` is at most `x_limit * (1 + 2 ^ -19)`, and every lattice particle
has its `x` between `radius` and the `x` of particle `rightmost`. -/
theorem impactor_centred_on_domain (E : Externals) (c : Config)
    (hn : 1 < ( Sim.initialize E c).returned) :
    0 < ( Sim.initialize E c).state.particles.len ∧
      (( Sim.initialize E c).state.particles.cell 0).x_coordinate =
        F64.div c.x_limit (F64.ofNat 2) ∧
      (( Sim.initialize E c).state.particles.cell 1).x_coordinate = c.radius ∧
      1 ≤ rightmost E c ∧ rightmost E c < ( Sim.initialize E c).returned ∧
      column E c (rightmost E c) + 1 = rightmost E c ∧ row E c (rightmost E c) = 0 ∧
      (∀ k, 1 ≤ k → k < ( Sim.initialize E c).returned →
        column E c k ≤ column E c (rightmost E c)) ∧
      (c.x_limit = F64.add (( Sim.initialize E c).state.particles.cell
            (rightmost E c)).x_coordinate c.radius →
        (( Sim.initialize E c).state.particles.cell 0).x_coordinate =
          F64.div (F64.add (( Sim.initialize E c).state.particles.cell
            (rightmost E c)).x_coordinate c.radius) (F64.ofNat 2)) ∧
      (c.valid → c.radius.wf → c.x_limit.moderate →
        F64.sub (( Sim.initialize E c).state.particles.cell 1).x_coordinate c.radius =
          F64.zero ∧
        ∃ R XL Xw : ℚ, F64.toRat? c.radius = some R ∧ F64.toRat? c.x_limit = some XL ∧
          F64.toRat? (( Sim.initialize E c).state.particles.cell (rightmost E c)).x_coordinate =
            some Xw ∧
          Xw + R ≤ XL * (1 + 1 / 2 ^ 19) ∧
          ∀ k, 1 ≤ k → k < ( Sim.initialize E c).returned →
            ∃ X : ℚ, F64.toRat? (( Sim.initialize E c).state.particles.cell k).x_coordinate =
                some X ∧ R ≤ X ∧ X ≤ Xw) := by
  have hn' : 1 < num_particles E c := hn
  have hmx1 : 1 ≤ max_in_x E c := max_in_x_pos_of_lt E c 1 (le_refl 1) hn'
  have hcell0 := (initialize_cell_zero E c (by omega)).1
  have hx0 : (( Sim.initialize E c).state.particles.cell 0).x_coordinate =
      F64.div c.x_limit (F64.ofNat 2) := by rw [hcell0]
  have hw1 : 1 ≤ rightmost E c := by
    unfold rightmost
    rw [initialize_returned]
    exact le_min hmx1 (by omega)
  have hwn : rightmost E c < num_particles E c := by
    have : rightmost E c ≤ num_particles E c - 1 := by
      unfold rightmost
      rw [initialize_returned]
      exact min_le_right _ _
    omega
  have hwm : rightmost E c ≤ max_in_x E c := by
    unfold rightmost
    exact min_le_left _ _
  have hcolw : column E c (rightmost E c) = rightmost E c - 1 := by
    unfold column
    exact Nat.mod_eq_of_lt (by omega)
  have hroww : row E c (rightmost E c) = 0 := by
    unfold row
    exact Nat.div_eq_of_lt (by omega)
  have hcols : ∀ k, 1 ≤ k → k < ( Sim.initialize E c).returned →
      column E c k ≤ column E c (rightmost E c) := by
    intro k hk1 hkn
    rw [initialize_returned] at hkn
    rw [hcolw]
    have h1 : column E c k ≤ k - 1 := Nat.mod_le _ _
    have h3 : column E c k < max_in_x E c := Nat.mod_lt _ (by omega)
    have h2 : rightmost E c = max_in_x E c ∨ rightmost E c = num_particles E c - 1 := by
      unfold rightmost
      rw [initialize_returned]
      rcases Nat.le_total (max_in_x E c) (num_particles E c - 1) with h | h
      · left; exact Nat.min_eq_left h
      · right; exact Nat.min_eq_right h
    rcases h2 with h2 | h2 <;> omega
  obtain ⟨_, _, hx1, _⟩ := lattice_particle_cell E c 1 (le_refl 1) hn'
  have hcol1 : column E c 1 = 0 := by simp [column]
  rw [hcol1] at hx1
  have hx1' : (( Sim.initialize E c).state.particles.cell 1).x_coordinate = c.radius := hx1
  refine ⟨?_, hx0, hx1', hw1, hwn, ?_, hroww, hcols, ?_, ?_⟩
  · rw [(initialize_arrays E c).1]
    omega
  · rw [hcolw]
    omega
  · intro h
    rw [hx0, ← h]
  · intro hv hwf hx
    obtain ⟨R, XL, hR, hR0, hD, hXL, hXLh, hcx0, hmx0⟩ :=
      axis_setup E.conv_undefined c c.x_limit hv.1 hwf hv.2.1 hx hmx1
    have hcx : (max_in_x E c : ℚ) * (2 * R) ≤ XL * (1 + 1 / 2 ^ 52) := hcx0
    have hmx : max_in_x E c ≤ 2 ^ 32 := hmx0
    obtain ⟨hcw, _, hxw, _⟩ := lattice_particle_cell E c (rightmost E c) hw1 hwn
    obtain ⟨Xw, hXw, _, hXw2, hXw3⟩ := F64.axis_coordinate c.radius (diameter c) R XL hR hD hR0
      (max_in_x E c) (column E c (rightmost E c)) hcw hmx hcx hXLh
    refine ⟨?_, R, XL, Xw, F64.holds_toRat _ _ hR, F64.holds_toRat _ _ hXL, ?_,
      le_trans hXw2 hXw3, ?_⟩
    · rw [hx1']
      exact F64.sub_self_holds _ R hR
    · rw [hxw]
      exact F64.holds_toRat _ _ hXw
    · intro k hk1 hkn
      have hle := hcols k hk1 hkn
      rw [initialize_returned] at hkn
      obtain ⟨hck, _, hxk, _⟩ := lattice_particle_cell E c k hk1 hkn
      obtain ⟨Wa, Wb, hWa, hWb, hab⟩ := F64.addn_mono c.radius (diameter c) R (2 * R) hR hD
        (column E c k) (column E c (rightmost E c)) hle (by omega)
        (F64.axis_fin R XL hR0 (max_in_x E c) _ hcw hcx hXLh).1
      obtain ⟨X, hX, hX1, _⟩ := F64.axis_coordinate c.radius (diameter c) R XL hR hD hR0
        (max_in_x E c) (column E c k) hck hmx hcx hXLh
      refine ⟨X, ?_, hX1, ?_⟩
      · rw [hxk]
        exact F64.holds_toRat _ _ hX
      · rw [F64.holds_unique _ _ _ hX hWa, F64.holds_unique _ _ _ hXw hWb]
        exact hab

/-- C13 witness: the example configuration, where particle 0 is at
`x_limit / 2` and the left edge of the disc of particle 1 is at `0`. -/
theorem impactor_centred_on_domain_witness :
    1 < ( Sim.initialize Externals.sample config_example).returned ∧
    (( Sim.initialize Externals.sample config_example).state.particles.cell 0).x_coordinate =
      F64.div config_example.x_limit (F64.ofNat 2) ∧
    F64.sub (( Sim.initialize Externals.sample config_example).state.particles.cell
      1).x_coordinate config_example.radius = F64.zero :=
  ⟨by decide,
    (impactor_centred_on_domain Externals.sample config_example (by decide)).2.1,
    ((impactor_centred_on_domain Externals.sample config_example (by decide)).2.2.2.2.2.2.2.2.2
      (by decide) (by decide) (by decide)).1⟩

/-- C13 counterexample, at `config_strip` (radius 1, `x_limit = 5`): there are
five particles, the lattice extends from `x = 0` to `x = 2 * 2 = 4`, whose
midpoint is `2`, and particle 0 is at `x = 2.5`. -/
theorem impactor_off_lattice_centre :
    config_strip.valid ∧ 1 < ( Sim.initialize Externals.sample config_strip).returned ∧
      max_in_x Externals.sample config_strip = 2 ∧
      (( Sim.initialize Externals.sample config_strip).state.particles.cell 0).x_coordinate ≠
        F64.div
          (F64.add F64.zero
            (F64.mul (F64.ofNat (max_in_x Externals.sample config_strip))
              (diameter config_strip)))
          (F64.ofNat 2) ∧
      F64.toRat?
          (( Sim.initialize Externals.sample config_strip).state.particles.cell 0).x_coordinate =
        some (5 / 2) ∧
      F64.toRat? (diameter config_strip) = some 2 ∧
      ((0 : ℚ) + 2 * 2) / 2 ≠ 5 / 2 := by
  have hx : (( Sim.initialize Externals.sample config_strip).state.particles.cell
      0).x_coordinate = F64.finite false 5629499534213120 (-51) := by decide
  have hd : diameter config_strip = F64.finite false 4503599627370496 (-51) := by decide
  refine ⟨by decide, by decide, by decide, by decide, ?_, ?_, by norm_num⟩
  · rw [hx]; norm_num [F64.toRat?]
  · rw [hd]; norm_num [F64.toRat?]

/-- C14, as the code has it: for a valid configuration whose radius is a double of the
format and whose limits are finite doubles below `2 ^ 1022`, and a lattice
index `i`, the coordinates of particle `i` are finite and, in exact values,
`radius ≤ x`, `radius ≤ y`,
`x + radius ≤ x_limit * (1 + (column + 1) / 2 ^ 51)` and
`y + radius ≤ y_limit * (1 + (row + 1) / 2 ^ 51)`, with `column` and `row` the
cell of particle `i`; both factors are at most `1 + 2 ^ -19`. -/
theorem lattice_particle_within_domain (E : Externals) (c : Config) (i : Nat)
    (hv : c.valid) (hwf : c.radius.wf) (hx : c.x_limit.moderate) (hy : c.y_limit.moderate)
    (h1 : 1 ≤ i) (hn : i < ( Sim.initialize E c).returned) :
    ∃ R XL YL X Y : ℚ, F64.toRat? c.radius = some R ∧ F64.toRat? c.x_limit = some XL ∧
      F64.toRat? c.y_limit = some YL ∧
      F64.toRat? (( Sim.initialize E c).state.particles.cell i).x_coordinate = some X ∧
      F64.toRat? (( Sim.initialize E c).state.particles.cell i).y_coordinate = some Y ∧
      R ≤ X ∧ X + R ≤ XL * (1 + (column E c i + 1) / 2 ^ 51) ∧
      X + R ≤ XL * (1 + 1 / 2 ^ 19) ∧
      R ≤ Y ∧ Y + R ≤ YL * (1 + (row E c i + 1) / 2 ^ 51) ∧
      Y + R ≤ YL * (1 + 1 / 2 ^ 19) := by
  rw [initialize_returned] at hn
  obtain ⟨R, XL, YL, hR, hR0, hD, hXL, hYL, hXLh, hYLh, hcx, hcy, _, _, hmx, hmy⟩ :=
    lattice_setup E c hv hwf hx hy (by omega)
  obtain ⟨hcol, hrow, hxc, hyc⟩ := lattice_particle_cell E c i h1 hn
  obtain ⟨X, hX, hX1, hX2, hX3⟩ := F64.axis_coordinate c.radius (diameter c) R XL hR hD hR0
    (max_in_x E c) (column E c i) hcol hmx hcx hXLh
  obtain ⟨Y, hY, hY1, hY2, hY3⟩ := F64.axis_coordinate c.radius (diameter c) R YL hR hD hR0
    (max_in_y E c) (row E c i) hrow hmy hcy hYLh
  rw [← hxc] at hX
  rw [← hyc] at hY
  exact ⟨R, XL, YL, X, Y, F64.holds_toRat _ _ hR, F64.holds_toRat _ _ hXL,
    F64.holds_toRat _ _ hYL, F64.holds_toRat _ _ hX, F64.holds_toRat _ _ hY, hX1, hX2,
    le_trans hX2 hX3, hY1, hY2, le_trans hY2 hY3⟩

/-- C14 witness: particle 6 of the example configuration. -/
theorem lattice_particle_within_domain_witness :
    (config_example.valid ∧ config_example.radius.wf ∧ config_example.x_limit.moderate ∧
      config_example.y_limit.moderate ∧ 1 ≤ 6 ∧
      6 < ( Sim.initialize Externals.sample config_example).returned) ∧
    ∃ R XL YL X Y : ℚ, F64.toRat? config_example.radius = some R ∧
      F64.toRat? config_example.x_limit = some XL ∧
      F64.toRat? config_example.y_limit = some YL ∧
      F64.toRat?
          (( Sim.initialize Externals.sample config_example).state.particles.cell 6).x_coordinate =
        some X ∧
      F64.toRat?
          (( Sim.initialize Externals.sample config_example).state.particles.cell 6).y_coordinate =
        some Y ∧
      R ≤ X ∧ X + R ≤ XL * (1 + (column Externals.sample config_example 6 + 1) / 2 ^ 51) ∧
      X + R ≤ XL * (1 + 1 / 2 ^ 19) ∧
      R ≤ Y ∧ Y + R ≤ YL * (1 + (row Externals.sample config_example 6 + 1) / 2 ^ 51) ∧
      Y + R ≤ YL * (1 + 1 / 2 ^ 19) :=
  ⟨⟨by decide, by decide, by decide, by decide, by decide, by decide⟩,
    lattice_particle_within_domain Externals.sample config_example 6 (by decide) (by decide)
      (by decide) (by decide) (by decide) (by decide)⟩

/-- C14 counterexample, at `config_tight` and particle 4: it is at
`x = 7 * 2^52 + 24`, beyond `x_limit - radius`, which is `7 * 2^52 + 21`
exactly and `7 * 2^52 + 20` in doubles. -/
theorem lattice_particle_beyond_limit :
    config_tight.valid ∧ 4 < ( Sim.initialize Externals.sample config_tight).returned ∧
      F64.le (( Sim.initialize Externals.sample config_tight).state.particles.cell
          4).x_coordinate (F64.sub config_tight.x_limit config_tight.radius) = false ∧
      F64.toRat? config_tight.radius = some 4503599627370499 ∧
      F64.toRat? config_tight.x_limit = some 36028797018963992 ∧
      F64.toRat? (( Sim.initialize Externals.sample config_tight).state.particles.cell
        4).x_coordinate = some 31525197391593496 ∧
      ¬ ((31525197391593496 : ℚ) ≤ 36028797018963992 - 4503599627370499) :=
  ⟨by decide, by decide, by decide, config_tight_values.1, config_tight_values.2.2.1,
    config_tight_values.2.2.2.2.2.2.2.2.2, by norm_num⟩

/-- C15, as the code has it: for a valid configuration whose radius is a double of the
format and whose limits are finite doubles below `2 ^ 1022`, and two distinct
lattice indices `i` and `j`, the coordinates of both particles are finite
and, in exact values: in one row the `x` differ by at least
`diameter * (1 - (2 * k + 3) / 2 ^ 52)`, `k` the lesser column; in two rows
the `y` differ by at least `diameter * (1 - (2 * k + 3) / 2 ^ 52)`, `k` the
lesser row; so the centres differ by at least `diameter * (1 - 2 ^ -19)` in
`x` or in `y`, and no two lattice particles share a position. -/
theorem lattice_particles_apart (E : Externals) (c : Config) (i j : Nat)
    (hv : c.valid) (hwf : c.radius.wf) (hx : c.x_limit.moderate) (hy : c.y_limit.moderate)
    (hi1 : 1 ≤ i) (hin : i < ( Sim.initialize E c).returned)
    (hj1 : 1 ≤ j) (hjn : j < ( Sim.initialize E c).returned) (hij : i ≠ j) :
    ∃ D Xi Yi Xj Yj : ℚ, F64.toRat? (diameter c) = some D ∧ 0 < D ∧
      F64.toRat? (( Sim.initialize E c).state.particles.cell i).x_coordinate = some Xi ∧
      F64.toRat? (( Sim.initialize E c).state.particles.cell i).y_coordinate = some Yi ∧
      F64.toRat? (( Sim.initialize E c).state.particles.cell j).x_coordinate = some Xj ∧
      F64.toRat? (( Sim.initialize E c).state.particles.cell j).y_coordinate = some Yj ∧
      (row E c i = row E c j →
        D * (1 - (2 * (min (column E c i) (column E c j) : Nat) + 3) / 2 ^ 52) ≤ |Xi - Xj|) ∧
      (row E c i ≠ row E c j →
        D * (1 - (2 * (min (row E c i) (row E c j) : Nat) + 3) / 2 ^ 52) ≤ |Yi - Yj|) ∧
      (D * (1 - 1 / 2 ^ 19) ≤ |Xi - Xj| ∨ D * (1 - 1 / 2 ^ 19) ≤ |Yi - Yj|) ∧
      (Xi ≠ Xj ∨ Yi ≠ Yj) := by
  rw [initialize_returned] at hin hjn
  obtain ⟨R, XL, YL, hR, hR0, hD, hXL, hYL, hXLh, hYLh, hcx, hcy, _, _, hmx, hmy⟩ :=
    lattice_setup E c hv hwf hx hy (by omega)
  obtain ⟨hci, hri, hxi, hyi⟩ := lattice_particle_cell E c i hi1 hin
  obtain ⟨hcj, hrj, hxj, hyj⟩ := lattice_particle_cell E c j hj1 hjn
  obtain ⟨Xi, hXi, _⟩ := F64.axis_coordinate c.radius (diameter c) R XL hR hD hR0
    (max_in_x E c) (column E c i) hci hmx hcx hXLh
  obtain ⟨Xj, hXj, _⟩ := F64.axis_coordinate c.radius (diameter c) R XL hR hD hR0
    (max_in_x E c) (column E c j) hcj hmx hcx hXLh
  obtain ⟨Yi, hYi, _⟩ := F64.axis_coordinate c.radius (diameter c) R YL hR hD hR0
    (max_in_y E c) (row E c i) hri hmy hcy hYLh
  obtain ⟨Yj, hYj, _⟩ := F64.axis_coordinate c.radius (diameter c) R YL hR hD hR0
    (max_in_y E c) (row E c j) hrj hmy hcy hYLh
  have hpos : 0 < 2 * R * (1 - 1 / 2 ^ 19) := by
    have : (0 : ℚ) < 1 - 1 / 2 ^ 19 := by norm_num
    positivity
  have hxgap : column E c i ≠ column E c j →
      2 * R * (1 - (2 * (min (column E c i) (column E c j) : Nat) + 3) / 2 ^ 52) ≤ |Xi - Xj| ∧
        2 * R * (1 - 1 / 2 ^ 19) ≤ |Xi - Xj| := by
    intro hne
    obtain ⟨Wa, Wb, hWa, hWb, hg, hu⟩ := axis_apart c.radius (diameter c) R XL hR hD hR0
      (max_in_x E c) (column E c i) (column E c j) hci hcj hne hmx hcx hXLh
    rw [F64.holds_unique _ _ _ hXi hWa, F64.holds_unique _ _ _ hXj hWb]
    exact ⟨hg, hu⟩
  have hygap : row E c i ≠ row E c j →
      2 * R * (1 - (2 * (min (row E c i) (row E c j) : Nat) + 3) / 2 ^ 52) ≤ |Yi - Yj| ∧
        2 * R * (1 - 1 / 2 ^ 19) ≤ |Yi - Yj| := by
    intro hne
    obtain ⟨Wa, Wb, hWa, hWb, hg, hu⟩ := axis_apart c.radius (diameter c) R YL hR hD hR0
      (max_in_y E c) (row E c i) (row E c j) hri hrj hne hmy hcy hYLh
    rw [F64.holds_unique _ _ _ hYi hWa, F64.holds_unique _ _ _ hYj hWb]
    exact ⟨hg, hu⟩
  have hcol_of_row : row E c i = row E c j → column E c i ≠ column E c j := by
    intro hr hc
    exact hij (index_eq_of_column_row_eq (max_in_x E c) i j hi1 hj1 hc hr)
  rw [← hxi] at hXi
  rw [← hyi] at hYi
  rw [← hxj] at hXj
  rw [← hyj] at hYj
  refine ⟨2 * R, Xi, Yi, Xj, Yj, F64.holds_toRat _ _ hD, by linarith, F64.holds_toRat _ _ hXi,
    F64.holds_toRat _ _ hYi, F64.holds_toRat _ _ hXj, F64.holds_toRat _ _ hYj, ?_, ?_, ?_, ?_⟩
  · intro hr
    exact (hxgap (hcol_of_row hr)).1
  · intro hr
    exact (hygap hr).1
  · by_cases hr : row E c i = row E c j
    · exact Or.inl (hxgap (hcol_of_row hr)).2
    · exact Or.inr (hygap hr).2
  · by_cases hr : row E c i = row E c j
    · left
      intro heq
      have := (hxgap (hcol_of_row hr)).2
      rw [heq, sub_self, abs_zero] at this
      linarith
    · right
      intro heq
      have := (hygap hr).2
      rw [heq, sub_self, abs_zero] at this
      linarith

/-- C15 witness: particles 6 and 7 of the example configuration. -/
theorem lattice_particles_apart_witness :
    (config_example.valid ∧ config_example.radius.wf ∧ config_example.x_limit.moderate ∧
      config_example.y_limit.moderate ∧
      1 ≤ 6 ∧ 6 < ( Sim.initialize Externals.sample config_example).returned ∧
      1 ≤ 7 ∧ 7 < ( Sim.initialize Externals.sample config_example).returned ∧ 6 ≠ 7) ∧
    ∃ D Xi Yi Xj Yj : ℚ, F64.toRat? (diameter config_example) = some D ∧ 0 < D ∧
      F64.toRat?
          (( Sim.initialize Externals.sample config_example).state.particles.cell 6).x_coordinate =
        some Xi ∧
      F64.toRat?
          (( Sim.initialize Externals.sample config_example).state.particles.cell 6).y_coordinate =
        some Yi ∧
      F64.toRat?
          (( Sim.initialize Externals.sample config_example).state.particles.cell 7).x_coordinate =
        some Xj ∧
      F64.toRat?
          (( Sim.initialize Externals.sample config_example).state.particles.cell 7).y_coordinate =
        some Yj ∧
      (row Externals.sample config_example 6 = row Externals.sample config_example 7 →
        D * (1 - (2 * (min (column Externals.sample config_example 6)
            (column Externals.sample config_example 7) : Nat) + 3) / 2 ^ 52) ≤ |Xi - Xj|) ∧
      (row Externals.sample config_example 6 ≠ row Externals.sample config_example 7 →
        D * (1 - (2 * (min (row Externals.sample config_example 6)
            (row Externals.sample config_example 7) : Nat) + 3) / 2 ^ 52) ≤ |Yi - Yj|) ∧
      (D * (1 - 1 / 2 ^ 19) ≤ |Xi - Xj| ∨ D * (1 - 1 / 2 ^ 19) ≤ |Yi - Yj|) ∧
      (Xi ≠ Xj ∨ Yi ≠ Yj) :=
  ⟨⟨by decide, by decide, by decide, by decide, by decide, by decide, by decide, by decide,
      by decide⟩,
    lattice_particles_apart Externals.sample config_example 6 7 (by decide) (by decide)
      (by decide) (by decide) (by decide) (by decide) (by decide) (by decide) (by decide)⟩

/-- C15 counterexample, at `config_tight` and particles 1 and 2: they have the
same `y`, and their `x` differ by `2^53 + 5` exactly and `2^53 + 4` in doubles,
less than `diameter = 2^53 + 6`. -/
theorem lattice_particles_closer_than_diameter :
    config_tight.valid ∧ 2 < ( Sim.initialize Externals.sample config_tight).returned ∧
      F64.le (diameter config_tight)
          (F64.abs (F64.sub
            (( Sim.initialize Externals.sample config_tight).state.particles.cell 1).x_coordinate
            (( Sim.initialize Externals.sample config_tight).state.particles.cell
              2).x_coordinate)) = false ∧
      F64.le (diameter config_tight)
          (F64.abs (F64.sub
            (( Sim.initialize Externals.sample config_tight).state.particles.cell 1).y_coordinate
            (( Sim.initialize Externals.sample config_tight).state.particles.cell
              2).y_coordinate)) = false ∧
      F64.toRat? (diameter config_tight) = some 9007199254740998 ∧
      F64.toRat? (( Sim.initialize Externals.sample config_tight).state.particles.cell
        1).x_coordinate = some 4503599627370499 ∧
      F64.toRat? (( Sim.initialize Externals.sample config_tight).state.particles.cell
        2).x_coordinate = some 13510798882111496 ∧
      F64.toRat? (( Sim.initialize Externals.sample config_tight).state.particles.cell
        1).y_coordinate = some 4503599627370499 ∧
      F64.toRat? (( Sim.initialize Externals.sample config_tight).state.particles.cell
        2).y_coordinate = some 4503599627370499 ∧
      ¬ ((9007199254740998 : ℚ) ≤ |4503599627370499 - 13510798882111496| ∨
        (9007199254740998 : ℚ) ≤ |4503599627370499 - 4503599627370499|) := by
  refine ⟨by decide, by decide, by decide, by decide, config_tight_values.2.1,
    config_tight_values.2.2.2.2.2.1, config_tight_values.2.2.2.2.2.2.2.1,
    config_tight_values.2.2.2.2.2.2.1, config_tight_values.2.2.2.2.2.2.2.2.1, ?_⟩
  norm_num [abs_of_neg]

/-- C16 (every store is in bounds, the count returned is at least 1), at
`config_wrap_zero`: `max_in_x = 4294967295`, `max_in_y = 1`, the `unsigned int`
sum `4294967295 * 1 + 1` wraps to `0`, `initialize` returns `0`, every array
of `num_particles` entries is allocated with none, and the stores of the
falling particle go to index 0 of `particles`, `properties` and `velocities`. -/
theorem impactor_store_out_of_bounds (E : Externals) :
    config_wrap_zero.valid ∧ max_in_x E config_wrap_zero = 4294967295 ∧
      max_in_y E config_wrap_zero = 1 ∧
      ( Sim.initialize E config_wrap_zero).returned = 0 ∧
      ( Sim.initialize E config_wrap_zero).state.particles.len = 0 ∧
      ( Sim.initialize E config_wrap_zero).state.properties.len = 0 ∧
      ( Sim.initialize E config_wrap_zero).state.velocities.len = 0 ∧
      Event.store .particles 0 ∈ ( Sim.initialize E config_wrap_zero).state.trace ∧
      Event.store .properties 0 ∈ ( Sim.initialize E config_wrap_zero).state.trace ∧
      Event.store .velocities 0 ∈ ( Sim.initialize E config_wrap_zero).state.trace := by
  have hv : config_wrap_zero.valid := by decide
  have hqx : F64.trunc? (F64.floor (F64.div config_wrap_zero.x_limit
      (diameter config_wrap_zero))) = some 4294967295 := by decide
  have hqy : F64.trunc? (F64.floor (F64.div config_wrap_zero.y_limit
      (diameter config_wrap_zero))) = some 1 := by decide
  have hx : max_in_x E config_wrap_zero = 4294967295 := by
    simp only [max_in_x, F64.toUInt, hqx]
    norm_num
  have hy : max_in_y E config_wrap_zero = 1 := by
    simp only [max_in_y, F64.toUInt, hqy]
    norm_num
  have hn : num_particles E config_wrap_zero = 0 := by
    rw [num_particles, hx, hy]
    norm_num
  have hr : ( Sim.initialize E config_wrap_zero).returned = 0 := by
    rw [initialize_returned, hn]
  obtain ⟨hpl, hql, hvl⟩ := initialize_store_lens E config_wrap_zero
  have hmem : ∀ ev ∈ [Event.store .particles 0, Event.store .particles 0,
      Event.store .particles 0, Event.store .properties 0, Event.store .properties 0,
      Event.store .properties 0, Event.store .velocities 0],
      ev ∈ ( Sim.initialize E config_wrap_zero).state.trace := by
    intro ev hev
    exact List.mem_append_right _ hev
  refine ⟨hv, hx, hy, hr, ?_, ?_, ?_, ?_, ?_, ?_⟩
  · rw [hpl, hn]
  · rw [hql, hn]
  · rw [hvl, hn]
  · exact hmem _ (by simp)
  · exact hmem _ (by simp)
  · exact hmem _ (by simp)
